import Mathlib

/-!
# Configuration inheritance resolver (package `configresolver`)

A shallow embedding of `configresolver.go`: the JSON document model, the deep
merge `mergeMaps`, the normalisation `toStringSlice` and the recursive resolver
`resolveWithFetcher`, followed by the properties established about them.

Modelling conventions.

* A Go `map[string]interface{}` is an association list `Doc`. Reading `m[k]`
  returns the first entry for `k`, writing `m[k] = v` replaces that entry or
  appends a new one, and `range` visits the entries in list order. A Go map has
  one entry per key, so the documents the program can really hold are the ones
  whose key list has no duplicate (`Doc.keys m` is `Nodup`).
* Numbers are carried around and never inspected, an `Int` stands for them.
* The `visited` map of the source only ever receives the value `true`, it is
  the list of its keys. The `Fetch` calls are recorded, oldest first.
* The recursion of `resolveWithFetcher` follows the fetched documents and need
  not end, so the embedding takes a bound on the nesting of calls and answers
  `none` when the bound is exhausted.
-/

namespace configresolver

/-! ## Documents -/

mutual
/-- JSON value held in an `interface{}`. -/
inductive Value where
  | null
  | bool (b : Bool)
  | num (n : Int)
  | str (s : String)
  | arr (xs : List Value)
  | obj (m : Doc)
/-- Go `map[string]interface{}` as an association list. -/
inductive Doc where
  | nil
  | cons (k : String) (v : Value) (rest : Doc)
end

/-- Map read `v, ok := m[k]`. -/
def Doc.get (k : String) : Doc → Option Value
  | .nil => none
  | .cons k1 v rest => if k1 = k then some v else Doc.get k rest

/-- Map write `m[k] = v`. -/
def Doc.set (k : String) (v : Value) : Doc → Doc
  | .nil => .cons k v .nil
  | .cons k1 v1 rest => if k1 = k then .cons k v rest else .cons k1 v1 (Doc.set k v rest)

/-- Builtin `delete(m, k)`. -/
def Doc.delete (k : String) : Doc → Doc
  | .nil => .nil
  | .cons k1 v1 rest => if k1 = k then Doc.delete k rest else .cons k1 v1 (Doc.delete k rest)

/-- Keys of a map, in entry order. -/
def Doc.keys : Doc → List String
  | .nil => []
  | .cons k _ rest => k :: Doc.keys rest

/-- Type assertion `v.(map[string]interface{})` succeeds. -/
def Value.isMapping : Value → Bool
  | .obj _ => true
  | _ => false

/-! ## Errors -/

/-- Errors of the package, one constructor per construction site, together with
the errors a `Fetcher` may hand back. -/
inductive Error where
  /-- Value `errors.New("fetcher must not be nil")`. -/
  | nilFetcher
  /-- Value `errors.New("extends must be a string or array of strings")`. -/
  | extendsShape
  /-- Value `fmt.Errorf("%w: %s", ErrCircularReference, ext)`. -/
  | circular (ext : String)
  /-- Value `fmt.Errorf("invalid extends syntax: %s", ext)`. -/
  | extendsSyntaxErr (ext : String)
  /-- Value `fmt.Errorf("unsupported extend: %s", ext)`. -/
  | unsupported (ext : String)
  /-- Sentinel `ErrUnknownReference`. -/
  | unknownReference
  /-- Any other error produced by a `Fetcher`. -/
  | fetchFailure (msg : String)
  deriving DecidableEq, Repr

/-- Text of `err.Error()`. -/
def Error.message : Error → String
  | .nilFetcher => "fetcher must not be nil"
  | .extendsShape => "extends must be a string or array of strings"
  | .circular ext => "circular reference detected: " ++ ext
  | .extendsSyntaxErr ext => "invalid extends syntax: " ++ ext
  | .unsupported ext => "unsupported extend: " ++ ext
  | .unknownReference => "unknown gitlab reference"
  | .fetchFailure msg => msg

/-- Test `errors.Is(err, ErrCircularReference)`. -/
def Error.isCircular : Error → Bool
  | .circular _ => true
  | _ => false

/-! ## Deep merge (`mergeMaps`, lines 91-109) -/

/-- First loop of `mergeMaps`: `for k, v := range a { out[k] = v }`. -/
def copyInto (out : Doc) : Doc → Doc
  | .nil => out
  | .cons k v rest => copyInto (Doc.set k v out) rest

/-- Second loop of `mergeMaps`: `for k, vb := range b { ... }`. The nested call
`mergeMaps(mapA, mapB)` is the two loops run on `mapA` and `mapB`. -/
def mergeLoop (out : Doc) : Doc → Doc
  | .nil => out
  | .cons k vb rest =>
    match Doc.get k out, vb with
    | some (.obj mapA), .obj mapB =>
      mergeLoop (Doc.set k (.obj (mergeLoop (copyInto .nil mapA) mapB)) out) rest
    | _, _ => mergeLoop (Doc.set k vb out) rest
termination_by structural b => b

/-- Function `mergeMaps(a, b)`: values from `b` override values from `a`. -/
def mergeMaps (a b : Doc) : Doc :=
  mergeLoop (copyInto .nil a) b

/-- Value that one iteration of the second loop of `mergeMaps` stores under a
key of `b`, from the value `out[k]` read before the write (lines 98-106). -/
def mergeEntry (va : Option Value) (vb : Value) : Value :=
  match va, vb with
  | some (.obj mapA), .obj mapB => .obj (mergeMaps mapA mapB)
  | _, _ => vb

/-! ## Normalisation of `extends` (`toStringSlice`, lines 111-129) -/

/-- Loop of the `[]interface{}` case: appends each string, gives `(nil, false)`
at the first element that is not a string. -/
def toStringSliceLoop (out : List String) : List Value → List String × Bool
  | [] => (out, true)
  | .str s :: rest => toStringSliceLoop (out ++ [s]) rest
  | _ :: _ => ([], false)

/-- Function `toStringSlice(raw)`; the `nil` slice is the empty list. -/
def toStringSlice : Value → List String × Bool
  | .str v => ([v], true)
  | .arr v => toStringSliceLoop [] v
  | _ => ([], false)

/-! ## Strings -/

/-- Character-level test that the second list starts the first. -/
def startsWithChars : List Char → List Char → Bool
  | _, [] => true
  | [], _ :: _ => false
  | c :: cs, p :: ps => if c = p then startsWithChars cs ps else false

/-- Library `strings.HasPrefix(s, p)`. -/
def startsWith (s p : String) : Bool :=
  startsWithChars s.data p.data

/-- Library `strings.TrimPrefix(s, p)`. -/
def trimLeading (s p : String) : String :=
  if startsWith s p then String.mk (s.data.drop p.data.length) else s

/-- Split of a character list at the first occurrence of `sep`. -/
def cutAt (sep : Char) : List Char → Option (List Char × List Char)
  | [] => none
  | c :: cs =>
    if c = sep then some ([], cs)
    else match cutAt sep cs with
      | none => none
      | some (before, after) => some (c :: before, after)

/-- Library `strings.SplitN(s, sep, 2)` for a one-character separator. -/
def splitN2 (s : String) (sep : Char) : List String :=
  match cutAt sep s.data with
  | none => [s]
  | some (before, after) => [String.mk before, String.mk after]

/-! ## The resolver (`resolveWithFetcher`, lines 20-89) -/

/-- Method `Fetch(branch, projectPath)` of the `Fetcher` interface. -/
abbrev Fetcher := String → String → Except Error Doc

/-- Mutable surroundings of a call: the shared `visited` map and the `Fetch`
calls made so far. -/
structure Env where
  visited : List String
  calls : List (String × String)

/-- Lines 44-61 and 68-70: the branch and project a reference names. -/
def parseExtend (ext : String) : Except Error (String × String) :=
  if startsWith ext "gitlab" then
    if startsWith ext "gitlab@" then
      match splitN2 (trimLeading ext "gitlab@") '>' with
      | [branch, project] => .ok (branch, project)
      | _ => .error (.extendsSyntaxErr ext)
    else .ok ("main", trimLeading ext "gitlab>")
  else .error (.unsupported ext)

/-- Loop of lines 37-83 over the references still to process, with the
accumulator `merged`. The recursive call of line 75 is the argument `recur`. -/
def extendsLoop (recur : Doc → Env → Option (Except Error Doc × Env)) (fetcher : Fetcher) :
    List String → Doc → Env → Option (Except Error Doc × Env)
  | [], merged, env => some (.ok merged, env)
  | ext :: rest, merged, env =>
    if ext ∈ env.visited then some (.error (.circular ext), env)
    else
      let env1 : Env := ⟨ext :: env.visited, env.calls⟩
      match parseExtend ext with
      | .error e => some (.error e, env1)
      | .ok (branch, project) =>
        let env2 : Env := ⟨env1.visited, env1.calls ++ [(branch, project)]⟩
        match fetcher branch project with
        | .error e => some (.error e, env2)
        | .ok extCfg =>
          match Doc.get "extends" extCfg with
          | none => extendsLoop recur fetcher rest (mergeMaps merged extCfg) env2
          | some subExtRaw =>
            match recur (.cons "extends" subExtRaw .nil) env2 with
            | none => none
            | some (.error e, env3) => some (.error e, env3)
            | some (.ok resolvedSub, env3) =>
              extendsLoop recur fetcher rest (mergeMaps merged (mergeMaps resolvedSub extCfg)) env3

/-- What a call of `resolveWithFetcher` leaves behind: the returned pair, the
caller's `cfg` map after the call, and the surroundings. -/
structure Outcome where
  ret : Except Error Doc
  cfg : Doc
  env : Env

/-- Function `resolveWithFetcher(cfg, visited, fetcher)`; `none` when more than
`fuel` nested calls would be needed. A nil fetcher is `none` in the second
argument. -/
def resolveWithFetcher : Nat → Option Fetcher → Doc → Env → Option Outcome
  | 0, _, _, _ => none
  | fuel + 1, fetcher, cfg, env =>
    match fetcher with
    | none => some ⟨.error .nilFetcher, cfg, env⟩
    | some f =>
      match Doc.get "extends" cfg with
      | none => some ⟨.ok cfg, cfg, env⟩
      | some extendsRaw =>
        match toStringSlice extendsRaw with
        | (_, false) => some ⟨.error .extendsShape, cfg, env⟩
        | (extendsList, true) =>
          let recur : Doc → Env → Option (Except Error Doc × Env) := fun sub e =>
            (resolveWithFetcher fuel fetcher sub e).map (fun o => (o.ret, o.env))
          match extendsLoop recur f extendsList .nil env with
          | none => none
          | some (.error e, env1) => some ⟨.error e, cfg, env1⟩
          | some (.ok merged, env1) =>
            some ⟨.ok (mergeMaps merged (Doc.delete "extends" cfg)), Doc.delete "extends" cfg, env1⟩

/-! ## The reference grammar, in the words of the specification -/

/-- Relation `GitlabRef ext branch project`: the reference `ext` is written in one
of the two supported forms and names `project` on `branch`. The form
`gitlab>project` names the branch `main`; in the form `gitlab@branch>project`
the branch ends at the first `>`. -/
inductive GitlabRef : String → String → String → Prop where
  | onMain (project : String) : GitlabRef ("gitlab>" ++ project) "main" project
  | onBranch (branch project : String) (h : '>' ∉ branch.data) :
      GitlabRef ("gitlab@" ++ branch ++ ">" ++ project) branch project

/-- References declared by a document: its normalised `extends`, empty when the
key is absent or ill-shaped. -/
def extendsRefs (d : Doc) : List String :=
  match Doc.get "extends" d with
  | none => []
  | some raw => (toStringSlice raw).1

/-! ## Bookkeeping of the `Fetch` calls -/

/-- Relation between the surroundings before and after a call that ended with
`ret`: the recorded `Fetch` calls are the earlier ones followed by new ones, and
a new call that the fetcher answers with an error `e` makes `ret` that error. -/
def CallsExtend (f : Fetcher) (env : Env) (ret : Except Error Doc) (env1 : Env) : Prop :=
  ∃ cs, env1.calls = env.calls ++ cs ∧
    ∀ c ∈ cs, ∀ e, f c.1 c.2 = .error e → ret = .error e

/-! ## Inputs of the test suite (`configresolver_test.go`) -/

/-- Map `a` of `TestMergeMaps`. -/
def testMergeA : Doc :=
  .cons "rules" (.obj (.cons "maxLen" (.num 80) (.cons "indent" (.num 2) .nil)))
    (.cons "root" (.bool true) .nil)

/-- Map `b` of `TestMergeMaps`. -/
def testMergeB : Doc :=
  .cons "rules" (.obj (.cons "indent" (.num 4) (.cons "quotes" (.str "double") .nil))) .nil

/-- Fetcher of `TestResolveConfigStringWithFetcher_Basic`. -/
def testBasicFetcher : Fetcher := fun branch project =>
  if branch = "main" ∧ project = "html-validate/renovate-config" then
    .ok (.cons "rules" (.obj (.cons "indent" (.num 2) .nil)) .nil)
  else if branch = "dev" ∧ project = "html-validate/base" then
    .ok (.cons "rules" (.obj (.cons "quotes" (.str "single") .nil)) .nil)
  else .error .unknownReference

/-- Document `cfg` of `TestResolveConfigStringWithFetcher_Basic`. -/
def testBasicCfg : Doc :=
  .cons "extends"
    (.arr [.str "gitlab>html-validate/renovate-config", .str "gitlab@dev>html-validate/base"])
    (.cons "rules" (.obj (.cons "maxLen" (.num 100) .nil)) .nil)

/-- Documents behind the two references of `testBasicCfg`. -/
def testBasicParent (ext : String) : Doc :=
  if ext = "gitlab>html-validate/renovate-config" then
    .cons "rules" (.obj (.cons "indent" (.num 2) .nil)) .nil
  else .cons "rules" (.obj (.cons "quotes" (.str "single") .nil)) .nil

/-- Mock fetcher without data, as in
`TestResolveConfigStringWithFetcher_UnsupportedExtends`. -/
def testEmptyFetcher : Fetcher := fun _ _ => .error .unknownReference

/-- Document `cfg` of `TestResolveConfigStringWithFetcher_UnsupportedExtends`. -/
def testUnsupportedCfg : Doc :=
  .cons "extends" (.arr [.str "npm>package"]) .nil

/-- Fetcher of `TestResolveConfigStringWithFetcher_Circular`. -/
def testCircularFetcher : Fetcher := fun branch project =>
  if branch = "main" ∧ project = "foo/bar" then
    .ok (.cons "extends" (.arr [.str "gitlab>foo/bar"]) .nil)
  else .error .unknownReference

/-- Document `cfg` of `TestResolveConfigStringWithFetcher_Circular`. -/
def testCircularCfg : Doc :=
  .cons "extends" (.arr [.str "gitlab>foo/bar"]) .nil

/-! ## Further inputs -/

/-- Fetcher with a parent `a` on `main` that extends `gitlab>b`, and a leaf `b`. -/
def nestedFetcher : Fetcher := fun branch project =>
  if branch = "main" ∧ project = "a" then
    .ok (.cons "extends" (.str "gitlab>b") (.cons "x" (.num 1) .nil))
  else if branch = "main" ∧ project = "b" then
    .ok (.cons "y" (.num 2) .nil)
  else .error .unknownReference

/-- Document that extends the parent `a` of `nestedFetcher`. -/
def nestedCfg : Doc :=
  .cons "extends" (.str "gitlab>a") .nil

/-- Fetcher that answers every call with the same leaf document. -/
def constFetcher : Fetcher := fun _ _ => .ok (.cons "x" (.num 1) .nil)

/-- Document whose only reference starts with `gitlab` and goes on with a
letter. -/
def gitlabfooCfg : Doc :=
  .cons "extends" (.str "gitlabfoo") .nil

/-- Document `cfg` of `TestResolveConfigStringWithFetcher_UnknownReference`. -/
def testUnknownCfg : Doc :=
  .cons "extends" (.arr [.str "gitlab>not/exist"]) .nil

/-! ## Further notions used in the statements -/

/-- Entries of the first map followed by the entries of the second. -/
def Doc.append : Doc → Doc → Doc
  | .nil, b => b
  | .cons k v rest, b => .cons k v (Doc.append rest b)

/-- Value found by following a path of keys through nested mappings: the last
key is read in the mapping reached by the keys before it. -/
def Doc.getPath : List String → Doc → Option Value
  | [], _ => none
  | [k], m => Doc.get k m
  | k :: k2 :: path, m =>
    match Doc.get k m with
    | some (.obj sub) => Doc.getPath (k2 :: path) sub
    | _ => none

mutual
/-- Every mapping inside the value has one entry per key. -/
def Value.WellFormed : Value → Prop
  | .arr xs => Value.WellFormedList xs
  | .obj m => Doc.WellFormed m
  | _ => True
/-- Every value of the sequence is well formed. -/
def Value.WellFormedList : List Value → Prop
  | [] => True
  | x :: xs => Value.WellFormed x ∧ Value.WellFormedList xs
/-- Map as a Go program can hold it: one entry per key, here and in every
mapping nested in its values. -/
def Doc.WellFormed : Doc → Prop
  | .nil => True
  | .cons k v rest => k ∉ Doc.keys rest ∧ Value.WellFormed v ∧ Doc.WellFormed rest
end

/-- Document whose `extends` holds a number after a valid reference. -/
def mixedExtendsCfg : Doc :=
  .cons "extends" (.arr [.str "gitlab>a", .num 123]) (.cons "x" (.num 1) .nil)

/-- Document whose only reference names a branch and lacks the `>`. -/
def malformedBranchCfg : Doc :=
  .cons "extends" (.str "gitlab@dev") .nil

/-- Map with a mapping under `k`, written `a` in the example of non-associativity. -/
def assocA : Doc := .cons "k" (.obj (.cons "x" (.num 1) .nil)) .nil

/-- Map with a number under `k`, written `b` in the same example. -/
def assocB : Doc := .cons "k" (.num 5) .nil

/-- Map with another mapping under `k`, written `c` in the same example. -/
def assocC : Doc := .cons "k" (.obj (.cons "y" (.num 2) .nil)) .nil

/-- Fetcher with the maps `assocA` and `assocB` as the projects `a` and `b`. -/
def assocFetcher : Fetcher := fun branch project =>
  if branch = "main" ∧ project = "a" then .ok assocA
  else if branch = "main" ∧ project = "b" then .ok assocB
  else .error .unknownReference

/-- Document that extends `a` then `b` and holds the entries of `assocC`. -/
def assocCfg : Doc :=
  .cons "extends" (.arr [.str "gitlab>a", .str "gitlab>b"])
    (.cons "k" (.obj (.cons "y" (.num 2) .nil)) .nil)

/-! ## Bookkeeping of the visited references -/

/-- Relation between the surroundings before and after a stretch of the walk:
`rs` are the references reached in it, in order, pairwise distinct and none of
them visited before; they are added to the visited set; `Fetch` was called for
the references `fs` among them, once each, with the arguments they parse to. -/
def Walk (env env1 : Env) : Prop :=
  ∃ (rs fs : List String) (cs : List (String × String)),
    rs.Nodup ∧ (∀ r ∈ rs, r ∉ env.visited) ∧
    env1.visited = rs.reverse ++ env.visited ∧
    fs.Sublist rs ∧ env1.calls = env.calls ++ cs ∧
    List.Forall₂ (fun r c => parseExtend r = .ok c) fs cs

/-- Outcome of resolving `nestedCfg` with `nestedFetcher` from empty
surroundings. -/
def nestedOutcome : Outcome :=
  ⟨.ok (.cons "y" (.num 2) (.cons "extends" (.str "gitlab>b") (.cons "x" (.num 1) .nil))),
    .nil, ⟨["gitlab>b", "gitlab>a"], [("main", "a"), ("main", "b")]⟩⟩

/-- Fetcher of a diamond: the projects `a` and `b` both extend `gitlab>c`, which
is a leaf. -/
def diamondFetcher : Fetcher := fun branch project =>
  if branch = "main" ∧ project = "a" then
    .ok (.cons "extends" (.str "gitlab>c") (.cons "x" (.num 1) .nil))
  else if branch = "main" ∧ project = "b" then
    .ok (.cons "extends" (.str "gitlab>c") (.cons "y" (.num 2) .nil))
  else if branch = "main" ∧ project = "c" then
    .ok (.cons "z" (.num 3) .nil)
  else .error .unknownReference

/-- Document that extends both sides of the diamond. -/
def diamondCfg : Doc :=
  .cons "extends" (.arr [.str "gitlab>a", .str "gitlab>b"]) .nil

/-- Outcome of resolving `testBasicCfg` with `testBasicFetcher` from empty
surroundings. -/
def testBasicOutcome : Outcome :=
  ⟨.ok (.cons "rules" (.obj (.cons "indent" (.num 2) (.cons "quotes" (.str "single")
      (.cons "maxLen" (.num 100) .nil)))) .nil),
    .cons "rules" (.obj (.cons "maxLen" (.num 100) .nil)) .nil,
    ⟨["gitlab@dev>html-validate/base", "gitlab>html-validate/renovate-config"],
      [("main", "html-validate/renovate-config"), ("dev", "html-validate/base")]⟩⟩

/-- Document that extends the parent `a` of `nestedFetcher` and sets `x`. -/
def nestedOwnCfg : Doc :=
  .cons "extends" (.str "gitlab>a") (.cons "x" (.num 7) .nil)

/-! ## The resolver with the surroundings of a run cut short -/

/-- Loop of lines 37-83, as `extendsLoop`, that also hands back the surroundings
reached when the run is cut short: the first component is `none` when the bound
on nested calls was exhausted, and the second holds the references visited and
the `Fetch` calls made until then. -/
def extendsLoopTrace (recur : Doc → Env → Option (Except Error Doc) × Env) (fetcher : Fetcher) :
    List String → Doc → Env → Option (Except Error Doc) × Env
  | [], merged, env => (some (.ok merged), env)
  | ext :: rest, merged, env =>
    if ext ∈ env.visited then (some (.error (.circular ext)), env)
    else
      let env1 : Env := ⟨ext :: env.visited, env.calls⟩
      match parseExtend ext with
      | .error e => (some (.error e), env1)
      | .ok (branch, project) =>
        let env2 : Env := ⟨env1.visited, env1.calls ++ [(branch, project)]⟩
        match fetcher branch project with
        | .error e => (some (.error e), env2)
        | .ok extCfg =>
          match Doc.get "extends" extCfg with
          | none => extendsLoopTrace recur fetcher rest (mergeMaps merged extCfg) env2
          | some subExtRaw =>
            match recur (.cons "extends" subExtRaw .nil) env2 with
            | (none, env3) => (none, env3)
            | (some (.error e), env3) => (some (.error e), env3)
            | (some (.ok resolvedSub), env3) =>
              extendsLoopTrace recur fetcher rest
                (mergeMaps merged (mergeMaps resolvedSub extCfg)) env3

/-- Function `resolveWithFetcher` for a non-nil fetcher, as above, that also
hands back the surroundings reached when the bound on nested calls is
exhausted (first component `none`). -/
def resolveTrace : Nat → Fetcher → Doc → Env → Option (Except Error Doc) × Env
  | 0, _, _, env => (none, env)
  | fuel + 1, f, cfg, env =>
    match Doc.get "extends" cfg with
    | none => (some (.ok cfg), env)
    | some extendsRaw =>
      match toStringSlice extendsRaw with
      | (_, false) => (some (.error .extendsShape), env)
      | (extendsList, true) =>
        match extendsLoopTrace (resolveTrace fuel f) f extendsList .nil env with
        | (none, env1) => (none, env1)
        | (some (.error e), env1) => (some (.error e), env1)
        | (some (.ok merged), env1) =>
          (some (.ok (mergeMaps merged (Doc.delete "extends" cfg))), env1)

/-- Result of a run that ended, `none` for a run cut short. -/
def finished (r : Option (Except Error Doc) × Env) : Option (Except Error Doc × Env) :=
  match r with
  | (some ret, env) => some (ret, env)
  | (none, _) => none

/-- Fetcher whose project `a` extends a project that cannot be fetched. -/
def brokenParentFetcher : Fetcher := fun branch project =>
  if branch = "main" ∧ project = "a" then
    .ok (.cons "extends" (.str "gitlab>missing") (.cons "x" (.num 1) .nil))
  else .error .unknownReference

/-! ## Maps held by reference: the store -/

/-- Value as the running program holds it: a mapping is a reference to a map
object of the store, so that two values can share one map and a write through
one of them is seen through the other. -/
inductive SValue where
  | null
  | bool (b : Bool)
  | num (n : Int)
  | str (s : String)
  | arr (xs : List SValue)
  | ref (addr : Nat)

/-- Entries of one map object. -/
abbrev SMap := List (String × SValue)

/-- Map objects allocated so far; the address of an object is its position. -/
abbrev Store := List SMap

/-- Map read `v, ok := m[k]` on the entries of a map object. -/
def SMap.get (k : String) : SMap → Option SValue
  | [] => none
  | (k1, v) :: rest => if k1 = k then some v else SMap.get k rest

/-- Map write `m[k] = v` on the entries of a map object. -/
def SMap.set (k : String) (v : SValue) : SMap → SMap
  | [] => [(k, v)]
  | (k1, v1) :: rest => if k1 = k then (k, v) :: rest else (k1, v1) :: SMap.set k v rest

/-- Builtin `delete(m, k)` on the entries of a map object. -/
def SMap.delete (k : String) : SMap → SMap
  | [] => []
  | (k1, v1) :: rest => if k1 = k then SMap.delete k rest else (k1, v1) :: SMap.delete k rest

/-- Entries of the map object at an address; a nil map reads as empty. -/
def Store.read (s : Store) (addr : Nat) : SMap :=
  s.getD addr []

/-- Store in which the map object at an address has new entries. -/
def Store.write (s : Store) (addr : Nat) (m : SMap) : Store :=
  s.set addr m

/-- First loop of `mergeMaps` on the store: every write goes to the object
`out`. -/
def copyIntoS (out : Nat) : SMap → Store → Store
  | [], s => s
  | (k, v) :: rest, s =>
    copyIntoS out rest (Store.write s out (SMap.set k v (Store.read s out)))

/-- Second loop of `mergeMaps` on the store; `recur` is the nested call
`mergeMaps(mapA, mapB)`, which hands back the store it leaves and the address
of its result. -/
def mergeLoopS (recur : Store → Nat → Nat → Option (Store × Nat)) (out : Nat) :
    SMap → Store → Option Store
  | [], s => some s
  | (k, vb) :: rest, s =>
    match SMap.get k (Store.read s out), vb with
    | some (.ref mapA), .ref mapB =>
      match recur s mapA mapB with
      | none => none
      | some (s1, sub) =>
        mergeLoopS recur out rest (Store.write s1 out (SMap.set k (.ref sub) (Store.read s1 out)))
    | _, _ => mergeLoopS recur out rest (Store.write s out (SMap.set k vb (Store.read s out)))

/-- Function `mergeMaps(a, b)` on the store, lines 92-109: `make` allocates the
object `out`, the two loops fill it, and its address is returned with the store
left behind; `none` when more than `fuel` nested merges would be needed. -/
def mergeMapsS : Nat → Store → Nat → Nat → Option (Store × Nat)
  | 0, _, _, _ => none
  | fuel + 1, s, a, b =>
    let out := s.length
    let s0 := s ++ [[]]
    let s1 := copyIntoS out (Store.read s0 a) s0
    match mergeLoopS (mergeMapsS fuel) out (Store.read s1 b) s1 with
    | none => none
    | some s2 => some (s2, out)

/-- Loop of `toStringSlice` on the values of the store. -/
def toStringSliceLoopS (out : List String) : List SValue → List String × Bool
  | [] => (out, true)
  | .str s :: rest => toStringSliceLoopS (out ++ [s]) rest
  | _ :: _ => ([], false)

/-- Function `toStringSlice(raw)` on the values of the store. -/
def toStringSliceS : SValue → List String × Bool
  | .str v => ([v], true)
  | .arr v => toStringSliceLoopS [] v
  | _ => ([], false)

mutual
/-- A document value enters the store: every mapping in it becomes a fresh map
object. -/
def loadValue : Value → Store → SValue × Store
  | .null, s => (.null, s)
  | .bool b, s => (.bool b, s)
  | .num n, s => (.num n, s)
  | .str t, s => (.str t, s)
  | .arr xs, s =>
    match loadList xs s with
    | (ys, s1) => (.arr ys, s1)
  | .obj m, s =>
    match loadEntries m s with
    | (es, s1) => (.ref s1.length, s1 ++ [es])
/-- The values of a sequence enter the store, first to last. -/
def loadList : List Value → Store → List SValue × Store
  | [], s => ([], s)
  | x :: xs, s =>
    match loadValue x s with
    | (y, s1) =>
      match loadList xs s1 with
      | (ys, s2) => (y :: ys, s2)
/-- The values of the entries of a map enter the store, first to last. -/
def loadEntries : Doc → Store → SMap × Store
  | .nil, s => ([], s)
  | .cons k v rest, s =>
    match loadValue v s with
    | (sv, s1) =>
      match loadEntries rest s1 with
      | (es, s2) => ((k, sv) :: es, s2)
end

/-- A document returned by a fetcher enters the store as fresh map objects; the
address is that of its top-level map. -/
def loadDoc (m : Doc) (s : Store) : Nat × Store :=
  match loadEntries m s with
  | (es, s1) => (s1.length, s1 ++ [es])

/-- State of a run on the store: the map objects, the surroundings, and for
every document fetched so far the address of its first map object with the
entries its objects had when the fetcher returned it. -/
structure Run where
  store : Store
  env : Env
  fetched : List (Nat × List SMap)

/-- Loop of lines 37-83 on the store; `merged` is the address of the
accumulator, `recur` the recursive call of line 75 and `mfuel` the bound given
to every `mergeMaps` call. -/
def extendsLoopS (recur : Nat → Run → Option (Except Error Nat × Run)) (mfuel : Nat)
    (fetcher : Fetcher) : List String → Nat → Run → Option (Except Error Nat × Run)
  | [], merged, r => some (.ok merged, r)
  | ext :: rest, merged, r =>
    if ext ∈ r.env.visited then some (.error (.circular ext), r)
    else
      let env1 : Env := ⟨ext :: r.env.visited, r.env.calls⟩
      match parseExtend ext with
      | .error e => some (.error e, ⟨r.store, env1, r.fetched⟩)
      | .ok (branch, project) =>
        let env2 : Env := ⟨env1.visited, env1.calls ++ [(branch, project)]⟩
        match fetcher branch project with
        | .error e => some (.error e, ⟨r.store, env2, r.fetched⟩)
        | .ok doc =>
          match loadDoc doc r.store with
          | (extCfg, s1) =>
            let fetched1 := r.fetched ++ [(r.store.length, s1.drop r.store.length)]
            match SMap.get "extends" (Store.read s1 extCfg) with
            | none =>
              match mergeMapsS mfuel s1 merged extCfg with
              | none => none
              | some (s2, merged1) =>
                extendsLoopS recur mfuel fetcher rest merged1 ⟨s2, env2, fetched1⟩
            | some subExtRaw =>
              match recur s1.length ⟨s1 ++ [[("extends", subExtRaw)]], env2, fetched1⟩ with
              | none => none
              | some (.error e, r3) => some (.error e, r3)
              | some (.ok resolvedSub, r3) =>
                match mergeMapsS mfuel r3.store resolvedSub extCfg with
                | none => none
                | some (s4, extCfg1) =>
                  match mergeMapsS mfuel s4 merged extCfg1 with
                  | none => none
                  | some (s5, merged1) =>
                    extendsLoopS recur mfuel fetcher rest merged1 ⟨s5, r3.env, r3.fetched⟩

/-- Function `resolveWithFetcher` on the store, for a non-nil fetcher: `cfg` is
the address of the caller's document and the result is the address of the
returned document. `delete(cfg, "extends")` writes to the caller's map object;
`none` when `fuel` nested calls or `mfuel` nested merges do not suffice. -/
def resolveS : Nat → Nat → Fetcher → Nat → Run → Option (Except Error Nat × Run)
  | 0, _, _, _, _ => none
  | fuel + 1, mfuel, f, cfg, r =>
    match SMap.get "extends" (Store.read r.store cfg) with
    | none => some (.ok cfg, r)
    | some extendsRaw =>
      match toStringSliceS extendsRaw with
      | (_, false) => some (.error .extendsShape, r)
      | (extendsList, true) =>
        match extendsLoopS (resolveS fuel mfuel f) mfuel f extendsList r.store.length
            ⟨r.store ++ [[]], r.env, r.fetched⟩ with
        | none => none
        | some (.error e, r1) => some (.error e, r1)
        | some (.ok merged, r1) =>
          match mergeMapsS mfuel
              (Store.write r1.store cfg (SMap.delete "extends" (Store.read r1.store cfg)))
              merged cfg with
          | none => none
          | some (s3, out) => some (.ok out, ⟨s3, r1.env, r1.fetched⟩)

/-- Relation between the state of a run on the store before and after a stretch
of it. No map object is removed. Every map object that existed before has the
same entries after, the one at `c` excepted when an exception is given. The
documents fetched in the stretch are added to the record, and every map object
of such a document, allocated during the stretch, has at the end the entries
recorded when the fetcher returned it. -/
def RunFrame (c : Option Nat) (r r1 : Run) : Prop :=
  r.store.length ≤ r1.store.length ∧
  (∀ i, i < r.store.length → some i ≠ c → Store.read r1.store i = Store.read r.store i) ∧
  ∃ new, r1.fetched = r.fetched ++ new ∧
    ∀ e ∈ new, r.store.length ≤ e.1 ∧ e.1 + e.2.length ≤ r1.store.length ∧
      ∀ i, i < e.2.length → Store.read r1.store (e.1 + i) = e.2.getD i []

/-- Store holding `nestedOwnCfg` alone, at address 0, with empty surroundings. -/
def nestedStoreStart : Run :=
  ⟨[[("extends", .str "gitlab>a"), ("x", .num 7)]], ⟨[], []⟩, []⟩

/-- State in which the resolution of `nestedOwnCfg` with `nestedFetcher` leaves
`nestedStoreStart`; the returned document is at address 10. -/
def nestedStoreEnd : Run :=
  ⟨[[("x", .num 7)],
    [],
    [("extends", .str "gitlab>b"), ("x", .num 1)],
    [],
    [],
    [("y", .num 2)],
    [("y", .num 2)],
    [("y", .num 2)],
    [("y", .num 2), ("extends", .str "gitlab>b"), ("x", .num 1)],
    [("y", .num 2), ("extends", .str "gitlab>b"), ("x", .num 1)],
    [("y", .num 2), ("extends", .str "gitlab>b"), ("x", .num 7)]],
   ⟨["gitlab>b", "gitlab>a"], [("main", "a"), ("main", "b")]⟩,
   [(2, [[("extends", .str "gitlab>b"), ("x", .num 1)]]), (5, [[("y", .num 2)]])]⟩

/-! ## Documents held in the store -/

mutual
/-- `HoldsV ok s v sv`: in the store `s`, the value `sv` stands for the document
value `v`: scalars and sequences agree, and a reference stands for a mapping
when its map object holds the entries of the mapping, key for key. Every address
met on the way satisfies `ok`. -/
def HoldsV (ok : Nat → Prop) (s : Store) : Value → SValue → Prop
  | .null, sv => sv = .null
  | .bool b, sv => sv = .bool b
  | .num n, sv => sv = .num n
  | .str t, sv => sv = .str t
  | .arr xs, sv => ∃ ys, sv = .arr ys ∧ HoldsL ok s xs ys
  | .obj m, sv => ∃ a, sv = .ref a ∧ ok a ∧ HoldsE ok s m (Store.read s a)
/-- The values of a sequence stand for the document values, one by one. -/
def HoldsL (ok : Nat → Prop) (s : Store) : List Value → List SValue → Prop
  | [], ys => ys = []
  | x :: xs, ys => ∃ y ys1, ys = y :: ys1 ∧ HoldsV ok s x y ∧ HoldsL ok s xs ys1
/-- The entries of a map object stand for the entries of a document, one by
one and under the same keys. -/
def HoldsE (ok : Nat → Prop) (s : Store) : Doc → SMap → Prop
  | .nil, es => es = []
  | .cons k v rest, es =>
    ∃ sv es1, es = (k, sv) :: es1 ∧ HoldsV ok s v sv ∧ HoldsE ok s rest es1
end

mutual
/-- Nesting of mappings under the keys of a value. -/
def Value.depth : Value → Nat
  | .obj m => Doc.depth m + 1
  | _ => 0
/-- Nesting of mappings under the keys of a document; it bounds the nesting of
`mergeMaps` calls when the document is the second argument. -/
def Doc.depth : Doc → Nat
  | .nil => 0
  | .cons _ v rest => max (Value.depth v) (Doc.depth rest)
end

/-- Agreement of what a call returns in the two models: the same error, or an
address whose map object stands for the returned document, through map objects
at addresses from `lo` on. -/
def RetHolds (lo : Nat) (s : Store) : Except Error Doc → Except Error Nat → Prop
  | .error e, .error e1 => e = e1
  | .ok res, .ok o => HoldsV (fun i => lo ≤ i ∧ i < s.length) s (.obj res) (.ref o)
  | _, _ => False

/-- Greatest nesting of mappings among the documents the fetcher returns for
the recorded `Fetch` calls; a call answered with an error counts 0. -/
def fetchedDepth (f : Fetcher) : List (String × String) → Nat
  | [] => 0
  | c :: rest =>
    max (match f c.1 c.2 with
      | .ok d => Doc.depth d
      | .error _ => 0) (fetchedDepth f rest)

/-! ## Map reads and writes -/

theorem get_set_same (k : String) (v : Value) : ∀ m : Doc, Doc.get k (Doc.set k v m) = some v
  | .nil => by simp [Doc.set, Doc.get]
  | .cons k1 v1 rest => by
    by_cases h : k1 = k
    · simp [Doc.set, Doc.get, h]
    · simp [Doc.set, Doc.get, h, get_set_same k v rest]

theorem get_set_other (k j : String) (v : Value) (hj : j ≠ k) :
    ∀ m : Doc, Doc.get j (Doc.set k v m) = Doc.get j m
  | .nil => by
    have hk : ¬ k = j := fun h => hj h.symm
    simp [Doc.set, Doc.get, hk]
  | .cons k1 v1 rest => by
    by_cases h : k1 = k
    · have h1 : ¬ k1 = j := fun e => hj (e.symm.trans h)
      have h2 : ¬ k = j := fun e => hj e.symm
      simp [Doc.set, Doc.get, h, h2]
    · by_cases h1 : k1 = j
      · subst h1
        simp [Doc.set, Doc.get, h]
      · simp [Doc.set, Doc.get, h, h1, get_set_other k j v hj rest]

theorem get_eq_none_iff (k : String) : ∀ m : Doc, Doc.get k m = none ↔ k ∉ Doc.keys m
  | .nil => by simp [Doc.get, Doc.keys]
  | .cons k1 v1 rest => by
    by_cases h : k1 = k
    · simp [Doc.get, Doc.keys, h]
    · have h1 : ¬ k = k1 := fun e => h e.symm
      simp [Doc.get, Doc.keys, h, h1, get_eq_none_iff k rest]

theorem mem_keys_iff (k : String) (m : Doc) : k ∈ Doc.keys m ↔ ∃ v, Doc.get k m = some v := by
  rw [← Option.isSome_iff_exists, ← Option.ne_none_iff_isSome, Ne, get_eq_none_iff]
  exact not_not.symm

theorem mem_keys_set (k j : String) (v : Value) (m : Doc) :
    j ∈ Doc.keys (Doc.set k v m) ↔ j = k ∨ j ∈ Doc.keys m := by
  by_cases hj : j = k
  · subst hj
    simp [mem_keys_iff, get_set_same]
  · simp [mem_keys_iff, get_set_other k j v hj, hj]

theorem nodup_keys_set (k : String) (v : Value) :
    ∀ m : Doc, (Doc.keys m).Nodup → (Doc.keys (Doc.set k v m)).Nodup
  | .nil, _ => by simp [Doc.set, Doc.keys]
  | .cons k1 v1 rest, h => by
    simp only [Doc.keys, List.nodup_cons] at h
    by_cases h1 : k1 = k
    · subst h1
      simpa [Doc.set, Doc.keys] using h
    · have ih := nodup_keys_set k v rest h.2
      simp only [Doc.set, h1, if_false, Doc.keys, List.nodup_cons]
      refine ⟨?_, ih⟩
      rw [mem_keys_set]
      rintro (e | e)
      · exact h1 e
      · exact h.1 e

/-! ## The two loops of `mergeMaps` -/

theorem get_copyInto (k : String) :
    ∀ (a out : Doc), (Doc.keys a).Nodup →
      Doc.get k (copyInto out a) = (Doc.get k a).orElse (fun _ => Doc.get k out)
  | .nil, out, _ => by simp [copyInto, Doc.get]
  | .cons k0 v0 rest, out, h => by
    simp only [Doc.keys, List.nodup_cons] at h
    rw [copyInto, get_copyInto k rest (Doc.set k0 v0 out) h.2]
    by_cases hk : k0 = k
    · subst hk
      have hn : Doc.get k0 rest = none := (get_eq_none_iff k0 rest).2 h.1
      simp [Doc.get, hn, get_set_same]
    · have hk1 : k ≠ k0 := fun e => hk e.symm
      simp [Doc.get, hk, get_set_other k0 k v0 hk1]

theorem nodup_keys_copyInto :
    ∀ (a out : Doc), (Doc.keys out).Nodup → (Doc.keys (copyInto out a)).Nodup
  | .nil, _, h => by simpa [copyInto] using h
  | .cons k0 v0 rest, out, h => by
    rw [copyInto]
    exact nodup_keys_copyInto rest (Doc.set k0 v0 out) (nodup_keys_set k0 v0 out h)

theorem copyInto_nil_get (k : String) (a : Doc) (h : (Doc.keys a).Nodup) :
    Doc.get k (copyInto .nil a) = Doc.get k a := by
  rw [get_copyInto k a .nil h]
  cases Doc.get k a <;> simp [Doc.get]

theorem mergeLoop_cons (out : Doc) (k : String) (vb : Value) (rest : Doc) :
    mergeLoop out (.cons k vb rest) =
      mergeLoop (Doc.set k (mergeEntry (Doc.get k out) vb) out) rest := by
  cases hget : Doc.get k out with
  | none => simp [mergeLoop, hget, mergeEntry]
  | some va => cases va <;> cases vb <;> simp [mergeLoop, hget, mergeEntry, mergeMaps]

theorem get_mergeLoop (k : String) :
    ∀ (b out : Doc), (Doc.keys b).Nodup →
      Doc.get k (mergeLoop out b) =
        match Doc.get k b with
        | none => Doc.get k out
        | some vb => some (mergeEntry (Doc.get k out) vb)
  | .nil, out, _ => by simp [mergeLoop, Doc.get]
  | .cons k0 v0 rest, out, h => by
    simp only [Doc.keys, List.nodup_cons] at h
    rw [mergeLoop_cons, get_mergeLoop k rest _ h.2]
    by_cases hk : k0 = k
    · subst hk
      have hn : Doc.get k0 rest = none := (get_eq_none_iff k0 rest).2 h.1
      simp [Doc.get, hn, get_set_same]
    · have hk1 : k ≠ k0 := fun e => hk e.symm
      simp [Doc.get, hk, get_set_other k0 k _ hk1]

theorem nodup_keys_mergeLoop :
    ∀ (b out : Doc), (Doc.keys out).Nodup → (Doc.keys (mergeLoop out b)).Nodup
  | .nil, _, h => by simpa [mergeLoop] using h
  | .cons k0 v0 rest, out, h => by
    rw [mergeLoop_cons]
    exact nodup_keys_mergeLoop rest _ (nodup_keys_set k0 _ out h)

theorem nodup_keys_mergeMaps (a b : Doc) : (Doc.keys (mergeMaps a b)).Nodup :=
  nodup_keys_mergeLoop b _ (nodup_keys_copyInto a .nil (by simp [Doc.keys]))

theorem get_mergeMaps (k : String) (a b : Doc) (ha : (Doc.keys a).Nodup)
    (hb : (Doc.keys b).Nodup) :
    Doc.get k (mergeMaps a b) =
      match Doc.get k b with
      | none => Doc.get k a
      | some vb => some (mergeEntry (Doc.get k a) vb) := by
  unfold mergeMaps
  rw [get_mergeLoop k b _ hb, copyInto_nil_get k a ha]

/-! ## Strings and references -/

theorem startsWithChars_iff : ∀ (p s : List Char), startsWithChars s p = true ↔ ∃ t, s = p ++ t
  | [], s => by simp [startsWithChars]
  | c :: p, [] => by simp [startsWithChars]
  | c :: p, d :: s => by
    by_cases h : d = c
    · subst h
      simp [startsWithChars, startsWithChars_iff p s]
    · have h1 : ¬ c = d := fun e => h e.symm
      simp [startsWithChars, h, h1]

theorem startsWith_iff (s p : String) : startsWith s p = true ↔ ∃ t : String, s = p ++ t := by
  unfold startsWith
  rw [startsWithChars_iff]
  constructor
  · rintro ⟨t, ht⟩
    exact ⟨String.mk t, String.ext (by simpa using ht)⟩
  · rintro ⟨t, ht⟩
    exact ⟨t.data, by rw [ht]; simp⟩

theorem cutAt_first (sep : Char) (after : List Char) :
    ∀ before : List Char, sep ∉ before → cutAt sep (before ++ sep :: after) = some (before, after)
  | [], _ => by simp [cutAt]
  | c :: cs, h => by
    have hc : ¬ c = sep := fun e => h (by simp [e])
    have hcs : sep ∉ cs := fun e => h (by simp [e])
    simp [cutAt, hc, cutAt_first sep after cs hcs]

theorem parseExtend_default (project : String) :
    parseExtend ("gitlab>" ++ project) = .ok ("main", project) := by
  have h1 : startsWith ("gitlab>" ++ project) "gitlab" = true :=
    (startsWith_iff _ _).2 ⟨">" ++ project, by rw [← String.append_assoc]; rfl⟩
  have h2 : startsWith ("gitlab>" ++ project) "gitlab@" = false := by
    simp [startsWith, startsWithChars]
  have h3 : trimLeading ("gitlab>" ++ project) "gitlab>" = project := by
    have : startsWith ("gitlab>" ++ project) "gitlab>" = true := (startsWith_iff _ _).2 ⟨project, rfl⟩
    simp [trimLeading, this]
  simp [parseExtend, h1, h2, h3]

theorem parseExtend_branch (branch project : String) (h : '>' ∉ branch.data) :
    parseExtend ("gitlab@" ++ branch ++ ">" ++ project) = .ok (branch, project) := by
  have h1 : startsWith ("gitlab@" ++ branch ++ ">" ++ project) "gitlab" = true :=
    (startsWith_iff _ _).2 ⟨"@" ++ branch ++ ">" ++ project, by simp [← String.append_assoc]⟩
  have h2 : startsWith ("gitlab@" ++ branch ++ ">" ++ project) "gitlab@" = true :=
    (startsWith_iff _ _).2 ⟨branch ++ ">" ++ project, by simp [String.append_assoc]⟩
  have h3 : trimLeading ("gitlab@" ++ branch ++ ">" ++ project) "gitlab@" = branch ++ ">" ++ project := by
    simp [trimLeading, h2]
    apply String.ext
    simp
  have h4 : splitN2 (branch ++ ">" ++ project) '>' = [branch, project] := by
    have : (branch ++ ">" ++ project).data = branch.data ++ '>' :: project.data := by simp
    simp [splitN2, this, cutAt_first '>' project.data branch.data h]
  simp [parseExtend, h1, h2, h3, h4]

theorem parseExtend_unsupported (ext : String) (h : ∀ t : String, ext ≠ "gitlab" ++ t) :
    parseExtend ext = .error (.unsupported ext) := by
  have h1 : startsWith ext "gitlab" = false := by
    cases hs : startsWith ext "gitlab" with
    | false => rfl
    | true =>
      obtain ⟨t, ht⟩ := (startsWith_iff _ _).1 hs
      exact absurd ht (h t)
  simp [parseExtend, h1]

theorem parseExtend_of_gitlabRef {ext branch project : String}
    (h : GitlabRef ext branch project) : parseExtend ext = .ok (branch, project) := by
  cases h with
  | onMain => exact parseExtend_default project
  | onBranch _ _ hb => exact parseExtend_branch branch project hb

/-! ## One iteration of the loop over the references -/

section Loop
variable (recur : Doc → Env → Option (Except Error Doc × Env)) (f : Fetcher)

theorem extendsLoop_visited (ext : String) (rest : List String) (merged : Doc) (env : Env)
    (h : ext ∈ env.visited) :
    extendsLoop recur f (ext :: rest) merged env = some (.error (.circular ext), env) := by
  simp [extendsLoop, h]

theorem extendsLoop_parse_error (ext : String) (rest : List String) (merged : Doc) (env : Env)
    (e : Error) (h : ext ∉ env.visited) (hp : parseExtend ext = .error e) :
    extendsLoop recur f (ext :: rest) merged env =
      some (.error e, ⟨ext :: env.visited, env.calls⟩) := by
  simp [extendsLoop, h, hp]

theorem extendsLoop_fetch_error (ext : String) (rest : List String) (merged : Doc) (env : Env)
    (branch project : String) (e : Error) (h : ext ∉ env.visited)
    (hp : parseExtend ext = .ok (branch, project)) (hf : f branch project = .error e) :
    extendsLoop recur f (ext :: rest) merged env =
      some (.error e, ⟨ext :: env.visited, env.calls ++ [(branch, project)]⟩) := by
  simp [extendsLoop, h, hp, hf]

theorem extendsLoop_leaf (ext : String) (rest : List String) (merged : Doc) (env : Env)
    (branch project : String) (extCfg : Doc) (h : ext ∉ env.visited)
    (hp : parseExtend ext = .ok (branch, project)) (hf : f branch project = .ok extCfg)
    (hx : Doc.get "extends" extCfg = none) :
    extendsLoop recur f (ext :: rest) merged env =
      extendsLoop recur f rest (mergeMaps merged extCfg)
        ⟨ext :: env.visited, env.calls ++ [(branch, project)]⟩ := by
  simp [extendsLoop, h, hp, hf, hx]

theorem extendsLoop_nested (ext : String) (rest : List String) (merged : Doc) (env : Env)
    (branch project : String) (extCfg : Doc) (subExtRaw : Value) (h : ext ∉ env.visited)
    (hp : parseExtend ext = .ok (branch, project)) (hf : f branch project = .ok extCfg)
    (hx : Doc.get "extends" extCfg = some subExtRaw) :
    extendsLoop recur f (ext :: rest) merged env =
      match recur (.cons "extends" subExtRaw .nil)
          ⟨ext :: env.visited, env.calls ++ [(branch, project)]⟩ with
      | none => none
      | some (.error e, env3) => some (.error e, env3)
      | some (.ok resolvedSub, env3) =>
        extendsLoop recur f rest (mergeMaps merged (mergeMaps resolvedSub extCfg)) env3 := by
  simp [extendsLoop, h, hp, hf, hx]

theorem extendsLoop_leaves (d : String → Doc) :
    ∀ (rs : List String) (merged : Doc) (env : Env), rs.Nodup →
      (∀ r ∈ rs, r ∉ env.visited) →
      (∀ r ∈ rs, ∃ branch project, GitlabRef r branch project ∧ f branch project = .ok (d r)) →
      (∀ r ∈ rs, Doc.get "extends" (d r) = none) →
      ∃ env1, extendsLoop recur f rs merged env =
        some (.ok (rs.foldl (fun acc r => mergeMaps acc (d r)) merged), env1)
  | [], merged, env, _, _, _, _ => ⟨env, rfl⟩
  | r :: rs, merged, env, hnd, hvis, hf, hleaf => by
    obtain ⟨branch, project, hg, hfr⟩ := hf r (by simp)
    rw [extendsLoop_leaf recur f r rs merged env branch project (d r) (hvis r (by simp))
      (parseExtend_of_gitlabRef hg) hfr (hleaf r (by simp))]
    have hnd1 := List.nodup_cons.1 hnd
    apply extendsLoop_leaves d rs _ _ hnd1.2
    · intro x hx hmem
      simp only [List.mem_cons] at hmem
      rcases hmem with e | e
      · exact hnd1.1 (e ▸ hx)
      · exact hvis x (by simp [hx]) e
    · intro x hx
      exact hf x (by simp [hx])
    · intro x hx
      exact hleaf x (by simp [hx])

end Loop

/-! ## Entry of `resolveWithFetcher` -/

theorem resolve_leaf (fuel : Nat) (f : Fetcher) (cfg : Doc) (env : Env)
    (h : Doc.get "extends" cfg = none) :
    resolveWithFetcher (fuel + 1) (some f) cfg env = some ⟨.ok cfg, cfg, env⟩ := by
  simp [resolveWithFetcher, h]

theorem resolve_shape (fuel : Nat) (f : Fetcher) (cfg : Doc) (env : Env) (raw : Value)
    (l : List String) (h : Doc.get "extends" cfg = some raw) (hl : toStringSlice raw = (l, false)) :
    resolveWithFetcher (fuel + 1) (some f) cfg env = some ⟨.error .extendsShape, cfg, env⟩ := by
  simp [resolveWithFetcher, h, hl]

theorem resolve_extends (fuel : Nat) (f : Fetcher) (cfg : Doc) (env : Env) (raw : Value)
    (l : List String) (h : Doc.get "extends" cfg = some raw) (hl : toStringSlice raw = (l, true)) :
    resolveWithFetcher (fuel + 1) (some f) cfg env =
      match extendsLoop
          (fun sub e => (resolveWithFetcher fuel (some f) sub e).map (fun o => (o.ret, o.env)))
          f l .nil env with
      | none => none
      | some (.error e, env1) => some ⟨.error e, cfg, env1⟩
      | some (.ok merged, env1) =>
        some ⟨.ok (mergeMaps merged (Doc.delete "extends" cfg)), Doc.delete "extends" cfg, env1⟩ := by
  simp [resolveWithFetcher, h, hl]

/-! ## The recorded `Fetch` calls -/

theorem callsExtend_refl (f : Fetcher) (env : Env) (ret : Except Error Doc) :
    CallsExtend f env ret env :=
  ⟨[], by simp, by simp⟩

theorem extendsLoop_calls (recur : Doc → Env → Option (Except Error Doc × Env)) (f : Fetcher)
    (hrec : ∀ sub e r, recur sub e = some r → CallsExtend f e r.1 r.2) :
    ∀ (l : List String) (merged : Doc) (env : Env) (r : Except Error Doc × Env),
      extendsLoop recur f l merged env = some r → CallsExtend f env r.1 r.2
  | [], merged, env, r, h => by
    simp only [extendsLoop, Option.some.injEq] at h
    subst h
    exact callsExtend_refl f env _
  | ext :: rest, merged, env, r, h => by
    by_cases hv : ext ∈ env.visited
    · rw [extendsLoop_visited recur f ext rest merged env hv, Option.some.injEq] at h
      subst h
      exact callsExtend_refl f env _
    · cases hp : parseExtend ext with
      | error e =>
        rw [extendsLoop_parse_error recur f ext rest merged env e hv hp, Option.some.injEq] at h
        subst h
        exact ⟨[], by simp, by simp⟩
      | ok bp =>
        obtain ⟨branch, project⟩ := bp
        cases hf : f branch project with
        | error e =>
          rw [extendsLoop_fetch_error recur f ext rest merged env branch project e hv hp hf,
            Option.some.injEq] at h
          subst h
          refine ⟨[(branch, project)], rfl, ?_⟩
          intro c hc e1 he1
          simp only [List.mem_singleton] at hc
          subst hc
          rw [hf] at he1
          exact he1 ▸ rfl
        | ok extCfg =>
          cases hx : Doc.get "extends" extCfg with
          | none =>
            rw [extendsLoop_leaf recur f ext rest merged env branch project extCfg hv hp hf hx] at h
            obtain ⟨cs, hcs, herr⟩ := extendsLoop_calls recur f hrec rest _ _ r h
            refine ⟨(branch, project) :: cs, by simp [hcs], ?_⟩
            intro c hc e1 he1
            simp only [List.mem_cons] at hc
            rcases hc with hc | hc
            · subst hc
              rw [hf] at he1
              cases he1
            · exact herr c hc e1 he1
          | some subExtRaw =>
            rw [extendsLoop_nested recur f ext rest merged env branch project extCfg subExtRaw
              hv hp hf hx] at h
            cases hr : recur (.cons "extends" subExtRaw .nil)
                ⟨ext :: env.visited, env.calls ++ [(branch, project)]⟩ with
            | none => simp [hr] at h
            | some r3 =>
              obtain ⟨ret3, env3⟩ := r3
              obtain ⟨cs3, hcs3, herr3⟩ := hrec _ _ _ hr
              dsimp only at hcs3 herr3
              have hhead : ∀ e1, f branch project = .error e1 → False := by
                intro e1 he1
                rw [hf] at he1
                cases he1
              cases ret3 with
              | error e =>
                simp only [hr, Option.some.injEq] at h
                subst h
                refine ⟨(branch, project) :: cs3, by simp [hcs3], ?_⟩
                intro c hc e1 he1
                simp only [List.mem_cons] at hc
                rcases hc with hc | hc
                · subst hc
                  exact absurd he1 (fun x => hhead e1 x)
                · exact herr3 c hc e1 he1
              | ok resolvedSub =>
                simp only [hr] at h
                obtain ⟨cs, hcs, herr⟩ := extendsLoop_calls recur f hrec rest _ _ r h
                refine ⟨(branch, project) :: (cs3 ++ cs), by simp [hcs, hcs3], ?_⟩
                intro c hc e1 he1
                simp only [List.mem_cons, List.mem_append] at hc
                rcases hc with hc | hc | hc
                · subst hc
                  exact absurd he1 (fun x => hhead e1 x)
                · have := herr3 c hc e1 he1
                  cases this
                · exact herr c hc e1 he1

theorem resolve_calls (f : Fetcher) :
    ∀ (fuel : Nat) (cfg : Doc) (env : Env) (out : Outcome),
      resolveWithFetcher fuel (some f) cfg env = some out → CallsExtend f env out.ret out.env
  | 0, cfg, env, out, h => by simp [resolveWithFetcher] at h
  | fuel + 1, cfg, env, out, h => by
    cases hx : Doc.get "extends" cfg with
    | none =>
      rw [resolve_leaf fuel f cfg env hx, Option.some.injEq] at h
      subst h
      exact callsExtend_refl f env _
    | some raw =>
      cases hl : toStringSlice raw with
      | mk l ok =>
        cases ok with
        | false =>
          rw [resolve_shape fuel f cfg env raw l hx hl, Option.some.injEq] at h
          subst h
          exact callsExtend_refl f env _
        | true =>
          rw [resolve_extends fuel f cfg env raw l hx hl] at h
          have hrec : ∀ sub e r,
              (fun sub e => (resolveWithFetcher fuel (some f) sub e).map
                (fun o => (o.ret, o.env))) sub e = some r → CallsExtend f e r.1 r.2 := by
            intro sub e r hr
            simp only [Option.map_eq_some'] at hr
            obtain ⟨o, ho, rfl⟩ := hr
            exact resolve_calls f fuel sub e o ho
          cases hloop : extendsLoop
              (fun sub e => (resolveWithFetcher fuel (some f) sub e).map
                (fun o => (o.ret, o.env))) f l .nil env with
          | none => simp [hloop] at h
          | some r =>
            have hr := extendsLoop_calls _ f hrec l .nil env r hloop
            obtain ⟨ret, env1⟩ := r
            cases ret with
            | error e =>
              simp only [hloop, Option.some.injEq] at h
              subst h
              exact hr
            | ok merged =>
              simp only [hloop, Option.some.injEq] at h
              subst h
              obtain ⟨cs, hcs, herr⟩ := hr
              refine ⟨cs, hcs, ?_⟩
              intro c hc e1 he1
              have := herr c hc e1 he1
              cases this

theorem resolve_recur_calls (f : Fetcher) (fuel : Nat) (sub : Doc) (e : Env)
    (r : Except Error Doc × Env)
    (hr : (resolveWithFetcher fuel (some f) sub e).map (fun o => (o.ret, o.env)) = some r) :
    CallsExtend f e r.1 r.2 := by
  simp only [Option.map_eq_some'] at hr
  obtain ⟨o, ho, rfl⟩ := hr
  exact resolve_calls f fuel sub e o ho

theorem extendsLoop_first_call (recur : Doc → Env → Option (Except Error Doc × Env))
    (f : Fetcher) (hrec : ∀ sub e r, recur sub e = some r → CallsExtend f e r.1 r.2)
    (ext : String) (rest : List String) (merged : Doc) (env : Env) (branch project : String)
    (r : Except Error Doc × Env) (hv : ext ∉ env.visited)
    (hp : parseExtend ext = .ok (branch, project))
    (h : extendsLoop recur f (ext :: rest) merged env = some r) :
    ∃ cs, r.2.calls = env.calls ++ (branch, project) :: cs := by
  cases hf : f branch project with
  | error e =>
    rw [extendsLoop_fetch_error recur f ext rest merged env branch project e hv hp hf,
      Option.some.injEq] at h
    subst h
    exact ⟨[], rfl⟩
  | ok extCfg =>
    cases hx : Doc.get "extends" extCfg with
    | none =>
      rw [extendsLoop_leaf recur f ext rest merged env branch project extCfg hv hp hf hx] at h
      obtain ⟨cs, hcs, _⟩ := extendsLoop_calls recur f hrec rest _ _ r h
      exact ⟨cs, by simp [hcs]⟩
    | some subExtRaw =>
      rw [extendsLoop_nested recur f ext rest merged env branch project extCfg subExtRaw
        hv hp hf hx] at h
      cases hr : recur (.cons "extends" subExtRaw .nil)
          ⟨ext :: env.visited, env.calls ++ [(branch, project)]⟩ with
      | none => simp [hr] at h
      | some r3 =>
        obtain ⟨ret3, env3⟩ := r3
        obtain ⟨cs3, hcs3, _⟩ := hrec _ _ _ hr
        dsimp only at hcs3
        cases ret3 with
        | error e =>
          simp only [hr, Option.some.injEq] at h
          subst h
          exact ⟨cs3, by simp [hcs3]⟩
        | ok resolvedSub =>
          simp only [hr] at h
          obtain ⟨cs, hcs, _⟩ := extendsLoop_calls recur f hrec rest _ _ r h
          exact ⟨cs3 ++ cs, by simp [hcs, hcs3]⟩

/-! ## Bound on the nesting of calls -/

theorem extendsLoop_mono (recur recur2 : Doc → Env → Option (Except Error Doc × Env))
    (f : Fetcher) (hmono : ∀ sub e r, recur sub e = some r → recur2 sub e = some r) :
    ∀ (l : List String) (merged : Doc) (env : Env) (r : Except Error Doc × Env),
      extendsLoop recur f l merged env = some r → extendsLoop recur2 f l merged env = some r
  | [], merged, env, r, h => by
    simpa [extendsLoop] using h
  | ext :: rest, merged, env, r, h => by
    by_cases hv : ext ∈ env.visited
    · rw [extendsLoop_visited recur f ext rest merged env hv] at h
      rw [extendsLoop_visited recur2 f ext rest merged env hv]
      exact h
    · cases hp : parseExtend ext with
      | error e =>
        rw [extendsLoop_parse_error recur f ext rest merged env e hv hp] at h
        rw [extendsLoop_parse_error recur2 f ext rest merged env e hv hp]
        exact h
      | ok bp =>
        obtain ⟨branch, project⟩ := bp
        cases hf : f branch project with
        | error e =>
          rw [extendsLoop_fetch_error recur f ext rest merged env branch project e hv hp hf] at h
          rw [extendsLoop_fetch_error recur2 f ext rest merged env branch project e hv hp hf]
          exact h
        | ok extCfg =>
          cases hx : Doc.get "extends" extCfg with
          | none =>
            rw [extendsLoop_leaf recur f ext rest merged env branch project extCfg hv hp hf hx] at h
            rw [extendsLoop_leaf recur2 f ext rest merged env branch project extCfg hv hp hf hx]
            exact extendsLoop_mono recur recur2 f hmono rest _ _ r h
          | some subExtRaw =>
            rw [extendsLoop_nested recur f ext rest merged env branch project extCfg subExtRaw
              hv hp hf hx] at h
            rw [extendsLoop_nested recur2 f ext rest merged env branch project extCfg subExtRaw
              hv hp hf hx]
            cases hr : recur (.cons "extends" subExtRaw .nil)
                ⟨ext :: env.visited, env.calls ++ [(branch, project)]⟩ with
            | none => simp [hr] at h
            | some r3 =>
              rw [hmono _ _ _ hr]
              obtain ⟨ret3, env3⟩ := r3
              cases ret3 with
              | error e => simpa [hr] using h
              | ok resolvedSub =>
                simp only [hr] at h
                exact extendsLoop_mono recur recur2 f hmono rest _ _ r h

theorem resolve_mono (f : Fetcher) :
    ∀ (fuel : Nat) (cfg : Doc) (env : Env) (out : Outcome),
      resolveWithFetcher fuel (some f) cfg env = some out →
      resolveWithFetcher (fuel + 1) (some f) cfg env = some out
  | 0, cfg, env, out, h => by simp [resolveWithFetcher] at h
  | fuel + 1, cfg, env, out, h => by
    cases hx : Doc.get "extends" cfg with
    | none =>
      rw [resolve_leaf fuel f cfg env hx] at h
      rw [resolve_leaf (fuel + 1) f cfg env hx]
      exact h
    | some raw =>
      cases hl : toStringSlice raw with
      | mk l ok =>
        cases ok with
        | false =>
          rw [resolve_shape fuel f cfg env raw l hx hl] at h
          rw [resolve_shape (fuel + 1) f cfg env raw l hx hl]
          exact h
        | true =>
          rw [resolve_extends fuel f cfg env raw l hx hl] at h
          rw [resolve_extends (fuel + 1) f cfg env raw l hx hl]
          cases hloop : extendsLoop
              (fun sub e => (resolveWithFetcher fuel (some f) sub e).map
                (fun o => (o.ret, o.env))) f l .nil env with
          | none => simp [hloop] at h
          | some r =>
            have hmono : ∀ sub e r,
                (fun sub e => (resolveWithFetcher fuel (some f) sub e).map
                  (fun o => (o.ret, o.env))) sub e = some r →
                (fun sub e => (resolveWithFetcher (fuel + 1) (some f) sub e).map
                  (fun o => (o.ret, o.env))) sub e = some r := by
              intro sub e r hr
              simp only [Option.map_eq_some'] at hr ⊢
              obtain ⟨o, ho, rfl⟩ := hr
              exact ⟨o, resolve_mono f fuel sub e o ho, rfl⟩
            rw [extendsLoop_mono _ _ f hmono l .nil env r hloop]
            simpa [hloop] using h

theorem resolve_mono_le (f : Fetcher) (cfg : Doc) (env : Env) (out : Outcome) (n : Nat)
    (h : resolveWithFetcher n (some f) cfg env = some out) :
    ∀ fuel, n ≤ fuel → resolveWithFetcher fuel (some f) cfg env = some out := by
  intro fuel hle
  induction hle with
  | refl => exact h
  | step _ ih => exact resolve_mono f _ cfg env out ih

theorem unvisited_lt (U v : List String) (ext : String) (hU : ext ∈ U) (hv : ext ∉ v) :
    (U.toFinset \ (ext :: v).toFinset).card < (U.toFinset \ v.toFinset).card := by
  apply Finset.card_lt_card
  rw [Finset.ssubset_iff_of_subset]
  · exact ⟨ext, by simp [hU, hv], by simp⟩
  · intro x hx
    simp only [Finset.mem_sdiff, List.mem_toFinset, List.mem_cons, not_or] at hx ⊢
    exact ⟨hx.1, hx.2.2⟩

theorem unvisited_mono (U v w : List String) (h : v ⊆ w) :
    (U.toFinset \ w.toFinset).card ≤ (U.toFinset \ v.toFinset).card := by
  apply Finset.card_le_card
  intro x hx
  simp only [Finset.mem_sdiff, List.mem_toFinset] at hx ⊢
  exact ⟨hx.1, fun hxv => hx.2 (h hxv)⟩

theorem extendsRefs_synthetic (extCfg : Doc) (raw : Value)
    (hx : Doc.get "extends" extCfg = some raw) :
    extendsRefs (.cons "extends" raw .nil) = extendsRefs extCfg := by
  simp [extendsRefs, Doc.get, hx]



theorem extendsLoop_terminates (f : Fetcher) (U : List String)
    (hU : ∀ b p d, f b p = .ok d → ∀ r ∈ extendsRefs d, r ∈ U)
    (recur : Doc → Env → Option (Except Error Doc × Env)) (n : Nat)
    (hrec : ∀ sub e, (∀ r ∈ extendsRefs sub, r ∈ U) →
      (U.toFinset \ e.visited.toFinset).card < n →
      ∃ r, recur sub e = some r ∧ e.visited ⊆ r.2.visited) :
    ∀ (l : List String) (merged : Doc) (env : Env), (∀ r ∈ l, r ∈ U) →
      (U.toFinset \ env.visited.toFinset).card ≤ n →
      ∃ r, extendsLoop recur f l merged env = some r ∧ env.visited ⊆ r.2.visited
  | [], merged, env, _, _ => ⟨_, rfl, List.Subset.refl _⟩
  | ext :: rest, merged, env, hl, hn => by
    have hsub1 : env.visited ⊆ ext :: env.visited := List.subset_cons_self _ _
    by_cases hv : ext ∈ env.visited
    · rw [extendsLoop_visited recur f ext rest merged env hv]
      exact ⟨_, rfl, List.Subset.refl _⟩
    · have hlt := unvisited_lt U env.visited ext (hl ext (by simp)) hv
      cases hp : parseExtend ext with
      | error e =>
        rw [extendsLoop_parse_error recur f ext rest merged env e hv hp]
        exact ⟨_, rfl, hsub1⟩
      | ok bp =>
        obtain ⟨branch, project⟩ := bp
        cases hf : f branch project with
        | error e =>
          rw [extendsLoop_fetch_error recur f ext rest merged env branch project e hv hp hf]
          exact ⟨_, rfl, hsub1⟩
        | ok extCfg =>
          cases hx : Doc.get "extends" extCfg with
          | none =>
            rw [extendsLoop_leaf recur f ext rest merged env branch project extCfg hv hp hf hx]
            obtain ⟨r, hr, hsub⟩ := extendsLoop_terminates f U hU recur n hrec rest
              (mergeMaps merged extCfg) ⟨ext :: env.visited, env.calls ++ [(branch, project)]⟩
              (fun x hx1 => hl x (by simp [hx1])) (by
                show (U.toFinset \ (ext :: env.visited).toFinset).card ≤ n
                omega)
            exact ⟨r, hr, hsub1.trans hsub⟩
          | some subExtRaw =>
            rw [extendsLoop_nested recur f ext rest merged env branch project extCfg subExtRaw
              hv hp hf hx]
            obtain ⟨r3, hr3, hsub3⟩ := hrec (.cons "extends" subExtRaw .nil)
              ⟨ext :: env.visited, env.calls ++ [(branch, project)]⟩
              (by
                rw [extendsRefs_synthetic extCfg subExtRaw hx]
                exact hU branch project extCfg hf)
              (by
                show (U.toFinset \ (ext :: env.visited).toFinset).card < n
                omega)
            obtain ⟨ret3, env3⟩ := r3
            dsimp only at hsub3
            rw [hr3]
            cases ret3 with
            | error e => exact ⟨_, rfl, hsub1.trans hsub3⟩
            | ok resolvedSub =>
              have hle := unvisited_mono U (ext :: env.visited) env3.visited hsub3
              obtain ⟨r, hr, hsub⟩ := extendsLoop_terminates f U hU recur n hrec rest
                (mergeMaps merged (mergeMaps resolvedSub extCfg)) env3
                (fun x hx1 => hl x (by simp [hx1])) (by omega)
              exact ⟨r, hr, (hsub1.trans hsub3).trans hsub⟩

theorem resolve_bounded (f : Fetcher) (U : List String)
    (hU : ∀ b p d, f b p = .ok d → ∀ r ∈ extendsRefs d, r ∈ U) :
    ∀ (fuel : Nat) (cfg : Doc) (env : Env), (∀ r ∈ extendsRefs cfg, r ∈ U) →
      (U.toFinset \ env.visited.toFinset).card < fuel →
      ∃ out, resolveWithFetcher fuel (some f) cfg env = some out ∧
        env.visited ⊆ out.env.visited
  | 0, _, _, _, h => absurd h (Nat.not_lt_zero _)
  | fuel + 1, cfg, env, hcfg, hn => by
    cases hx : Doc.get "extends" cfg with
    | none =>
      rw [resolve_leaf fuel f cfg env hx]
      exact ⟨_, rfl, List.Subset.refl _⟩
    | some raw =>
      cases hl : toStringSlice raw with
      | mk l ok =>
        cases ok with
        | false =>
          rw [resolve_shape fuel f cfg env raw l hx hl]
          exact ⟨_, rfl, List.Subset.refl _⟩
        | true =>
          rw [resolve_extends fuel f cfg env raw l hx hl]
          have hrefs : extendsRefs cfg = l := by simp [extendsRefs, hx, hl]
          obtain ⟨r, hr, hsub⟩ := extendsLoop_terminates f U hU
            (fun sub e => (resolveWithFetcher fuel (some f) sub e).map (fun o => (o.ret, o.env)))
            fuel
            (by
              intro sub e hsubrefs hlt
              obtain ⟨o, ho, hos⟩ := resolve_bounded f U hU fuel sub e hsubrefs hlt
              exact ⟨(o.ret, o.env), by simp [ho], hos⟩)
            l .nil env (by rw [← hrefs]; exact hcfg) (by omega)
          obtain ⟨ret, env1⟩ := r
          rw [hr]
          cases ret with
          | error e => exact ⟨_, rfl, hsub⟩
          | ok merged => exact ⟨_, rfl, hsub⟩

/-! ## Merging with the empty map -/

theorem append_nil_right : ∀ a : Doc, Doc.append a .nil = a
  | .nil => rfl
  | .cons k v rest => by rw [Doc.append, append_nil_right rest]

theorem keys_append : ∀ a b : Doc, Doc.keys (Doc.append a b) = Doc.keys a ++ Doc.keys b
  | .nil, b => rfl
  | .cons k v rest, b => by simp [Doc.append, Doc.keys, keys_append rest b]

theorem append_cons_assoc (k : String) (v : Value) (b : Doc) :
    ∀ a : Doc, Doc.append (Doc.append a (.cons k v .nil)) b = Doc.append a (.cons k v b)
  | .nil => rfl
  | .cons k1 v1 rest => by simp [Doc.append, append_cons_assoc k v b rest]

theorem set_new_key (k : String) (v : Value) :
    ∀ out : Doc, k ∉ Doc.keys out → Doc.set k v out = Doc.append out (.cons k v .nil)
  | .nil, _ => rfl
  | .cons k1 v1 rest, h => by
    simp only [Doc.keys, List.mem_cons, not_or] at h
    have h1 : ¬ k1 = k := fun e => h.1 e.symm
    simp [Doc.set, Doc.append, h1, set_new_key k v rest h.2]

theorem copyInto_eq_append :
    ∀ (a out : Doc), (Doc.keys out ++ Doc.keys a).Nodup → copyInto out a = Doc.append out a
  | .nil, out, _ => by rw [copyInto, append_nil_right]
  | .cons k v rest, out, h => by
    have hk : k ∉ Doc.keys out := by
      intro hmem
      exact (List.nodup_append.1 h).2.2 hmem (by simp [Doc.keys])
    rw [copyInto, set_new_key k v out hk, copyInto_eq_append rest _ (by
      rw [keys_append]
      simpa [Doc.keys, List.append_assoc] using h), append_cons_assoc]

theorem mergeLoop_eq_append :
    ∀ (b out : Doc), (Doc.keys out ++ Doc.keys b).Nodup → mergeLoop out b = Doc.append out b
  | .nil, out, _ => by rw [mergeLoop, append_nil_right]
  | .cons k v rest, out, h => by
    have hk : k ∉ Doc.keys out := by
      intro hmem
      exact (List.nodup_append.1 h).2.2 hmem (by simp [Doc.keys])
    have hget : Doc.get k out = none := (get_eq_none_iff k out).2 hk
    have hentry : mergeEntry none v = v := by
      unfold mergeEntry
      rfl
    rw [mergeLoop_cons, hget, hentry, set_new_key k v out hk,
      mergeLoop_eq_append rest _ (by
        rw [keys_append]
        simpa [Doc.keys, List.append_assoc] using h), append_cons_assoc]

theorem mergeMaps_nil_right (x : Doc) (h : (Doc.keys x).Nodup) : mergeMaps x .nil = x := by
  unfold mergeMaps
  rw [mergeLoop, copyInto_eq_append x .nil (by simpa [Doc.keys] using h)]
  rfl

theorem mergeMaps_nil_left (x : Doc) (h : (Doc.keys x).Nodup) : mergeMaps .nil x = x := by
  unfold mergeMaps
  rw [copyInto, mergeLoop_eq_append x .nil (by simpa [Doc.keys] using h)]
  rfl

/-! ## The walk over the references -/

theorem walk_refl (env : Env) : Walk env env :=
  ⟨[], [], [], List.nodup_nil, by simp, by simp, List.Sublist.refl _, by simp, List.Forall₂.nil⟩

theorem walk_trans {e0 e1 e2 : Env} (h1 : Walk e0 e1) (h2 : Walk e1 e2) : Walk e0 e2 := by
  obtain ⟨rs1, fs1, cs1, hnd1, hnew1, hv1, hsub1, hc1, hf1⟩ := h1
  obtain ⟨rs2, fs2, cs2, hnd2, hnew2, hv2, hsub2, hc2, hf2⟩ := h2
  refine ⟨rs1 ++ rs2, fs1 ++ fs2, cs1 ++ cs2, ?_, ?_, ?_, hsub1.append hsub2, ?_,
    List.rel_append hf1 hf2⟩
  · rw [List.nodup_append]
    refine ⟨hnd1, hnd2, ?_⟩
    intro x hx1 hx2
    exact hnew2 x hx2 (by rw [hv1]; simp [hx1])
  · intro r hr
    rcases List.mem_append.1 hr with h | h
    · exact hnew1 r h
    · intro hmem
      exact hnew2 r h (by rw [hv1]; simp [hmem])
  · rw [hv2, hv1]
    simp
  · rw [hc2, hc1]
    simp

theorem walk_visit (env : Env) (ext : String) (h : ext ∉ env.visited) :
    Walk env ⟨ext :: env.visited, env.calls⟩ :=
  ⟨[ext], [], [], by simp, by simpa using h, by simp, by simp, by simp, List.Forall₂.nil⟩

theorem walk_fetch (env : Env) (ext branch project : String) (h : ext ∉ env.visited)
    (hp : parseExtend ext = .ok (branch, project)) :
    Walk env ⟨ext :: env.visited, env.calls ++ [(branch, project)]⟩ :=
  ⟨[ext], [ext], [(branch, project)], by simp, by simpa using h, by simp, List.Sublist.refl _,
    rfl, List.Forall₂.cons hp List.Forall₂.nil⟩

theorem walk_visited_subset {env env1 : Env} (h : Walk env env1) :
    env.visited ⊆ env1.visited := by
  obtain ⟨rs, _, _, _, _, hv, _⟩ := h
  rw [hv]
  exact List.subset_append_right _ _

theorem extendsLoop_walk (recur : Doc → Env → Option (Except Error Doc × Env)) (f : Fetcher)
    (hrec : ∀ sub e r, recur sub e = some r → Walk e r.2) :
    ∀ (l : List String) (merged : Doc) (env : Env) (r : Except Error Doc × Env),
      extendsLoop recur f l merged env = some r → Walk env r.2
  | [], merged, env, r, h => by
    simp only [extendsLoop, Option.some.injEq] at h
    subst h
    exact walk_refl env
  | ext :: rest, merged, env, r, h => by
    by_cases hv : ext ∈ env.visited
    · rw [extendsLoop_visited recur f ext rest merged env hv, Option.some.injEq] at h
      subst h
      exact walk_refl env
    · cases hp : parseExtend ext with
      | error e =>
        rw [extendsLoop_parse_error recur f ext rest merged env e hv hp, Option.some.injEq] at h
        subst h
        exact walk_visit env ext hv
      | ok bp =>
        obtain ⟨branch, project⟩ := bp
        have hstep := walk_fetch env ext branch project hv hp
        cases hf : f branch project with
        | error e =>
          rw [extendsLoop_fetch_error recur f ext rest merged env branch project e hv hp hf,
            Option.some.injEq] at h
          subst h
          exact hstep
        | ok extCfg =>
          cases hx : Doc.get "extends" extCfg with
          | none =>
            rw [extendsLoop_leaf recur f ext rest merged env branch project extCfg hv hp hf hx] at h
            exact walk_trans hstep (extendsLoop_walk recur f hrec rest _ _ r h)
          | some subExtRaw =>
            rw [extendsLoop_nested recur f ext rest merged env branch project extCfg subExtRaw
              hv hp hf hx] at h
            cases hr : recur (.cons "extends" subExtRaw .nil)
                ⟨ext :: env.visited, env.calls ++ [(branch, project)]⟩ with
            | none => simp [hr] at h
            | some r3 =>
              have hsub := hrec _ _ _ hr
              obtain ⟨ret3, env3⟩ := r3
              dsimp only at hsub
              cases ret3 with
              | error e =>
                simp only [hr, Option.some.injEq] at h
                subst h
                exact walk_trans hstep hsub
              | ok resolvedSub =>
                simp only [hr] at h
                exact walk_trans (walk_trans hstep hsub)
                  (extendsLoop_walk recur f hrec rest _ _ r h)

theorem resolve_walk (f : Fetcher) :
    ∀ (fuel : Nat) (cfg : Doc) (env : Env) (out : Outcome),
      resolveWithFetcher fuel (some f) cfg env = some out → Walk env out.env
  | 0, cfg, env, out, h => by simp [resolveWithFetcher] at h
  | fuel + 1, cfg, env, out, h => by
    cases hx : Doc.get "extends" cfg with
    | none =>
      rw [resolve_leaf fuel f cfg env hx, Option.some.injEq] at h
      subst h
      exact walk_refl env
    | some raw =>
      cases hl : toStringSlice raw with
      | mk l ok =>
        cases ok with
        | false =>
          rw [resolve_shape fuel f cfg env raw l hx hl, Option.some.injEq] at h
          subst h
          exact walk_refl env
        | true =>
          rw [resolve_extends fuel f cfg env raw l hx hl] at h
          have hrec : ∀ sub e r,
              (fun sub e => (resolveWithFetcher fuel (some f) sub e).map
                (fun o => (o.ret, o.env))) sub e = some r → Walk e r.2 := by
            intro sub e r hr
            simp only [Option.map_eq_some'] at hr
            obtain ⟨o, ho, rfl⟩ := hr
            exact resolve_walk f fuel sub e o ho
          cases hloop : extendsLoop
              (fun sub e => (resolveWithFetcher fuel (some f) sub e).map
                (fun o => (o.ret, o.env))) f l .nil env with
          | none => simp [hloop] at h
          | some r =>
            have hr := extendsLoop_walk _ f hrec l .nil env r hloop
            obtain ⟨ret, env1⟩ := r
            cases ret with
            | error e =>
              simp only [hloop, Option.some.injEq] at h
              subst h
              exact hr
            | ok merged =>
              simp only [hloop, Option.some.injEq] at h
              subst h
              exact hr

theorem resolve_recur_walk (f : Fetcher) (fuel : Nat) (sub : Doc) (e : Env)
    (r : Except Error Doc × Env)
    (hr : (resolveWithFetcher fuel (some f) sub e).map (fun o => (o.ret, o.env)) = some r) :
    Walk e r.2 := by
  simp only [Option.map_eq_some'] at hr
  obtain ⟨o, ho, rfl⟩ := hr
  exact resolve_walk f fuel sub e o ho

theorem extendsLoop_ok_nodup (recur : Doc → Env → Option (Except Error Doc × Env))
    (f : Fetcher) (hrec : ∀ sub e r, recur sub e = some r → Walk e r.2) :
    ∀ (l : List String) (merged : Doc) (env : Env) (m : Doc) (env1 : Env),
      extendsLoop recur f l merged env = some (.ok m, env1) →
      l.Nodup ∧ ∀ r ∈ l, r ∉ env.visited
  | [], _, _, _, _, _ => ⟨List.nodup_nil, by simp⟩
  | ext :: rest, merged, env, m, env1, h => by
    by_cases hv : ext ∈ env.visited
    · rw [extendsLoop_visited recur f ext rest merged env hv] at h
      cases h
    · cases hp : parseExtend ext with
      | error e =>
        rw [extendsLoop_parse_error recur f ext rest merged env e hv hp] at h
        cases h
      | ok bp =>
        obtain ⟨branch, project⟩ := bp
        cases hf : f branch project with
        | error e =>
          rw [extendsLoop_fetch_error recur f ext rest merged env branch project e hv hp hf] at h
          cases h
        | ok extCfg =>
          have key : ∀ (merged2 : Doc) (env3 : Env),
              ext :: env.visited ⊆ env3.visited →
              extendsLoop recur f rest merged2 env3 = some (.ok m, env1) →
              (ext :: rest).Nodup ∧ ∀ r ∈ ext :: rest, r ∉ env.visited := by
            intro merged2 env3 hsub hrest
            obtain ⟨hnd, hnew⟩ := extendsLoop_ok_nodup recur f hrec rest merged2 env3 m env1 hrest
            refine ⟨List.nodup_cons.2 ⟨fun hmem => hnew ext hmem (hsub (by simp)), hnd⟩, ?_⟩
            intro r hr
            simp only [List.mem_cons] at hr
            rcases hr with e | e
            · exact e ▸ hv
            · exact fun hmem => hnew r e (hsub (by simp [hmem]))
          cases hx : Doc.get "extends" extCfg with
          | none =>
            rw [extendsLoop_leaf recur f ext rest merged env branch project extCfg hv hp hf hx] at h
            exact key _ _ (List.Subset.refl _) h
          | some subExtRaw =>
            rw [extendsLoop_nested recur f ext rest merged env branch project extCfg subExtRaw
              hv hp hf hx] at h
            cases hr : recur (.cons "extends" subExtRaw .nil)
                ⟨ext :: env.visited, env.calls ++ [(branch, project)]⟩ with
            | none => simp [hr] at h
            | some r3 =>
              have hsub := walk_visited_subset (hrec _ _ _ hr)
              obtain ⟨ret3, env3⟩ := r3
              dsimp only at hsub
              cases ret3 with
              | error e =>
                simp only [hr, Option.some.injEq] at h
                cases h
              | ok resolvedSub =>
                simp only [hr] at h
                exact key _ _ hsub h

/-! ## Deleting a key, well-formed maps and paths -/

theorem get_delete_same (k : String) : ∀ m : Doc, Doc.get k (Doc.delete k m) = none
  | .nil => rfl
  | .cons k1 v1 rest => by
    by_cases h : k1 = k
    · simp [Doc.delete, h, get_delete_same k rest]
    · simp [Doc.delete, Doc.get, h, get_delete_same k rest]

theorem get_delete_other (k j : String) (hj : j ≠ k) :
    ∀ m : Doc, Doc.get j (Doc.delete k m) = Doc.get j m
  | .nil => rfl
  | .cons k1 v1 rest => by
    by_cases h : k1 = k
    · subst h
      have h1 : ¬ k1 = j := fun e => hj e.symm
      simp [Doc.delete, Doc.get, h1, get_delete_other k1 j hj rest]
    · by_cases h1 : k1 = j
      · subst h1
        simp [Doc.delete, Doc.get, h]
      · simp [Doc.delete, Doc.get, h, h1, get_delete_other k j hj rest]

theorem mem_keys_delete (k j : String) (m : Doc) :
    j ∈ Doc.keys (Doc.delete k m) ↔ j ∈ Doc.keys m ∧ j ≠ k := by
  by_cases hj : j = k
  · subst hj
    have := (get_eq_none_iff j (Doc.delete j m)).1 (get_delete_same j m)
    simp [this]
  · rw [mem_keys_iff, mem_keys_iff, get_delete_other k j hj]
    simp [hj]

theorem nodup_keys_delete (k : String) :
    ∀ m : Doc, (Doc.keys m).Nodup → (Doc.keys (Doc.delete k m)).Nodup
  | .nil, _ => by simp [Doc.delete, Doc.keys]
  | .cons k1 v1 rest, h => by
    simp only [Doc.keys, List.nodup_cons] at h
    by_cases h1 : k1 = k
    · simpa [Doc.delete, h1] using nodup_keys_delete k rest h.2
    · simp only [Doc.delete, h1, if_false, Doc.keys, List.nodup_cons]
      exact ⟨fun hmem => h.1 ((mem_keys_delete k k1 rest).1 hmem).1,
        nodup_keys_delete k rest h.2⟩

theorem wellFormed_keys : ∀ m : Doc, Doc.WellFormed m → (Doc.keys m).Nodup
  | .nil, _ => by simp [Doc.keys]
  | .cons k v rest, h => by
    simp only [Doc.WellFormed] at h
    simp only [Doc.keys, List.nodup_cons]
    exact ⟨h.1, wellFormed_keys rest h.2.2⟩

theorem wellFormed_get (k : String) (v : Value) :
    ∀ m : Doc, Doc.WellFormed m → Doc.get k m = some v → Value.WellFormed v
  | .nil, _, h => by simp [Doc.get] at h
  | .cons k1 v1 rest, hwf, h => by
    simp only [Doc.WellFormed] at hwf
    by_cases h1 : k1 = k
    · simp only [Doc.get, h1, if_true, Option.some.injEq] at h
      exact h ▸ hwf.2.1
    · simp only [Doc.get, h1, if_false] at h
      exact wellFormed_get k v rest hwf.2.2 h

theorem wellFormed_delete (k : String) :
    ∀ m : Doc, Doc.WellFormed m → Doc.WellFormed (Doc.delete k m)
  | .nil, _ => by simp [Doc.delete, Doc.WellFormed]
  | .cons k1 v1 rest, h => by
    simp only [Doc.WellFormed] at h
    by_cases h1 : k1 = k
    · simpa [Doc.delete, h1] using wellFormed_delete k rest h.2.2
    · simp only [Doc.delete, h1, if_false, Doc.WellFormed]
      exact ⟨fun hmem => h.1 ((mem_keys_delete k k1 rest).1 hmem).1, h.2.1,
        wellFormed_delete k rest h.2.2⟩

theorem get_mergeMaps_overlay (k : String) (a b : Doc) (vb : Value)
    (hb : (Doc.keys b).Nodup) (hk : Doc.get k b = some vb) :
    Doc.get k (mergeMaps a b) = some (mergeEntry (Doc.get k (copyInto .nil a)) vb) := by
  unfold mergeMaps
  rw [get_mergeLoop k b _ hb, hk]

theorem getPath_mergeMaps (v : Value) (hv : v.isMapping = false) :
    ∀ (path : List String) (a b : Doc), Doc.WellFormed b → Doc.getPath path b = some v →
      Doc.getPath path (mergeMaps a b) = some v
  | [], _, _, _, h => by simp [Doc.getPath] at h
  | [k], a, b, hwf, h => by
    simp only [Doc.getPath] at h ⊢
    rw [get_mergeMaps_overlay k a b v (wellFormed_keys b hwf) h]
    cases v with
    | obj m => simp [Value.isMapping] at hv
    | null => simp [mergeEntry]
    | bool x => simp [mergeEntry]
    | num x => simp [mergeEntry]
    | str x => simp [mergeEntry]
    | arr x => simp [mergeEntry]
  | k :: k2 :: path, a, b, hwf, h => by
    cases hk : Doc.get k b with
    | none => simp [Doc.getPath, hk] at h
    | some vb =>
      cases vb with
      | obj sub =>
        simp only [Doc.getPath, hk] at h
        have hsub : Doc.WellFormed sub := by
          have := wellFormed_get k _ b hwf hk
          simpa [Value.WellFormed] using this
        simp only [Doc.getPath]
        rw [get_mergeMaps_overlay k a b _ (wellFormed_keys b hwf) hk]
        cases hka : Doc.get k (copyInto .nil a) with
        | none => simpa [mergeEntry] using h
        | some va =>
          cases va with
          | obj ma =>
            simp only [mergeEntry]
            exact getPath_mergeMaps v hv (k2 :: path) ma sub hsub h
          | null => simpa [mergeEntry] using h
          | bool x => simpa [mergeEntry] using h
          | num x => simpa [mergeEntry] using h
          | str x => simpa [mergeEntry] using h
          | arr x => simpa [mergeEntry] using h
      | null => simp [Doc.getPath, hk] at h
      | bool x => simp [Doc.getPath, hk] at h
      | num x => simp [Doc.getPath, hk] at h
      | str x => simp [Doc.getPath, hk] at h
      | arr x => simp [Doc.getPath, hk] at h

theorem getPath_delete (k : String) :
    ∀ (path : List String) (m : Doc), path.head? ≠ some k →
      Doc.getPath path (Doc.delete k m) = Doc.getPath path m
  | [], _, _ => rfl
  | [j], m, h => by
    have hj : j ≠ k := fun e => h (by simp [e])
    simp [Doc.getPath, get_delete_other k j hj]
  | j :: j2 :: path, m, h => by
    have hj : j ≠ k := fun e => h (by simp [e])
    simp [Doc.getPath, get_delete_other k j hj]

theorem resolve_ok_overlay (f : Fetcher) (fuel : Nat) (cfg : Doc) (env : Env) (out : Outcome)
    (res : Doc) (raw : Value) (h : resolveWithFetcher fuel (some f) cfg env = some out)
    (hok : out.ret = .ok res) (hx : Doc.get "extends" cfg = some raw) :
    (∃ merged, res = mergeMaps merged (Doc.delete "extends" cfg)) ∧
      out.cfg = Doc.delete "extends" cfg := by
  cases fuel with
  | zero => simp [resolveWithFetcher] at h
  | succ fuel =>
    cases hl : toStringSlice raw with
    | mk l ok =>
      cases ok with
      | false =>
        rw [resolve_shape fuel f cfg env raw l hx hl, Option.some.injEq] at h
        subst h
        cases hok
      | true =>
        rw [resolve_extends fuel f cfg env raw l hx hl] at h
        cases hloop : extendsLoop
            (fun sub e => (resolveWithFetcher fuel (some f) sub e).map
              (fun o => (o.ret, o.env))) f l .nil env with
        | none => simp [hloop] at h
        | some r =>
          obtain ⟨ret, env1⟩ := r
          cases ret with
          | error e =>
            simp only [hloop, Option.some.injEq] at h
            subst h
            cases hok
          | ok merged =>
            simp only [hloop, Option.some.injEq] at h
            subst h
            simp only [Except.ok.injEq] at hok
            exact ⟨⟨merged, hok.symm⟩, rfl⟩

/-! ## Runs cut short by the bound on nested calls -/

section Trace
variable (recurT : Doc → Env → Option (Except Error Doc) × Env) (f : Fetcher)

theorem extendsLoopTrace_visited (ext : String) (rest : List String) (merged : Doc) (env : Env)
    (h : ext ∈ env.visited) :
    extendsLoopTrace recurT f (ext :: rest) merged env = (some (.error (.circular ext)), env) := by
  simp [extendsLoopTrace, h]

theorem extendsLoopTrace_parse_error (ext : String) (rest : List String) (merged : Doc)
    (env : Env) (e : Error) (h : ext ∉ env.visited) (hp : parseExtend ext = .error e) :
    extendsLoopTrace recurT f (ext :: rest) merged env =
      (some (.error e), ⟨ext :: env.visited, env.calls⟩) := by
  simp [extendsLoopTrace, h, hp]

theorem extendsLoopTrace_fetch_error (ext : String) (rest : List String) (merged : Doc)
    (env : Env) (branch project : String) (e : Error) (h : ext ∉ env.visited)
    (hp : parseExtend ext = .ok (branch, project)) (hf : f branch project = .error e) :
    extendsLoopTrace recurT f (ext :: rest) merged env =
      (some (.error e), ⟨ext :: env.visited, env.calls ++ [(branch, project)]⟩) := by
  simp [extendsLoopTrace, h, hp, hf]

theorem extendsLoopTrace_leaf (ext : String) (rest : List String) (merged : Doc) (env : Env)
    (branch project : String) (extCfg : Doc) (h : ext ∉ env.visited)
    (hp : parseExtend ext = .ok (branch, project)) (hf : f branch project = .ok extCfg)
    (hx : Doc.get "extends" extCfg = none) :
    extendsLoopTrace recurT f (ext :: rest) merged env =
      extendsLoopTrace recurT f rest (mergeMaps merged extCfg)
        ⟨ext :: env.visited, env.calls ++ [(branch, project)]⟩ := by
  simp [extendsLoopTrace, h, hp, hf, hx]

theorem extendsLoopTrace_nested (ext : String) (rest : List String) (merged : Doc) (env : Env)
    (branch project : String) (extCfg : Doc) (subExtRaw : Value) (h : ext ∉ env.visited)
    (hp : parseExtend ext = .ok (branch, project)) (hf : f branch project = .ok extCfg)
    (hx : Doc.get "extends" extCfg = some subExtRaw) :
    extendsLoopTrace recurT f (ext :: rest) merged env =
      match recurT (.cons "extends" subExtRaw .nil)
          ⟨ext :: env.visited, env.calls ++ [(branch, project)]⟩ with
      | (none, env3) => (none, env3)
      | (some (.error e), env3) => (some (.error e), env3)
      | (some (.ok resolvedSub), env3) =>
        extendsLoopTrace recurT f rest (mergeMaps merged (mergeMaps resolvedSub extCfg)) env3 := by
  simp [extendsLoopTrace, h, hp, hf, hx]

theorem extendsLoop_finished (recur : Doc → Env → Option (Except Error Doc × Env))
    (hrec : ∀ sub e, recur sub e = finished (recurT sub e)) :
    ∀ (l : List String) (merged : Doc) (env : Env),
      extendsLoop recur f l merged env = finished (extendsLoopTrace recurT f l merged env)
  | [], merged, env => rfl
  | ext :: rest, merged, env => by
    by_cases hv : ext ∈ env.visited
    · rw [extendsLoop_visited recur f ext rest merged env hv,
        extendsLoopTrace_visited recurT f ext rest merged env hv]
      rfl
    · cases hp : parseExtend ext with
      | error e =>
        rw [extendsLoop_parse_error recur f ext rest merged env e hv hp,
          extendsLoopTrace_parse_error recurT f ext rest merged env e hv hp]
        rfl
      | ok bp =>
        obtain ⟨branch, project⟩ := bp
        cases hf : f branch project with
        | error e =>
          rw [extendsLoop_fetch_error recur f ext rest merged env branch project e hv hp hf,
            extendsLoopTrace_fetch_error recurT f ext rest merged env branch project e hv hp hf]
          rfl
        | ok extCfg =>
          cases hx : Doc.get "extends" extCfg with
          | none =>
            rw [extendsLoop_leaf recur f ext rest merged env branch project extCfg hv hp hf hx,
              extendsLoopTrace_leaf recurT f ext rest merged env branch project extCfg hv hp hf
                hx]
            exact extendsLoop_finished recur hrec rest _ _
          | some subExtRaw =>
            rw [extendsLoop_nested recur f ext rest merged env branch project extCfg subExtRaw
                hv hp hf hx,
              extendsLoopTrace_nested recurT f ext rest merged env branch project extCfg
                subExtRaw hv hp hf hx, hrec]
            cases hr : recurT (.cons "extends" subExtRaw .nil)
                ⟨ext :: env.visited, env.calls ++ [(branch, project)]⟩ with
            | mk r3 env3 =>
              cases r3 with
              | none => rfl
              | some ret3 =>
                cases ret3 with
                | error e => rfl
                | ok resolvedSub =>
                  simp only [finished]
                  exact extendsLoop_finished recur hrec rest _ _

/-- Unless the run ended with an error, every call recorded in it was answered
with a document; this holds of a run cut short too. -/
theorem extendsLoopTrace_answered
    (hrec : ∀ sub e, ∃ cs, (recurT sub e).2.calls = e.calls ++ cs ∧
      ((∀ err, (recurT sub e).1 ≠ some (.error err)) → ∀ c ∈ cs, ∃ d, f c.1 c.2 = .ok d)) :
    ∀ (l : List String) (merged : Doc) (env : Env),
      ∃ cs, (extendsLoopTrace recurT f l merged env).2.calls = env.calls ++ cs ∧
        ((∀ err, (extendsLoopTrace recurT f l merged env).1 ≠ some (.error err)) →
          ∀ c ∈ cs, ∃ d, f c.1 c.2 = .ok d)
  | [], merged, env => ⟨[], by simp [extendsLoopTrace], by simp⟩
  | ext :: rest, merged, env => by
    by_cases hv : ext ∈ env.visited
    · rw [extendsLoopTrace_visited recurT f ext rest merged env hv]
      exact ⟨[], by simp, by simp⟩
    · cases hp : parseExtend ext with
      | error e =>
        rw [extendsLoopTrace_parse_error recurT f ext rest merged env e hv hp]
        exact ⟨[], by simp, by simp⟩
      | ok bp =>
        obtain ⟨branch, project⟩ := bp
        cases hf : f branch project with
        | error e =>
          rw [extendsLoopTrace_fetch_error recurT f ext rest merged env branch project e hv hp hf]
          exact ⟨[(branch, project)], rfl, fun h => absurd rfl (h e)⟩
        | ok extCfg =>
          have hhead : ∃ d, f (branch, project).1 (branch, project).2 = .ok d := ⟨extCfg, hf⟩
          cases hx : Doc.get "extends" extCfg with
          | none =>
            rw [extendsLoopTrace_leaf recurT f ext rest merged env branch project extCfg hv hp hf
              hx]
            obtain ⟨cs, hcs, hans⟩ := extendsLoopTrace_answered hrec rest
              (mergeMaps merged extCfg) ⟨ext :: env.visited, env.calls ++ [(branch, project)]⟩
            refine ⟨(branch, project) :: cs, by simp [hcs], ?_⟩
            intro hne c hc
            simp only [List.mem_cons] at hc
            rcases hc with hc | hc
            · exact hc ▸ hhead
            · exact hans hne c hc
          | some subExtRaw =>
            rw [extendsLoopTrace_nested recurT f ext rest merged env branch project extCfg
              subExtRaw hv hp hf hx]
            obtain ⟨cs3, hcs3, hans3⟩ := hrec (.cons "extends" subExtRaw .nil)
              ⟨ext :: env.visited, env.calls ++ [(branch, project)]⟩
            cases hr : recurT (.cons "extends" subExtRaw .nil)
                ⟨ext :: env.visited, env.calls ++ [(branch, project)]⟩ with
            | mk r3 env3 =>
              rw [hr] at hcs3 hans3
              dsimp only at hcs3 hans3
              cases r3 with
              | none =>
                refine ⟨(branch, project) :: cs3, by simp [hcs3], ?_⟩
                intro _ c hc
                simp only [List.mem_cons] at hc
                rcases hc with hc | hc
                · exact hc ▸ hhead
                · exact hans3 (by simp) c hc
              | some ret3 =>
                cases ret3 with
                | error e =>
                  exact ⟨(branch, project) :: cs3, by simp [hcs3], fun h => absurd rfl (h e)⟩
                | ok resolvedSub =>
                  obtain ⟨cs, hcs, hans⟩ := extendsLoopTrace_answered hrec rest
                    (mergeMaps merged (mergeMaps resolvedSub extCfg)) env3
                  refine ⟨(branch, project) :: (cs3 ++ cs), by simp [hcs, hcs3], ?_⟩
                  intro hne c hc
                  simp only [List.mem_cons, List.mem_append] at hc
                  rcases hc with hc | hc | hc
                  · exact hc ▸ hhead
                  · exact hans3 (by simp) c hc
                  · exact hans hne c hc

end Trace

theorem resolveTrace_answered (f : Fetcher) :
    ∀ (fuel : Nat) (cfg : Doc) (env : Env),
      ∃ cs, (resolveTrace fuel f cfg env).2.calls = env.calls ++ cs ∧
        ((∀ err, (resolveTrace fuel f cfg env).1 ≠ some (.error err)) →
          ∀ c ∈ cs, ∃ d, f c.1 c.2 = .ok d)
  | 0, cfg, env => ⟨[], by simp [resolveTrace], by simp⟩
  | fuel + 1, cfg, env => by
    cases hx : Doc.get "extends" cfg with
    | none => exact ⟨[], by simp [resolveTrace, hx], by simp⟩
    | some raw =>
      cases hl : toStringSlice raw with
      | mk l ok =>
        cases ok with
        | false => exact ⟨[], by simp [resolveTrace, hx, hl], by simp⟩
        | true =>
          obtain ⟨cs, hcs, hans⟩ := extendsLoopTrace_answered (resolveTrace fuel f) f
            (fun sub e => resolveTrace_answered f fuel sub e) l .nil env
          cases hloop : extendsLoopTrace (resolveTrace fuel f) f l .nil env with
          | mk r env1 =>
            rw [hloop] at hcs hans
            dsimp only at hcs hans
            cases r with
            | none => exact ⟨cs, by simp [resolveTrace, hx, hl, hloop, hcs], fun _ => hans (by simp)⟩
            | some ret =>
              cases ret with
              | error e =>
                exact ⟨cs, by simp [resolveTrace, hx, hl, hloop, hcs],
                  fun h => absurd (by simp [resolveTrace, hx, hl, hloop]) (h e)⟩
              | ok merged =>
                exact ⟨cs, by simp [resolveTrace, hx, hl, hloop, hcs], fun _ => hans (by simp)⟩

theorem resolve_finished (f : Fetcher) :
    ∀ (fuel : Nat) (cfg : Doc) (env : Env),
      (resolveWithFetcher fuel (some f) cfg env).map (fun o => (o.ret, o.env)) =
        finished (resolveTrace fuel f cfg env)
  | 0, cfg, env => rfl
  | fuel + 1, cfg, env => by
    cases hx : Doc.get "extends" cfg with
    | none => simp [resolve_leaf fuel f cfg env hx, resolveTrace, hx, finished]
    | some raw =>
      cases hl : toStringSlice raw with
      | mk l ok =>
        cases ok with
        | false => simp [resolve_shape fuel f cfg env raw l hx hl, resolveTrace, hx, hl, finished]
        | true =>
          rw [resolve_extends fuel f cfg env raw l hx hl,
            extendsLoop_finished (resolveTrace fuel f) f _
              (fun sub e => resolve_finished f fuel sub e) l .nil env]
          cases hloop : extendsLoopTrace (resolveTrace fuel f) f l .nil env with
          | mk r env1 =>
            cases r with
            | none => simp [resolveTrace, hx, hl, hloop, finished]
            | some ret =>
              cases ret with
              | error e => simp [resolveTrace, hx, hl, hloop, finished]
              | ok merged => simp [resolveTrace, hx, hl, hloop, finished]

/-! ## Reads and writes of the store -/

theorem read_append_left (s t : Store) (i : Nat) (h : i < s.length) :
    Store.read (s ++ t) i = Store.read s i := by
  unfold Store.read
  rw [List.getD_append _ _ _ _ h]

theorem read_append_right (s t : Store) (i : Nat) :
    Store.read (s ++ t) (s.length + i) = t.getD i [] := by
  unfold Store.read
  rw [List.getD_append_right _ _ _ _ (Nat.le_add_right _ _)]
  simp

theorem length_write (s : Store) (a : Nat) (m : SMap) : (Store.write s a m).length = s.length := by
  simp [Store.write]

theorem read_write_other (s : Store) (a i : Nat) (m : SMap) (h : i ≠ a) :
    Store.read (Store.write s a m) i = Store.read s i := by
  unfold Store.read Store.write
  simp only [List.getD_eq_getElem?_getD]
  rw [List.getElem?_set_ne (Ne.symm h)]

theorem read_write_same (s : Store) (a : Nat) (m : SMap) (h : a < s.length) :
    Store.read (Store.write s a m) a = m := by
  unfold Store.read Store.write
  simp only [List.getD_eq_getElem?_getD]
  rw [List.getElem?_set_self h]
  rfl

/-! ## `mergeMaps` on the store writes to its fresh object only -/

theorem copyIntoS_frame (out : Nat) :
    ∀ (m : SMap) (s : Store),
      (copyIntoS out m s).length = s.length ∧
        ∀ i, i ≠ out → Store.read (copyIntoS out m s) i = Store.read s i
  | [], s => ⟨rfl, fun _ _ => rfl⟩
  | (k, v) :: rest, s => by
    obtain ⟨hlen, hread⟩ := copyIntoS_frame out rest
      (Store.write s out (SMap.set k v (Store.read s out)))
    rw [copyIntoS]
    refine ⟨by rw [hlen, length_write], ?_⟩
    intro i hi
    rw [hread i hi, read_write_other s out i _ hi]

theorem mergeLoopS_ref (recur : Store → Nat → Nat → Option (Store × Nat)) (out : Nat)
    (k : String) (mapA mapB : Nat) (rest : SMap) (s : Store)
    (h : SMap.get k (Store.read s out) = some (.ref mapA)) :
    mergeLoopS recur out ((k, .ref mapB) :: rest) s =
      match recur s mapA mapB with
      | none => none
      | some (s1, sub) =>
        mergeLoopS recur out rest
          (Store.write s1 out (SMap.set k (.ref sub) (Store.read s1 out))) := by
  simp [mergeLoopS, h]

theorem mergeLoopS_plain (recur : Store → Nat → Nat → Option (Store × Nat)) (out : Nat)
    (k : String) (vb : SValue) (rest : SMap) (s : Store)
    (h : ∀ mapA mapB, ¬ (SMap.get k (Store.read s out) = some (.ref mapA) ∧ vb = .ref mapB)) :
    mergeLoopS recur out ((k, vb) :: rest) s =
      mergeLoopS recur out rest (Store.write s out (SMap.set k vb (Store.read s out))) := by
  cases hget : SMap.get k (Store.read s out) with
  | none => simp [mergeLoopS, hget]
  | some va =>
    cases va <;> cases vb <;> simp_all [mergeLoopS]

theorem mergeLoopS_frame (recur : Store → Nat → Nat → Option (Store × Nat)) (out : Nat)
    (hrec : ∀ s a b s1 o, recur s a b = some (s1, o) →
      s.length ≤ s1.length ∧ ∀ i, i < s.length → Store.read s1 i = Store.read s i) :
    ∀ (m : SMap) (s s2 : Store), mergeLoopS recur out m s = some s2 →
      s.length ≤ s2.length ∧ ∀ i, i < s.length → i ≠ out → Store.read s2 i = Store.read s i
  | [], s, s2, h => by
    simp only [mergeLoopS, Option.some.injEq] at h
    subst h
    exact ⟨Nat.le_refl _, fun _ _ _ => rfl⟩
  | (k, vb) :: rest, s, s2, h => by
    by_cases hcase : ∃ mapA mapB,
        SMap.get k (Store.read s out) = some (.ref mapA) ∧ vb = .ref mapB
    · obtain ⟨mapA, mapB, hget, hvb⟩ := hcase
      subst hvb
      rw [mergeLoopS_ref recur out k mapA mapB rest s hget] at h
      cases hr : recur s mapA mapB with
      | none => simp [hr] at h
      | some p =>
        obtain ⟨s1, sub⟩ := p
        simp only [hr] at h
        obtain ⟨hlen1, hread1⟩ := hrec s mapA mapB s1 sub hr
        obtain ⟨hlen, hread⟩ := mergeLoopS_frame recur out hrec rest _ s2 h
        rw [length_write] at hlen hread
        refine ⟨Nat.le_trans hlen1 hlen, ?_⟩
        intro i hi hne
        rw [hread i (Nat.lt_of_lt_of_le hi hlen1) hne, read_write_other s1 out i _ hne,
          hread1 i hi]
    · rw [mergeLoopS_plain recur out k vb rest s
        (fun mapA mapB hab => hcase ⟨mapA, mapB, hab⟩)] at h
      obtain ⟨hlen, hread⟩ := mergeLoopS_frame recur out hrec rest _ s2 h
      rw [length_write] at hlen hread
      exact ⟨hlen, fun i hi hne => by rw [hread i hi hne, read_write_other s out i _ hne]⟩

theorem mergeMapsS_frame :
    ∀ (fuel : Nat) (s : Store) (a b : Nat) (s2 : Store) (o : Nat),
      mergeMapsS fuel s a b = some (s2, o) →
      o = s.length ∧ s.length < s2.length ∧
        ∀ i, i < s.length → Store.read s2 i = Store.read s i
  | 0, s, a, b, s2, o, h => by simp [mergeMapsS] at h
  | fuel + 1, s, a, b, s2, o, h => by
    simp only [mergeMapsS] at h
    cases hloop : mergeLoopS (mergeMapsS fuel) s.length
        (Store.read (copyIntoS s.length (Store.read (s ++ [[]]) a) (s ++ [[]])) b)
        (copyIntoS s.length (Store.read (s ++ [[]]) a) (s ++ [[]])) with
    | none => simp [hloop] at h
    | some s3 =>
      simp only [hloop, Option.some.injEq, Prod.mk.injEq] at h
      obtain ⟨h1, h2⟩ := h
      subst h1 h2
      obtain ⟨hclen, hcread⟩ := copyIntoS_frame s.length (Store.read (s ++ [[]]) a) (s ++ [[]])
      obtain ⟨hlen, hread⟩ := mergeLoopS_frame (mergeMapsS fuel) s.length
        (fun s a b s1 o hr =>
          let ⟨_, hlt, hkeep⟩ := mergeMapsS_frame fuel s a b s1 o hr
          ⟨Nat.le_of_lt hlt, hkeep⟩) _ _ s3 hloop
      rw [hclen] at hlen hread
      simp only [List.length_append, List.length_singleton] at hlen hread
      refine ⟨rfl, by omega, ?_⟩
      intro i hi
      rw [hread i (by omega) (by omega), hcread i (by omega), read_append_left s _ i hi]

/-! ## Documents entering the store -/

mutual
theorem loadValue_extends : ∀ (v : Value) (s : Store), ∃ t, (loadValue v s).2 = s ++ t
  | .null, s => ⟨[], by simp [loadValue]⟩
  | .bool _, s => ⟨[], by simp [loadValue]⟩
  | .num _, s => ⟨[], by simp [loadValue]⟩
  | .str _, s => ⟨[], by simp [loadValue]⟩
  | .arr xs, s => by
    obtain ⟨t, ht⟩ := loadList_extends xs s
    exact ⟨t, by simpa [loadValue] using ht⟩
  | .obj m, s => by
    obtain ⟨t, ht⟩ := loadEntries_extends m s
    refine ⟨t ++ [(loadEntries m s).1], ?_⟩
    simp only [loadValue]
    rw [ht, List.append_assoc]
theorem loadList_extends : ∀ (xs : List Value) (s : Store), ∃ t, (loadList xs s).2 = s ++ t
  | [], s => ⟨[], by simp [loadList]⟩
  | x :: xs, s => by
    obtain ⟨t1, ht1⟩ := loadValue_extends x s
    obtain ⟨t2, ht2⟩ := loadList_extends xs (loadValue x s).2
    refine ⟨t1 ++ t2, ?_⟩
    simp only [loadList]
    rw [ht2, ht1, List.append_assoc]
theorem loadEntries_extends : ∀ (m : Doc) (s : Store), ∃ t, (loadEntries m s).2 = s ++ t
  | .nil, s => ⟨[], by simp [loadEntries]⟩
  | .cons k v rest, s => by
    obtain ⟨t1, ht1⟩ := loadValue_extends v s
    obtain ⟨t2, ht2⟩ := loadEntries_extends rest (loadValue v s).2
    refine ⟨t1 ++ t2, ?_⟩
    simp only [loadEntries]
    rw [ht2, ht1, List.append_assoc]
end

theorem loadDoc_extends (m : Doc) (s : Store) : ∃ t, (loadDoc m s).2 = s ++ t := by
  obtain ⟨t, ht⟩ := loadEntries_extends m s
  refine ⟨t ++ [(loadEntries m s).1], ?_⟩
  simp only [loadDoc]
  rw [ht, List.append_assoc]

/-! ## Stretches of a run on the store -/

theorem runFrame_refl (r : Run) : RunFrame none r r :=
  ⟨Nat.le_refl _, fun _ _ _ => rfl, [], by simp, by simp⟩

theorem runFrame_trans {r r1 r2 : Run} (h1 : RunFrame none r r1) (h2 : RunFrame none r1 r2) :
    RunFrame none r r2 := by
  obtain ⟨hlen1, hkeep1, new1, hlog1, hnew1⟩ := h1
  obtain ⟨hlen2, hkeep2, new2, hlog2, hnew2⟩ := h2
  refine ⟨Nat.le_trans hlen1 hlen2, ?_, new1 ++ new2, by rw [hlog2, hlog1, List.append_assoc], ?_⟩
  · intro i hi hne
    rw [hkeep2 i (Nat.lt_of_lt_of_le hi hlen1) (by simp), hkeep1 i hi hne]
  · intro e he
    rcases List.mem_append.1 he with h | h
    · obtain ⟨hlo, hhi, hcells⟩ := hnew1 e h
      refine ⟨hlo, Nat.le_trans hhi hlen2, ?_⟩
      intro i hi
      rw [hkeep2 (e.1 + i) (by omega) (by simp), hcells i hi]
    · obtain ⟨hlo, hhi, hcells⟩ := hnew2 e h
      exact ⟨Nat.le_trans hlen1 hlo, hhi, hcells⟩

theorem runFrame_store (s s2 : Store) (env env2 : Env) (log : List (Nat × List SMap))
    (hlen : s.length ≤ s2.length)
    (hkeep : ∀ i, i < s.length → Store.read s2 i = Store.read s i) :
    RunFrame none ⟨s, env, log⟩ ⟨s2, env2, log⟩ :=
  ⟨hlen, fun i hi _ => hkeep i hi, [], by simp, by simp⟩

theorem runFrame_merge (mfuel : Nat) (s s2 : Store) (a b o : Nat) (env env2 : Env)
    (log : List (Nat × List SMap)) (h : mergeMapsS mfuel s a b = some (s2, o)) :
    RunFrame none ⟨s, env, log⟩ ⟨s2, env2, log⟩ := by
  obtain ⟨_, hlt, hkeep⟩ := mergeMapsS_frame mfuel s a b s2 o h
  exact runFrame_store s s2 env env2 log (Nat.le_of_lt hlt) hkeep

theorem runFrame_load (doc : Doc) (s : Store) (env env2 : Env) (log : List (Nat × List SMap)) :
    RunFrame none ⟨s, env, log⟩
      ⟨(loadDoc doc s).2, env2, log ++ [(s.length, (loadDoc doc s).2.drop s.length)]⟩ := by
  obtain ⟨t, ht⟩ := loadDoc_extends doc s
  rw [ht]
  refine ⟨by simp, fun i hi _ => read_append_left s t i hi,
    [(s.length, (s ++ t).drop s.length)], rfl, ?_⟩
  intro e he
  simp only [List.mem_singleton] at he
  subst he
  simp only [List.drop_left']
  refine ⟨Nat.le_refl _, by simp, ?_⟩
  intro i _
  exact read_append_right s t i

theorem runFrame_nested (s1 : Store) (m : SMap) (env : Env) (log : List (Nat × List SMap))
    (r3 : Run) (h : RunFrame (some s1.length) ⟨s1 ++ [m], env, log⟩ r3) :
    RunFrame none ⟨s1, env, log⟩ r3 := by
  obtain ⟨hlen, hkeep, new, hlog, hnew⟩ := h
  simp only [List.length_append, List.length_singleton] at hlen hkeep hnew
  refine ⟨by simp only; omega, ?_, new, hlog, ?_⟩
  · intro i hi _
    simp only at hi
    rw [hkeep i (by omega) (by simp; omega), read_append_left s1 [m] i hi]
  · intro e he
    obtain ⟨hlo, hhi, hcells⟩ := hnew e he
    exact ⟨by simp only; omega, hhi, hcells⟩

theorem extendsLoopS_frame (recur : Nat → Run → Option (Except Error Nat × Run)) (mfuel : Nat)
    (f : Fetcher)
    (hrec : ∀ c r ret r1, c < r.store.length → recur c r = some (ret, r1) →
      RunFrame (some c) r r1) :
    ∀ (l : List String) (merged : Nat) (r : Run) (ret : Except Error Nat) (r1 : Run),
      extendsLoopS recur mfuel f l merged r = some (ret, r1) → RunFrame none r r1
  | [], merged, r, ret, r1, h => by
    simp only [extendsLoopS, Option.some.injEq, Prod.mk.injEq] at h
    rw [← h.2]
    exact runFrame_refl r
  | ext :: rest, merged, r, ret, r1, h => by
    rw [extendsLoopS] at h
    split at h
    · simp only [Option.some.injEq, Prod.mk.injEq] at h
      rw [← h.2]
      exact runFrame_refl r
    · simp only at h
      split at h
      · simp only [Option.some.injEq, Prod.mk.injEq] at h
        rw [← h.2]
        exact runFrame_store r.store r.store r.env _ r.fetched (Nat.le_refl _) (fun _ _ => rfl)
      · split at h
        · simp only [Option.some.injEq, Prod.mk.injEq] at h
          rw [← h.2]
          exact runFrame_store r.store r.store r.env _ r.fetched (Nat.le_refl _) (fun _ _ => rfl)
        · rename_i hv _ branch project hp _ doc hf
          have hload := runFrame_load doc r.store r.env
            ⟨ext :: r.env.visited, r.env.calls ++ [(branch, project)]⟩ r.fetched
          split at h
          · cases hm : mergeMapsS mfuel (loadDoc doc r.store).2 merged (loadDoc doc r.store).1 with
            | none => simp [hm] at h
            | some p =>
              obtain ⟨s2, merged1⟩ := p
              simp only [hm] at h
              exact runFrame_trans hload (runFrame_trans
                (runFrame_merge mfuel _ s2 _ _ merged1 _ _ _ hm)
                (extendsLoopS_frame recur mfuel f hrec rest merged1 _ ret r1 h))
          · rename_i subExtRaw hx
            cases hr : recur (loadDoc doc r.store).2.length
                ⟨(loadDoc doc r.store).2 ++ [[("extends", subExtRaw)]],
                  ⟨ext :: r.env.visited, r.env.calls ++ [(branch, project)]⟩,
                  r.fetched ++ [(r.store.length, (loadDoc doc r.store).2.drop r.store.length)]⟩ with
            | none => simp [hr] at h
            | some p =>
              obtain ⟨ret3, r3⟩ := p
              have hsub := runFrame_nested _ _ _ _ r3
                (hrec _ _ ret3 r3 (by simp) hr)
              simp only [hr] at h
              cases ret3 with
              | error e =>
                simp only [Option.some.injEq, Prod.mk.injEq] at h
                rw [← h.2]
                exact runFrame_trans hload hsub
              | ok resolvedSub =>
                simp only at h
                cases hm1 : mergeMapsS mfuel r3.store resolvedSub (loadDoc doc r.store).1 with
                | none => simp [hm1] at h
                | some p1 =>
                  obtain ⟨s4, extCfg1⟩ := p1
                  simp only [hm1] at h
                  cases hm2 : mergeMapsS mfuel s4 merged extCfg1 with
                  | none => simp [hm2] at h
                  | some p2 =>
                    obtain ⟨s5, merged1⟩ := p2
                    simp only [hm2] at h
                    have h34 : RunFrame none r3 ⟨s4, r3.env, r3.fetched⟩ :=
                      runFrame_merge mfuel r3.store s4 _ _ extCfg1 r3.env r3.env r3.fetched hm1
                    have h45 : RunFrame none ⟨s4, r3.env, r3.fetched⟩ ⟨s5, r3.env, r3.fetched⟩ :=
                      runFrame_merge mfuel s4 s5 _ _ merged1 r3.env r3.env r3.fetched hm2
                    exact runFrame_trans hload (runFrame_trans hsub (runFrame_trans h34
                      (runFrame_trans h45
                        (extendsLoopS_frame recur mfuel f hrec rest merged1 _ ret r1 h))))

theorem runFrame_except {r r1 : Run} (c : Nat) (h : RunFrame none r r1) :
    RunFrame (some c) r r1 := by
  obtain ⟨hlen, hkeep, hnew⟩ := h
  exact ⟨hlen, fun i hi _ => hkeep i hi (by simp), hnew⟩

theorem resolveS_frame :
    ∀ (fuel mfuel : Nat) (f : Fetcher) (c : Nat) (r : Run) (ret : Except Error Nat) (r1 : Run),
      c < r.store.length → resolveS fuel mfuel f c r = some (ret, r1) →
      RunFrame (some c) r r1 ∧
      ((∃ o raw, ret = .ok o ∧ SMap.get "extends" (Store.read r.store c) = some raw) →
        Store.read r1.store c = SMap.delete "extends" (Store.read r.store c)) ∧
      ((¬ ∃ o raw, ret = .ok o ∧ SMap.get "extends" (Store.read r.store c) = some raw) →
        Store.read r1.store c = Store.read r.store c)
  | 0, _, _, _, _, _, _, _, h => by simp [resolveS] at h
  | fuel + 1, mfuel, f, c, r, ret, r1, hc, h => by
    rw [resolveS] at h
    split at h
    · rename_i hx
      simp only [Option.some.injEq, Prod.mk.injEq] at h
      rw [← h.2]
      refine ⟨runFrame_except c (runFrame_refl r), ?_, fun _ => rfl⟩
      rintro ⟨o, raw, _, hraw⟩
      rw [hx] at hraw
      cases hraw
    · rename_i extendsRaw hx
      split at h
      · simp only [Option.some.injEq, Prod.mk.injEq] at h
        rw [← h.2, ← h.1]
        refine ⟨runFrame_except c (runFrame_refl r), ?_, fun _ => rfl⟩
        rintro ⟨o, raw, hok, _⟩
        cases hok
      · rename_i extendsList hl
        have halloc : RunFrame none r ⟨r.store ++ [[]], r.env, r.fetched⟩ :=
          runFrame_store r.store (r.store ++ [[]]) r.env r.env r.fetched (by simp)
            (fun i hi => read_append_left r.store _ i hi)
        cases hloop : extendsLoopS (resolveS fuel mfuel f) mfuel f extendsList r.store.length
            ⟨r.store ++ [[]], r.env, r.fetched⟩ with
        | none => simp [hloop] at h
        | some p =>
          obtain ⟨retL, rL⟩ := p
          have hframe := runFrame_trans halloc
            (extendsLoopS_frame (resolveS fuel mfuel f) mfuel f
              (fun c2 r2 ret2 r3 hc2 h2 => (resolveS_frame fuel mfuel f c2 r2 ret2 r3 hc2 h2).1)
              extendsList r.store.length _ retL rL hloop)
          simp only [hloop] at h
          cases retL with
          | error e =>
            simp only [Option.some.injEq, Prod.mk.injEq] at h
            rw [← h.2, ← h.1]
            refine ⟨runFrame_except c hframe, ?_, fun _ => hframe.2.1 c hc (by simp)⟩
            rintro ⟨o, raw, hok, _⟩
            cases hok
          | ok merged =>
            simp only at h
            obtain ⟨hlenL, hkeepL, new, hlog, hnew⟩ := hframe
            cases hm : mergeMapsS mfuel
                (Store.write rL.store c (SMap.delete "extends" (Store.read rL.store c)))
                merged c with
            | none => simp [hm] at h
            | some q =>
              obtain ⟨s3, out⟩ := q
              simp only [hm, Option.some.injEq, Prod.mk.injEq] at h
              rw [← h.2, ← h.1]
              obtain ⟨_, hlt3, hkeep3⟩ := mergeMapsS_frame mfuel _ merged c s3 out hm
              rw [length_write] at hlt3 hkeep3
              have hcL : c < rL.store.length := Nat.lt_of_lt_of_le hc hlenL
              refine ⟨⟨Nat.le_trans hlenL (Nat.le_of_lt hlt3), ?_, new, hlog, ?_⟩, ?_, ?_⟩
              · intro i hi hne
                have hne1 : i ≠ c := fun e => hne (by rw [e])
                show Store.read s3 i = Store.read r.store i
                rw [hkeep3 i (Nat.lt_of_lt_of_le hi hlenL), read_write_other _ c i _ hne1,
                  hkeepL i hi (by simp)]
              · intro e he
                obtain ⟨hlo, hhi, hcells⟩ := hnew e he
                refine ⟨hlo, Nat.le_trans hhi (Nat.le_of_lt hlt3), ?_⟩
                intro i hi
                show Store.read s3 (e.1 + i) = e.2.getD i []
                rw [hkeep3 (e.1 + i) (by omega),
                  read_write_other _ c (e.1 + i) _ (by omega), hcells i hi]
              · intro _
                show Store.read s3 c = _
                rw [hkeep3 c hcL, read_write_same _ c _ hcL, hkeepL c hc (by simp)]
              · intro hno
                exact absurd ⟨out, extendsRaw, rfl, hx⟩ hno

/-! ## The store and the documents it holds -/

mutual
theorem holdsV_mono (ok ok2 : Nat → Prop) (s s2 : Store)
    (h : ∀ i, ok i → ok2 i ∧ Store.read s2 i = Store.read s i) :
    ∀ (v : Value) (sv : SValue), HoldsV ok s v sv → HoldsV ok2 s2 v sv
  | .null, sv, hv => by simpa [HoldsV] using hv
  | .bool _, sv, hv => by simpa [HoldsV] using hv
  | .num _, sv, hv => by simpa [HoldsV] using hv
  | .str _, sv, hv => by simpa [HoldsV] using hv
  | .arr xs, sv, hv => by
    simp only [HoldsV] at hv ⊢
    obtain ⟨ys, hsv, hl⟩ := hv
    exact ⟨ys, hsv, holdsL_mono ok ok2 s s2 h xs ys hl⟩
  | .obj m, sv, hv => by
    simp only [HoldsV] at hv ⊢
    obtain ⟨a, hsv, hok, he⟩ := hv
    refine ⟨a, hsv, (h a hok).1, ?_⟩
    rw [(h a hok).2]
    exact holdsE_mono ok ok2 s s2 h m _ he
theorem holdsL_mono (ok ok2 : Nat → Prop) (s s2 : Store)
    (h : ∀ i, ok i → ok2 i ∧ Store.read s2 i = Store.read s i) :
    ∀ (xs : List Value) (ys : List SValue), HoldsL ok s xs ys → HoldsL ok2 s2 xs ys
  | [], ys, hl => by simpa [HoldsL] using hl
  | x :: xs, ys, hl => by
    simp only [HoldsL] at hl ⊢
    obtain ⟨y, ys1, hys, hv, hrest⟩ := hl
    exact ⟨y, ys1, hys, holdsV_mono ok ok2 s s2 h x y hv, holdsL_mono ok ok2 s s2 h xs ys1 hrest⟩
theorem holdsE_mono (ok ok2 : Nat → Prop) (s s2 : Store)
    (h : ∀ i, ok i → ok2 i ∧ Store.read s2 i = Store.read s i) :
    ∀ (m : Doc) (es : SMap), HoldsE ok s m es → HoldsE ok2 s2 m es
  | .nil, es, he => by simpa [HoldsE] using he
  | .cons k v rest, es, he => by
    simp only [HoldsE] at he ⊢
    obtain ⟨sv, es1, hes, hv, hrest⟩ := he
    exact ⟨sv, es1, hes, holdsV_mono ok ok2 s s2 h v sv hv,
      holdsE_mono ok ok2 s s2 h rest es1 hrest⟩
end

theorem holdsE_get (ok : Nat → Prop) (s : Store) (k : String) :
    ∀ (m : Doc) (es : SMap), HoldsE ok s m es →
      (Doc.get k m = none ∧ SMap.get k es = none) ∨
        ∃ v sv, Doc.get k m = some v ∧ SMap.get k es = some sv ∧ HoldsV ok s v sv
  | .nil, es, he => by
    simp only [HoldsE] at he
    subst he
    exact Or.inl ⟨rfl, rfl⟩
  | .cons k1 v rest, es, he => by
    simp only [HoldsE] at he
    obtain ⟨sv, es1, hes, hv, hrest⟩ := he
    subst hes
    by_cases hk : k1 = k
    · exact Or.inr ⟨v, sv, by simp [Doc.get, hk], by simp [SMap.get, hk], hv⟩
    · simpa [Doc.get, SMap.get, hk] using holdsE_get ok s k rest es1 hrest

theorem holdsE_set (ok : Nat → Prop) (s : Store) (k : String) (v : Value) (sv : SValue)
    (hv : HoldsV ok s v sv) :
    ∀ (m : Doc) (es : SMap), HoldsE ok s m es →
      HoldsE ok s (Doc.set k v m) (SMap.set k sv es)
  | .nil, es, he => by
    simp only [HoldsE] at he
    subst he
    simp only [Doc.set, SMap.set, HoldsE]
    exact ⟨sv, [], rfl, hv, rfl⟩
  | .cons k1 v1 rest, es, he => by
    simp only [HoldsE] at he
    obtain ⟨sv1, es1, hes, hv1, hrest⟩ := he
    subst hes
    by_cases hk : k1 = k
    · simp only [Doc.set, SMap.set, hk, if_true, HoldsE]
      exact ⟨sv, es1, rfl, hv, hrest⟩
    · simp only [Doc.set, SMap.set, hk, if_false, HoldsE]
      exact ⟨sv1, _, rfl, hv1, holdsE_set ok s k v sv hv rest es1 hrest⟩

theorem holdsV_of_ref (ok : Nat → Prop) (s : Store) (v : Value) (a : Nat)
    (h : HoldsV ok s v (.ref a)) : ∃ m, v = .obj m ∧ ok a ∧ HoldsE ok s m (Store.read s a) := by
  cases v with
  | obj m =>
    simp only [HoldsV] at h
    obtain ⟨a1, ha, hok, he⟩ := h
    cases ha
    exact ⟨m, rfl, hok, he⟩
  | null => simp [HoldsV] at h
  | bool _ => simp [HoldsV] at h
  | num _ => simp [HoldsV] at h
  | str _ => simp [HoldsV] at h
  | arr _ =>
    simp only [HoldsV] at h
    obtain ⟨_, ha, _⟩ := h
    cases ha

theorem mergeEntry_plain (va : Option Value) (vb : Value)
    (h : ∀ mapA mapB, ¬ (va = some (.obj mapA) ∧ vb = .obj mapB)) : mergeEntry va vb = vb := by
  cases va with
  | none => simp [mergeEntry]
  | some v => cases v <;> cases vb <;> simp_all [mergeEntry]

theorem copyIntoS_holds (ok : Nat → Prop) (out : Nat) (hok : ∀ i, ok i → i ≠ out) :
    ∀ (docA : Doc) (es : SMap) (s : Store) (acc : Doc), out < s.length →
      HoldsE ok s docA es → HoldsE ok s acc (Store.read s out) →
      HoldsE ok (copyIntoS out es s) (copyInto acc docA) (Store.read (copyIntoS out es s) out)
  | .nil, es, s, acc, _, hA, hacc => by
    simp only [HoldsE] at hA
    subst hA
    simpa [copyIntoS, copyInto] using hacc
  | .cons k v rest, es, s, acc, hlt, hA, hacc => by
    simp only [HoldsE] at hA
    obtain ⟨sv, es1, hes, hv, hrest⟩ := hA
    subst hes
    rw [copyIntoS, copyInto]
    have hmono : ∀ i, ok i → ok i ∧
        Store.read (Store.write s out (SMap.set k sv (Store.read s out))) i = Store.read s i :=
      fun i hi => ⟨hi, read_write_other s out i _ (hok i hi)⟩
    apply copyIntoS_holds ok out hok rest es1 _ (Doc.set k v acc) (by rw [length_write]; exact hlt)
      (holdsE_mono ok ok s _ hmono rest es1 hrest)
    rw [read_write_same s out _ hlt]
    exact holdsE_mono ok ok s _ hmono _ _ (holdsE_set ok s k v sv hv acc _ hacc)

theorem depth_entry_le (k : String) (v : Value) :
    ∀ m : Doc, Doc.get k m = some v → Value.depth v ≤ Doc.depth m
  | .nil, h => by simp [Doc.get] at h
  | .cons k1 v1 rest, h => by
    by_cases hk : k1 = k
    · simp only [Doc.get, hk, if_true, Option.some.injEq] at h
      subst h
      simp [Doc.depth]
    · simp only [Doc.get, hk, if_false] at h
      have := depth_entry_le k v rest h
      simp only [Doc.depth]
      omega

theorem mergeLoopS_holds (fuel : Nat) (ok : Nat → Prop) (out : Nat)
    (hok : ∀ i, ok i → i < out)
    (hrec : ∀ (ok1 : Nat → Prop) (s : Store) (a b : Nat) (docA docB : Doc),
      (∀ i, ok1 i → i < s.length) → HoldsV ok1 s (.obj docA) (.ref a) →
      HoldsV ok1 s (.obj docB) (.ref b) → Doc.depth docB < fuel →
      ∃ s2, mergeMapsS fuel s a b = some (s2, s.length) ∧
        HoldsV (fun i => ok1 i ∨ (s.length ≤ i ∧ i < s2.length)) s2
          (.obj (mergeMaps docA docB)) (.ref s.length)) :
    ∀ (docB : Doc) (es : SMap) (s : Store) (acc : Doc), out < s.length →
      Doc.depth docB ≤ fuel → HoldsE ok s docB es →
      HoldsE (fun i => ok i ∨ (out < i ∧ i < s.length)) s acc (Store.read s out) →
      ∃ s2, mergeLoopS (mergeMapsS fuel) out es s = some s2 ∧
        HoldsE (fun i => ok i ∨ (out < i ∧ i < s2.length)) s2 (mergeLoop acc docB)
          (Store.read s2 out)
  | .nil, es, s, acc, _, _, hB, hacc => by
    simp only [HoldsE] at hB
    subst hB
    exact ⟨s, rfl, by simpa [mergeLoop] using hacc⟩
  | .cons k vb rest, es, s, acc, hlt, hdepth, hB, hacc => by
    simp only [HoldsE] at hB
    obtain ⟨svb, es1, hes, hvb, hrest⟩ := hB
    subst hes
    have hdrest : Doc.depth rest ≤ fuel := by
      simp only [Doc.depth] at hdepth
      omega
    have hdvb : Value.depth vb ≤ fuel := by
      simp only [Doc.depth] at hdepth
      omega
    rw [mergeLoop_cons]
    -- one step with a value `v` standing for the stored `sv`, from a store `s1`
    have step : ∀ (s1 : Store) (v : Value) (sv : SValue), s.length ≤ s1.length →
        (∀ i, i < s.length → Store.read s1 i = Store.read s i) →
        HoldsV (fun i => ok i ∨ (out < i ∧ i < s1.length)) s1 v sv →
        ∃ s2, mergeLoopS (mergeMapsS fuel) out es1
            (Store.write s1 out (SMap.set k sv (Store.read s1 out))) = some s2 ∧
          HoldsE (fun i => ok i ∨ (out < i ∧ i < s2.length)) s2
            (mergeLoop (Doc.set k v acc) rest) (Store.read s2 out) := by
      intro s1 v sv hlen hkeep hv
      have hlt1 : out < s1.length := Nat.lt_of_lt_of_le hlt hlen
      have hw : ∀ i, i ≠ out →
          Store.read (Store.write s1 out (SMap.set k sv (Store.read s1 out))) i =
            Store.read s i ∨ s.length ≤ i := by
        intro i hi
        by_cases hil : i < s.length
        · exact Or.inl (by rw [read_write_other s1 out i _ hi, hkeep i hil])
        · exact Or.inr (Nat.le_of_not_lt hil)
      apply mergeLoopS_holds fuel ok out hok hrec rest es1 _ (Doc.set k v acc)
        (by rw [length_write]; exact hlt1) hdrest
      · refine holdsE_mono ok ok s _ (fun i hi => ⟨hi, ?_⟩) rest es1 hrest
        rw [read_write_other s1 out i _ (Nat.ne_of_lt (hok i hi)),
          hkeep i (Nat.lt_trans (hok i hi) hlt)]
      · rw [read_write_same s1 out _ hlt1, length_write]
        have hmono1 : ∀ i, (ok i ∨ (out < i ∧ i < s1.length)) →
            (ok i ∨ (out < i ∧ i < s1.length)) ∧
              Store.read (Store.write s1 out (SMap.set k sv (Store.read s1 out))) i =
                Store.read s1 i := by
          intro i hi
          refine ⟨hi, read_write_other s1 out i _ ?_⟩
          rcases hi with h | h
          · exact Nat.ne_of_lt (hok i h)
          · exact Nat.ne_of_gt h.1
        refine holdsE_mono _ _ s1 _ hmono1 _ _ (holdsE_set _ s1 k v sv hv acc _ ?_)
        rw [hkeep out hlt]
        refine holdsE_mono _ _ s s1 (fun i hi => ?_) acc _ hacc
        rcases hi with h | h
        · exact ⟨Or.inl h, hkeep i (Nat.lt_trans (hok i h) hlt)⟩
        · exact ⟨Or.inr ⟨h.1, Nat.lt_of_lt_of_le h.2 hlen⟩, hkeep i h.2⟩
    by_cases hboth : ∃ mapA mapB, Doc.get k acc = some (.obj mapA) ∧ vb = .obj mapB
    · obtain ⟨mapA, mapB, hga, hvbe⟩ := hboth
      subst hvbe
      simp only [HoldsV] at hvb
      obtain ⟨mb, hsvb, hokb, heB⟩ := hvb
      subst hsvb
      rcases holdsE_get _ s k acc _ hacc with ⟨hnone, _⟩ | ⟨va, sva, hva, hsva, hholds⟩
      · rw [hga] at hnone
        cases hnone
      · rw [hga] at hva
        cases hva
        simp only [HoldsV] at hholds
        obtain ⟨ma, hsva2, hoka, heA⟩ := hholds
        subst hsva2
        have hdB : Doc.depth mapB < fuel := by
          simp only [Value.depth] at hdvb
          omega
        obtain ⟨s1, hs1, hres⟩ := hrec (fun i => ok i ∨ (out < i ∧ i < s.length)) s ma mb
          mapA mapB
          (fun i hi => by
            rcases hi with h | h
            · exact Nat.lt_trans (hok i h) hlt
            · exact h.2)
          (by
            simp only [HoldsV]
            exact ⟨ma, rfl, hoka, heA⟩)
          (by
            simp only [HoldsV]
            exact ⟨mb, rfl, Or.inl hokb,
              holdsE_mono ok _ s s (fun i hi => ⟨Or.inl hi, rfl⟩) mapB _ heB⟩)
          hdB
        obtain ⟨_, hlt1, hkeep1⟩ := mergeMapsS_frame fuel s ma mb s1 s.length hs1
        rw [mergeLoopS_ref (mergeMapsS fuel) out k ma mb es1 s hsva, hs1, hga]
        have hentry : mergeEntry (some (.obj mapA)) (.obj mapB) = .obj (mergeMaps mapA mapB) := rfl
        rw [hentry]
        dsimp only
        apply step s1 _ _ (Nat.le_of_lt hlt1) hkeep1
        refine holdsV_mono _ _ s1 s1 (fun i hi => ⟨?_, rfl⟩) _ _ hres
        rcases hi with (h | h) | h
        · exact Or.inl h
        · exact Or.inr ⟨h.1, Nat.lt_trans h.2 hlt1⟩
        · exact Or.inr ⟨Nat.lt_of_lt_of_le hlt h.1, h.2⟩
    · have hplain : ∀ ma mb, ¬ (SMap.get k (Store.read s out) = some (.ref ma) ∧ svb = .ref mb) := by
        rintro ma mb ⟨hga, hsv⟩
        subst hsv
        obtain ⟨mapB, hvbe, _, _⟩ := holdsV_of_ref ok s vb mb hvb
        rcases holdsE_get _ s k acc _ hacc with ⟨_, hnone⟩ | ⟨va, sva, hva, hsva, hholds⟩
        · rw [hga] at hnone
          cases hnone
        · rw [hga] at hsva
          cases hsva
          obtain ⟨mapA, hvae, _, _⟩ := holdsV_of_ref _ s va ma hholds
          exact hboth ⟨mapA, mapB, by rw [hva, hvae], hvbe⟩
      rw [mergeLoopS_plain (mergeMapsS fuel) out k svb es1 s hplain,
        mergeEntry_plain (Doc.get k acc) vb (fun mapA mapB h => hboth ⟨mapA, mapB, h⟩)]
      exact step s vb svb (Nat.le_refl _) (fun _ _ => rfl)
        (holdsV_mono ok _ s s (fun i hi => ⟨Or.inl hi, rfl⟩) vb svb hvb)

theorem mergeMapsS_holds :
    ∀ (fuel : Nat) (ok1 : Nat → Prop) (s : Store) (a b : Nat) (docA docB : Doc),
      (∀ i, ok1 i → i < s.length) → HoldsV ok1 s (.obj docA) (.ref a) →
      HoldsV ok1 s (.obj docB) (.ref b) → Doc.depth docB < fuel →
      ∃ s2, mergeMapsS fuel s a b = some (s2, s.length) ∧
        HoldsV (fun i => ok1 i ∨ (s.length ≤ i ∧ i < s2.length)) s2
          (.obj (mergeMaps docA docB)) (.ref s.length)
  | 0, _, _, _, _, _, _, _, _, _, hd => absurd hd (Nat.not_lt_zero _)
  | fuel + 1, ok1, s, a, b, docA, docB, hok, hA, hB, hd => by
    simp only [HoldsV] at hA hB
    obtain ⟨a1, ha1, hoka, heA⟩ := hA
    obtain ⟨b1, hb1, hokb, heB⟩ := hB
    cases ha1
    cases hb1
    have hne : ∀ i, ok1 i → i ≠ s.length := fun i hi => Nat.ne_of_lt (hok i hi)
    -- the store after `make`
    have h0 : ∀ i, ok1 i → ok1 i ∧ Store.read (s ++ [[]]) i = Store.read s i :=
      fun i hi => ⟨hi, read_append_left s _ i (hok i hi)⟩
    have hout0 : Store.read (s ++ [[]]) s.length = [] := by
      have := read_append_right s [[]] 0
      simpa using this
    -- the first loop
    have hcopy := copyIntoS_holds ok1 s.length hne docA (Store.read (s ++ [[]]) a) (s ++ [[]])
      .nil (by simp)
      (by
        rw [(h0 a hoka).2]
        exact holdsE_mono ok1 ok1 s _ h0 docA _ heA)
      (by
        rw [hout0]
        simp [HoldsE])
    obtain ⟨hclen, hcread⟩ := copyIntoS_frame s.length (Store.read (s ++ [[]]) a) (s ++ [[]])
    have h1 : ∀ i, ok1 i → ok1 i ∧
        Store.read (copyIntoS s.length (Store.read (s ++ [[]]) a) (s ++ [[]])) i =
          Store.read s i :=
      fun i hi => ⟨hi, by rw [hcread i (hne i hi), (h0 i hi).2]⟩
    -- the second loop
    obtain ⟨s2, hloop, hres⟩ := mergeLoopS_holds fuel ok1 s.length hok
      (mergeMapsS_holds fuel) docB
      (Store.read (copyIntoS s.length (Store.read (s ++ [[]]) a) (s ++ [[]])) b)
      (copyIntoS s.length (Store.read (s ++ [[]]) a) (s ++ [[]])) (copyInto .nil docA)
      (by rw [hclen]; simp) (Nat.le_of_lt_succ hd)
      (by
        rw [(h1 b hokb).2]
        exact holdsE_mono ok1 ok1 s _ h1 docB _ heB)
      (holdsE_mono ok1 _ _ _ (fun i hi => ⟨Or.inl hi, rfl⟩) _ _ hcopy)
    obtain ⟨hlen2, _⟩ := mergeLoopS_frame (mergeMapsS fuel) s.length
      (fun s a b s1 o hr =>
        let ⟨_, hlt, hkeep⟩ := mergeMapsS_frame fuel s a b s1 o hr
        ⟨Nat.le_of_lt hlt, hkeep⟩) _ _ s2 hloop
    rw [hclen] at hlen2
    simp only [List.length_append, List.length_singleton] at hlen2
    refine ⟨s2, by simp only [mergeMapsS, hloop], ?_⟩
    simp only [HoldsV]
    refine ⟨s.length, rfl, Or.inr ⟨Nat.le_refl _, by omega⟩, ?_⟩
    unfold mergeMaps
    refine holdsE_mono _ _ s2 s2 (fun i hi => ⟨?_, rfl⟩) _ _ hres
    rcases hi with h | h
    · exact Or.inl h
    · exact Or.inr ⟨Nat.le_of_lt h.1, h.2⟩

/-! ## Nesting of the merged documents -/

theorem depth_set (k : String) (v : Value) :
    ∀ m : Doc, Doc.depth (Doc.set k v m) ≤ max (Value.depth v) (Doc.depth m)
  | .nil => by simp [Doc.set, Doc.depth]
  | .cons k1 v1 rest => by
    by_cases hk : k1 = k
    · simp only [Doc.set, hk, if_true, Doc.depth]
      omega
    · have := depth_set k v rest
      simp only [Doc.set, hk, if_false, Doc.depth]
      omega

theorem depth_copyInto :
    ∀ (a out : Doc), Doc.depth (copyInto out a) ≤ max (Doc.depth out) (Doc.depth a)
  | .nil, out => by simp [copyInto, Doc.depth]
  | .cons k v rest, out => by
    have h1 := depth_copyInto rest (Doc.set k v out)
    have h2 := depth_set k v out
    rw [copyInto]
    simp only [Doc.depth]
    omega

theorem depth_delete (k : String) : ∀ m : Doc, Doc.depth (Doc.delete k m) ≤ Doc.depth m
  | .nil => by simp [Doc.delete]
  | .cons k1 v1 rest => by
    have := depth_delete k rest
    by_cases hk : k1 = k
    · simp only [Doc.delete, hk, if_true, Doc.depth]
      omega
    · simp only [Doc.delete, hk, if_false, Doc.depth]
      omega

theorem depth_mergeLoop_plain (k : String) (vb : Value) (rest out : Doc)
    (hplain : ∀ mapA mapB, ¬ (Doc.get k out = some (.obj mapA) ∧ vb = .obj mapB))
    (ih : ∀ out2, Doc.depth (mergeLoop out2 rest) ≤ max (Doc.depth out2) (Doc.depth rest)) :
    Doc.depth (mergeLoop out (.cons k vb rest)) ≤
      max (Doc.depth out) (Doc.depth (.cons k vb rest)) := by
  rw [mergeLoop_cons, mergeEntry_plain _ _ hplain]
  have h1 := ih (Doc.set k vb out)
  have h2 := depth_set k vb out
  simp only [Doc.depth]
  omega

theorem depth_mergeLoop :
    ∀ (b out : Doc), Doc.depth (mergeLoop out b) ≤ max (Doc.depth out) (Doc.depth b)
  | .nil, out => by simp [mergeLoop, Doc.depth]
  | .cons k (.obj mapB) rest, out => by
    by_cases hboth : ∃ mapA, Doc.get k out = some (.obj mapA)
    · obtain ⟨mapA, hga⟩ := hboth
      have hentry : mergeEntry (some (.obj mapA)) (.obj mapB) = .obj (mergeMaps mapA mapB) := rfl
      rw [mergeLoop_cons, hga, hentry]
      have h1 := depth_mergeLoop rest (Doc.set k (.obj (mergeMaps mapA mapB)) out)
      have h2 := depth_set k (.obj (mergeMaps mapA mapB)) out
      have h3 : Doc.depth (mergeMaps mapA mapB) ≤ max (Doc.depth mapA) (Doc.depth mapB) := by
        unfold mergeMaps
        have h4 := depth_mergeLoop mapB (copyInto .nil mapA)
        have h5 := depth_copyInto mapA .nil
        simp only [Doc.depth] at h5
        omega
      have h6 := depth_entry_le k (.obj mapA) out hga
      simp only [Doc.depth, Value.depth] at h1 h2 h6 ⊢
      omega
    · exact depth_mergeLoop_plain k (.obj mapB) rest out
        (fun mapA _ h => hboth ⟨mapA, h.1⟩) (depth_mergeLoop rest)
  | .cons k .null rest, out =>
    depth_mergeLoop_plain k .null rest out (fun _ _ h => by cases h.2) (depth_mergeLoop rest)
  | .cons k (.bool x) rest, out =>
    depth_mergeLoop_plain k (.bool x) rest out (fun _ _ h => by cases h.2) (depth_mergeLoop rest)
  | .cons k (.num x) rest, out =>
    depth_mergeLoop_plain k (.num x) rest out (fun _ _ h => by cases h.2) (depth_mergeLoop rest)
  | .cons k (.str x) rest, out =>
    depth_mergeLoop_plain k (.str x) rest out (fun _ _ h => by cases h.2) (depth_mergeLoop rest)
  | .cons k (.arr x) rest, out =>
    depth_mergeLoop_plain k (.arr x) rest out (fun _ _ h => by cases h.2) (depth_mergeLoop rest)

theorem depth_mergeMaps (a b : Doc) :
    Doc.depth (mergeMaps a b) ≤ max (Doc.depth a) (Doc.depth b) := by
  unfold mergeMaps
  have h1 := depth_mergeLoop b (copyInto .nil a)
  have h2 := depth_copyInto a .nil
  simp only [Doc.depth] at h2
  omega

/-! ## Fetched documents in the store -/

theorem holdsV_keep (lo lo2 top top2 : Nat) (s s2 : Store) (v : Value) (sv : SValue)
    (hlo : lo2 ≤ lo) (htop : top ≤ top2)
    (hkeep : ∀ i, lo ≤ i → i < top → Store.read s2 i = Store.read s i)
    (h : HoldsV (fun i => lo ≤ i ∧ i < top) s v sv) :
    HoldsV (fun i => lo2 ≤ i ∧ i < top2) s2 v sv :=
  holdsV_mono _ _ s s2
    (fun i hi => ⟨⟨Nat.le_trans hlo hi.1, Nat.lt_of_lt_of_le hi.2 htop⟩, hkeep i hi.1 hi.2⟩) v sv h

theorem holdsE_keep (lo lo2 top top2 : Nat) (s s2 : Store) (m : Doc) (es : SMap)
    (hlo : lo2 ≤ lo) (htop : top ≤ top2)
    (hkeep : ∀ i, lo ≤ i → i < top → Store.read s2 i = Store.read s i)
    (h : HoldsE (fun i => lo ≤ i ∧ i < top) s m es) :
    HoldsE (fun i => lo2 ≤ i ∧ i < top2) s2 m es :=
  holdsE_mono _ _ s s2
    (fun i hi => ⟨⟨Nat.le_trans hlo hi.1, Nat.lt_of_lt_of_le hi.2 htop⟩, hkeep i hi.1 hi.2⟩) m es h

theorem holdsL_keep (lo lo2 top top2 : Nat) (s s2 : Store) (xs : List Value) (ys : List SValue)
    (hlo : lo2 ≤ lo) (htop : top ≤ top2)
    (hkeep : ∀ i, lo ≤ i → i < top → Store.read s2 i = Store.read s i)
    (h : HoldsL (fun i => lo ≤ i ∧ i < top) s xs ys) :
    HoldsL (fun i => lo2 ≤ i ∧ i < top2) s2 xs ys :=
  holdsL_mono _ _ s s2
    (fun i hi => ⟨⟨Nat.le_trans hlo hi.1, Nat.lt_of_lt_of_le hi.2 htop⟩, hkeep i hi.1 hi.2⟩) xs ys h

mutual
theorem loadValue_holds : ∀ (v : Value) (s : Store),
    HoldsV (fun i => s.length ≤ i ∧ i < (loadValue v s).2.length) (loadValue v s).2 v
      (loadValue v s).1
  | .null, s => by simp [loadValue, HoldsV]
  | .bool _, s => by simp [loadValue, HoldsV]
  | .num _, s => by simp [loadValue, HoldsV]
  | .str _, s => by simp [loadValue, HoldsV]
  | .arr xs, s => by
    have h := loadList_holds xs s
    simp only [loadValue, HoldsV]
    exact ⟨(loadList xs s).1, rfl, h⟩
  | .obj m, s => by
    have h := loadEntries_holds m s
    obtain ⟨t, ht⟩ := loadEntries_extends m s
    have hlen : s.length ≤ (loadEntries m s).2.length := by rw [ht]; simp
    simp only [loadValue, HoldsV]
    refine ⟨(loadEntries m s).2.length, rfl, ⟨hlen, by simp⟩, ?_⟩
    have hr := read_append_right (loadEntries m s).2 [(loadEntries m s).1] 0
    simp only [Nat.add_zero, List.getD_cons_zero] at hr
    rw [hr]
    exact holdsE_keep _ _ _ _ _ _ m _ (Nat.le_refl _) (by simp)
      (fun i _ hi => read_append_left _ _ i hi) h
theorem loadList_holds : ∀ (xs : List Value) (s : Store),
    HoldsL (fun i => s.length ≤ i ∧ i < (loadList xs s).2.length) (loadList xs s).2 xs
      (loadList xs s).1
  | [], s => by simp [loadList, HoldsL]
  | x :: xs, s => by
    have h1 := loadValue_holds x s
    have h2 := loadList_holds xs (loadValue x s).2
    obtain ⟨t1, ht1⟩ := loadValue_extends x s
    obtain ⟨t2, ht2⟩ := loadList_extends xs (loadValue x s).2
    have hlen1 : s.length ≤ (loadValue x s).2.length := by rw [ht1]; simp
    have hlen2 : (loadValue x s).2.length ≤ (loadList xs (loadValue x s).2).2.length := by
      rw [ht2]; simp
    simp only [loadList, HoldsL]
    refine ⟨(loadValue x s).1, (loadList xs (loadValue x s).2).1, rfl, ?_, ?_⟩
    · refine holdsV_keep _ _ _ _ _ _ x _ (Nat.le_refl _) hlen2 (fun i _ hi => ?_) h1
      rw [ht2]
      exact read_append_left _ _ i hi
    · exact holdsL_keep _ _ _ _ _ _ xs _ hlen1 (Nat.le_refl _) (fun _ _ _ => rfl) h2
theorem loadEntries_holds : ∀ (m : Doc) (s : Store),
    HoldsE (fun i => s.length ≤ i ∧ i < (loadEntries m s).2.length) (loadEntries m s).2 m
      (loadEntries m s).1
  | .nil, s => by simp [loadEntries, HoldsE]
  | .cons k v rest, s => by
    have h1 := loadValue_holds v s
    have h2 := loadEntries_holds rest (loadValue v s).2
    obtain ⟨t1, ht1⟩ := loadValue_extends v s
    obtain ⟨t2, ht2⟩ := loadEntries_extends rest (loadValue v s).2
    have hlen1 : s.length ≤ (loadValue v s).2.length := by rw [ht1]; simp
    have hlen2 : (loadValue v s).2.length ≤ (loadEntries rest (loadValue v s).2).2.length := by
      rw [ht2]; simp
    simp only [loadEntries, HoldsE]
    refine ⟨(loadValue v s).1, (loadEntries rest (loadValue v s).2).1, rfl, ?_, ?_⟩
    · refine holdsV_keep _ _ _ _ _ _ v _ (Nat.le_refl _) hlen2 (fun i _ hi => ?_) h1
      rw [ht2]
      exact read_append_left _ _ i hi
    · exact holdsE_keep _ _ _ _ _ _ rest _ hlen1 (Nat.le_refl _) (fun _ _ _ => rfl) h2
end

theorem loadDoc_holds (m : Doc) (s : Store) :
    HoldsV (fun i => s.length ≤ i ∧ i < (loadDoc m s).2.length) (loadDoc m s).2 (.obj m)
      (.ref (loadDoc m s).1) := by
  have h := loadValue_holds (.obj m) s
  simpa [loadValue, loadDoc] using h

theorem toStringSliceLoopS_eq (ok : Nat → Prop) (s : Store) :
    ∀ (xs : List Value) (ys : List SValue) (out : List String), HoldsL ok s xs ys →
      toStringSliceLoopS out ys = toStringSliceLoop out xs := by
  intro xs
  induction xs with
  | nil =>
    intro ys out h
    simp only [HoldsL] at h
    subst h
    rfl
  | cons x xs ih =>
    intro ys out h
    simp only [HoldsL] at h
    obtain ⟨y, ys1, hys, hv, hrest⟩ := h
    subst hys
    cases x with
    | str t =>
      simp only [HoldsV] at hv
      subst hv
      rw [toStringSliceLoopS, toStringSliceLoop]
      exact ih ys1 _ hrest
    | null => simp only [HoldsV] at hv; subst hv; simp [toStringSliceLoopS, toStringSliceLoop]
    | bool _ => simp only [HoldsV] at hv; subst hv; simp [toStringSliceLoopS, toStringSliceLoop]
    | num _ => simp only [HoldsV] at hv; subst hv; simp [toStringSliceLoopS, toStringSliceLoop]
    | arr _ =>
      simp only [HoldsV] at hv
      obtain ⟨_, hy, _⟩ := hv
      subst hy
      simp [toStringSliceLoopS, toStringSliceLoop]
    | obj _ =>
      simp only [HoldsV] at hv
      obtain ⟨_, hy, _⟩ := hv
      subst hy
      simp [toStringSliceLoopS, toStringSliceLoop]

theorem toStringSliceS_eq (ok : Nat → Prop) (s : Store) (raw : Value) (sraw : SValue)
    (h : HoldsV ok s raw sraw) : toStringSliceS sraw = toStringSlice raw := by
  cases raw with
  | str t => simp only [HoldsV] at h; subst h; rfl
  | arr xs =>
    simp only [HoldsV] at h
    obtain ⟨ys, hy, hl⟩ := h
    subst hy
    simp only [toStringSliceS, toStringSlice]
    exact toStringSliceLoopS_eq ok s xs ys [] hl
  | null => simp only [HoldsV] at h; subst h; rfl
  | bool _ => simp only [HoldsV] at h; subst h; rfl
  | num _ => simp only [HoldsV] at h; subst h; rfl
  | obj _ =>
    simp only [HoldsV] at h
    obtain ⟨_, hy, _⟩ := h
    subst hy
    rfl

theorem holdsE_delete (ok : Nat → Prop) (s : Store) (k : String) :
    ∀ (m : Doc) (es : SMap), HoldsE ok s m es →
      HoldsE ok s (Doc.delete k m) (SMap.delete k es)
  | .nil, es, he => by
    simp only [HoldsE] at he
    subst he
    simp [Doc.delete, SMap.delete, HoldsE]
  | .cons k1 v1 rest, es, he => by
    simp only [HoldsE] at he
    obtain ⟨sv1, es1, hes, hv1, hrest⟩ := he
    subst hes
    by_cases hk : k1 = k
    · simpa [Doc.delete, SMap.delete, hk] using holdsE_delete ok s k rest es1 hrest
    · simp only [Doc.delete, SMap.delete, hk, if_false, HoldsE]
      exact ⟨sv1, _, rfl, hv1, holdsE_delete ok s k rest es1 hrest⟩

theorem mergeMapsS_step (mfuel lo : Nat) (s : Store) (a b : Nat) (docA docB : Doc)
    (hA : HoldsV (fun i => lo ≤ i ∧ i < s.length) s (.obj docA) (.ref a))
    (hB : HoldsV (fun i => lo ≤ i ∧ i < s.length) s (.obj docB) (.ref b))
    (hd : Doc.depth docB < mfuel) :
    ∃ s2, mergeMapsS mfuel s a b = some (s2, s.length) ∧ s.length < s2.length ∧
      (∀ i, i < s.length → Store.read s2 i = Store.read s i) ∧
      HoldsV (fun i => lo ≤ i ∧ i < s2.length) s2 (.obj (mergeMaps docA docB)) (.ref s.length) := by
  obtain ⟨s2, hs2, hres⟩ := mergeMapsS_holds mfuel _ s a b docA docB (fun i hi => hi.2) hA hB hd
  obtain ⟨_, hlt, hkeep⟩ := mergeMapsS_frame mfuel s a b s2 s.length hs2
  have hlo : lo ≤ s.length := by
    simp only [HoldsV] at hA
    obtain ⟨a1, _, hok, _⟩ := hA
    exact Nat.le_trans hok.1 (Nat.le_of_lt hok.2)
  refine ⟨s2, hs2, hlt, hkeep, holdsV_mono _ _ s2 s2 (fun i hi => ⟨?_, rfl⟩) _ _ hres⟩
  rcases hi with h | h
  · exact ⟨h.1, Nat.lt_trans h.2 hlt⟩
  · exact ⟨Nat.le_trans hlo h.1, h.2⟩

/-! ## The resolver on the store follows the resolver on values -/

theorem extendsLoopS_simulates (mfuel : Nat) (f : Fetcher) (K : List (String × String))
    (hf : ∀ b p d, (b, p) ∈ K → f b p = .ok d → Doc.depth d < mfuel)
    (recur : Doc → Env → Option (Except Error Doc × Env))
    (recurS : Nat → Run → Option (Except Error Nat × Run)) (lo : Nat)
    (hcalls : ∀ sub e r, recur sub e = some r → CallsExtend f e r.1 r.2)
    (hrec : ∀ sub env ret env1, recur sub env = some (ret, env1) →
      (∀ x ∈ env1.calls, x ∈ K) →
      ∀ (r : Run) (c : Nat), r.env = env → lo ≤ c → c < r.store.length →
      HoldsE (fun i => lo ≤ i ∧ i < c) r.store sub (Store.read r.store c) →
      Doc.depth sub < mfuel →
      ∃ retS r1, recurS c r = some (retS, r1) ∧ r1.env = env1 ∧
        RetHolds lo r1.store ret retS ∧ (∀ res, ret = .ok res → Doc.depth res < mfuel) ∧
        r.store.length ≤ r1.store.length ∧
        (∀ i, i < r.store.length → i ≠ c → Store.read r1.store i = Store.read r.store i)) :
    ∀ (l : List String) (merged : Doc) (env : Env) (ret : Except Error Doc) (env1 : Env),
      extendsLoop recur f l merged env = some (ret, env1) →
      (∀ x ∈ env1.calls, x ∈ K) →
      ∀ (r : Run) (m : Nat), r.env = env →
      HoldsV (fun i => lo ≤ i ∧ i < r.store.length) r.store (.obj merged) (.ref m) →
      Doc.depth merged < mfuel →
      ∃ retS r1, extendsLoopS recurS mfuel f l m r = some (retS, r1) ∧ r1.env = env1 ∧
        RetHolds lo r1.store ret retS ∧ (∀ res, ret = .ok res → Doc.depth res < mfuel)
  | [], merged, env, ret, env1, h, _, r, m, henv, hm, hd => by
    simp only [extendsLoop, Option.some.injEq, Prod.mk.injEq] at h
    obtain ⟨h1, h2⟩ := h
    subst h1 h2
    refine ⟨.ok m, r, rfl, henv, hm, ?_⟩
    intro res hres
    cases hres
    exact hd
  | ext :: rest, merged, env, ret, env1, h, hK, r, m, henv, hm, hd => by
    subst henv
    by_cases hv : ext ∈ r.env.visited
    · rw [extendsLoop_visited recur f ext rest merged r.env hv] at h
      simp only [Option.some.injEq, Prod.mk.injEq] at h
      obtain ⟨h1, h2⟩ := h
      subst h1 h2
      exact ⟨.error (.circular ext), r, by simp [extendsLoopS, hv], rfl, rfl,
        fun res hres => by cases hres⟩
    · cases hp : parseExtend ext with
      | error e =>
        rw [extendsLoop_parse_error recur f ext rest merged r.env e hv hp] at h
        simp only [Option.some.injEq, Prod.mk.injEq] at h
        obtain ⟨h1, h2⟩ := h
        subst h1 h2
        exact ⟨.error e, ⟨r.store, ⟨ext :: r.env.visited, r.env.calls⟩, r.fetched⟩,
          by simp [extendsLoopS, hv, hp], rfl, rfl, fun res hres => by cases hres⟩
      | ok bp =>
        obtain ⟨branch, project⟩ := bp
        cases hfe : f branch project with
        | error e =>
          rw [extendsLoop_fetch_error recur f ext rest merged r.env branch project e hv hp
            hfe] at h
          simp only [Option.some.injEq, Prod.mk.injEq] at h
          obtain ⟨h1, h2⟩ := h
          subst h1 h2
          exact ⟨.error e,
            ⟨r.store, ⟨ext :: r.env.visited, r.env.calls ++ [(branch, project)]⟩, r.fetched⟩,
            by simp [extendsLoopS, hv, hp, hfe], rfl, rfl, fun res hres => by cases hres⟩
        | ok doc =>
          have hunfold : extendsLoopS recurS mfuel f (ext :: rest) m r =
              match SMap.get "extends" (Store.read (loadDoc doc r.store).2 (loadDoc doc r.store).1) with
              | none =>
                match mergeMapsS mfuel (loadDoc doc r.store).2 m (loadDoc doc r.store).1 with
                | none => none
                | some (s2, merged1) =>
                  extendsLoopS recurS mfuel f rest merged1
                    ⟨s2, ⟨ext :: r.env.visited, r.env.calls ++ [(branch, project)]⟩,
                      r.fetched ++
                        [(r.store.length, (loadDoc doc r.store).2.drop r.store.length)]⟩
              | some subExtRaw =>
                match recurS (loadDoc doc r.store).2.length
                    ⟨(loadDoc doc r.store).2 ++ [[("extends", subExtRaw)]],
                      ⟨ext :: r.env.visited, r.env.calls ++ [(branch, project)]⟩,
                      r.fetched ++
                        [(r.store.length, (loadDoc doc r.store).2.drop r.store.length)]⟩ with
                | none => none
                | some (.error e, r3) => some (.error e, r3)
                | some (.ok resolvedSub, r3) =>
                  match mergeMapsS mfuel r3.store resolvedSub (loadDoc doc r.store).1 with
                  | none => none
                  | some (s4, extCfg1) =>
                    match mergeMapsS mfuel s4 m extCfg1 with
                    | none => none
                    | some (s5, merged1) =>
                      extendsLoopS recurS mfuel f rest merged1 ⟨s5, r3.env, r3.fetched⟩ := by
            simp [extendsLoopS, hv, hp, hfe]
          obtain ⟨t, ht⟩ := loadDoc_extends doc r.store
          have hlen01 : r.store.length ≤ (loadDoc doc r.store).2.length := by rw [ht]; simp
          have hkeep01 : ∀ i, i < r.store.length →
              Store.read (loadDoc doc r.store).2 i = Store.read r.store i := by
            intro i hi
            rw [ht]
            exact read_append_left _ _ i hi
          have hlo : lo ≤ r.store.length := by
            have hm2 := hm
            simp only [HoldsV] at hm2
            obtain ⟨a1, _, hok, _⟩ := hm2
            exact Nat.le_trans hok.1 (Nat.le_of_lt hok.2)
          have hload := loadDoc_holds doc r.store
          have hm1 := holdsV_keep lo lo _ _ r.store (loadDoc doc r.store).2 _ _ (Nat.le_refl _)
            hlen01 (fun i _ hi => hkeep01 i hi) hm
          have hdoc1 := holdsV_keep _ lo _ _ _ (loadDoc doc r.store).2 _ _ hlo (Nat.le_refl _)
            (fun _ _ _ => rfl) hload
          have hbound : (branch, project) ∈ env1.calls → Doc.depth doc < mfuel :=
            fun hmem => hf branch project doc (hK _ hmem) hfe
          have hE : HoldsE (fun i => r.store.length ≤ i ∧ i < (loadDoc doc r.store).2.length)
              (loadDoc doc r.store).2 doc
              (Store.read (loadDoc doc r.store).2 (loadDoc doc r.store).1) := by
            have h2 := hload
            simp only [HoldsV] at h2
            obtain ⟨a1, ha1, _, he⟩ := h2
            cases ha1
            exact he
          rw [hunfold]
          cases hx : Doc.get "extends" doc with
          | none =>
            rw [extendsLoop_leaf recur f ext rest merged r.env branch project doc hv hp hfe hx] at h
            have hsget : SMap.get "extends"
                (Store.read (loadDoc doc r.store).2 (loadDoc doc r.store).1) = none := by
              rcases holdsE_get _ _ "extends" doc _ hE with ⟨_, hn⟩ | ⟨v, sv, hg, _, _⟩
              · exact hn
              · rw [hx] at hg
                cases hg
            have hdoc : Doc.depth doc < mfuel := by
              obtain ⟨cs, hcs, _⟩ := extendsLoop_calls recur f hcalls rest _ _ (ret, env1) h
              exact hbound (by rw [hcs]; simp)
            obtain ⟨s2, hs2, _, _, hres⟩ := mergeMapsS_step mfuel lo _ m _ merged doc hm1 hdoc1 hdoc
            simp only [hsget, hs2]
            exact extendsLoopS_simulates mfuel f K hf recur recurS lo hcalls hrec rest _ _ ret env1 h
              hK _ _ rfl hres (by
                have := depth_mergeMaps merged doc
                omega)
          | some raw =>
            rw [extendsLoop_nested recur f ext rest merged r.env branch project doc raw hv hp hfe
              hx] at h
            obtain ⟨sraw, hsget, hraw⟩ : ∃ sraw, SMap.get "extends"
                (Store.read (loadDoc doc r.store).2 (loadDoc doc r.store).1) = some sraw ∧
                HoldsV (fun i => r.store.length ≤ i ∧ i < (loadDoc doc r.store).2.length)
                  (loadDoc doc r.store).2 raw sraw := by
              rcases holdsE_get _ _ "extends" doc _ hE with ⟨hn, _⟩ | ⟨v, sv, hg, hsg, hh⟩
              · rw [hx] at hn
                cases hn
              · rw [hx] at hg
                cases hg
                exact ⟨sv, hsg, hh⟩
            simp only [hsget]
            cases hr : recur (.cons "extends" raw .nil)
                ⟨ext :: r.env.visited, r.env.calls ++ [(branch, project)]⟩ with
            | none => simp [hr] at h
            | some p =>
              obtain ⟨ret3, env3⟩ := p
              simp only [hr] at h
              have hsyn : Store.read ((loadDoc doc r.store).2 ++ [[("extends", sraw)]])
                  (loadDoc doc r.store).2.length = [("extends", sraw)] := by
                have := read_append_right (loadDoc doc r.store).2 [[("extends", sraw)]] 0
                simpa using this
              have hsub : ∀ x ∈ env3.calls, x ∈ env1.calls := by
                cases ret3 with
                | error e =>
                  simp only [Option.some.injEq, Prod.mk.injEq] at h
                  obtain ⟨_, h2⟩ := h
                  subst h2
                  exact fun x hx => hx
                | ok res =>
                  obtain ⟨cs, hcs, _⟩ := extendsLoop_calls recur f hcalls rest _ env3 (ret, env1) h
                  intro x hx
                  rw [hcs]
                  exact List.mem_append_left _ hx
              have hdoc : Doc.depth doc < mfuel := by
                obtain ⟨cs, hcs, _⟩ := hcalls _ _ _ hr
                exact hbound (hsub _ (by rw [hcs]; simp))
              obtain ⟨retS, r3, hrS, henv3, hret, hdep, hlen3, hkeep3⟩ := hrec _ _ ret3 env3 hr
                (fun x hx => hK x (hsub x hx))
                ⟨(loadDoc doc r.store).2 ++ [[("extends", sraw)]],
                  ⟨ext :: r.env.visited, r.env.calls ++ [(branch, project)]⟩,
                  r.fetched ++ [(r.store.length, (loadDoc doc r.store).2.drop r.store.length)]⟩
                (loadDoc doc r.store).2.length rfl (Nat.le_trans hlo hlen01) (by simp)
                (by
                  rw [hsyn]
                  simp only [HoldsE]
                  exact ⟨sraw, [], rfl,
                    holdsV_keep _ lo _ _ _ _ _ _ hlo (Nat.le_refl _)
                      (fun i _ hi => read_append_left _ _ i hi) hraw, rfl⟩)
                (by
                  have := depth_entry_le "extends" raw doc hx
                  simp only [Doc.depth]
                  omega)
              simp only [List.length_append, List.length_singleton] at hlen3 hkeep3
              have hkeep13 : ∀ i, i < (loadDoc doc r.store).2.length →
                  Store.read r3.store i = Store.read (loadDoc doc r.store).2 i := by
                intro i hi
                rw [hkeep3 i (by omega) (by omega)]
                exact read_append_left _ _ i hi
              rw [hrS]
              cases ret3 with
              | error e =>
                simp only [Option.some.injEq, Prod.mk.injEq] at h
                obtain ⟨h1, h2⟩ := h
                subst h1 h2
                cases retS with
                | ok o => exact absurd hret (by simp [RetHolds])
                | error e1 =>
                  have he : e = e1 := hret
                  subst he
                  exact ⟨.error e, r3, rfl, henv3, rfl, fun res hres => by cases hres⟩
              | ok resolvedSub =>
                cases retS with
                | error e1 => exact absurd hret (by simp [RetHolds])
                | ok o =>
                  have hsub3 : HoldsV (fun i => lo ≤ i ∧ i < r3.store.length) r3.store
                      (.obj resolvedSub) (.ref o) := hret
                  have hdoc3 := holdsV_keep _ lo _ r3.store.length _ r3.store _ _ hlo (by omega)
                    (fun i _ hi => hkeep13 i hi) hload
                  have hm3 := holdsV_keep lo lo _ r3.store.length _ r3.store _ _ (Nat.le_refl _)
                    (by omega) (fun i _ hi => hkeep13 i hi) hm1
                  obtain ⟨s4, hs4, hlt4, hkeep4, hres4⟩ := mergeMapsS_step mfuel lo r3.store o _
                    resolvedSub doc hsub3 hdoc3 hdoc
                  have hm4 := holdsV_keep lo lo _ s4.length _ s4 _ _ (Nat.le_refl _)
                    (Nat.le_of_lt hlt4) (fun i _ hi => hkeep4 i hi) hm3
                  have hdsub : Doc.depth resolvedSub < mfuel := hdep resolvedSub rfl
                  have hdext : Doc.depth (mergeMaps resolvedSub doc) < mfuel := by
                    have := depth_mergeMaps resolvedSub doc
                    omega
                  obtain ⟨s5, hs5, _, _, hres5⟩ := mergeMapsS_step mfuel lo s4 m _ merged
                    (mergeMaps resolvedSub doc) hm4 hres4 hdext
                  simp only [hs4, hs5]
                  exact extendsLoopS_simulates mfuel f K hf recur recurS lo hcalls hrec rest _ _ ret
                    env1 h hK ⟨s5, r3.env, r3.fetched⟩ _ henv3 hres5 (by
                      have := depth_mergeMaps merged (mergeMaps resolvedSub doc)
                      omega)

theorem resolveS_simulates (mfuel : Nat) (f : Fetcher) (K : List (String × String))
    (hf : ∀ b p d, (b, p) ∈ K → f b p = .ok d → Doc.depth d < mfuel) :
    ∀ (n : Nat) (cfg : Doc) (env : Env) (out : Outcome),
      resolveWithFetcher n (some f) cfg env = some out →
      (∀ x ∈ out.env.calls, x ∈ K) →
      ∀ (r : Run) (c lo : Nat), r.env = env → lo ≤ c → c < r.store.length →
      HoldsE (fun i => lo ≤ i ∧ i < c) r.store cfg (Store.read r.store c) →
      Doc.depth cfg < mfuel →
      ∃ retS r1, resolveS n mfuel f c r = some (retS, r1) ∧ r1.env = out.env ∧
        RetHolds lo r1.store out.ret retS ∧ (∀ res, out.ret = .ok res → Doc.depth res < mfuel) ∧
        HoldsE (fun i => lo ≤ i ∧ i < c) r1.store out.cfg (Store.read r1.store c)
  | 0, cfg, env, out, h, _, _, _, _, _, _, _, _, _ => by simp [resolveWithFetcher] at h
  | n + 1, cfg, env, out, h, hK, r, c, lo, henv, hlo, hc, hcfg, hd => by
    subst henv
    have hself : HoldsV (fun i => lo ≤ i ∧ i < r.store.length) r.store (.obj cfg) (.ref c) := by
      simp only [HoldsV]
      exact ⟨c, rfl, ⟨hlo, hc⟩, holdsE_keep lo lo c _ r.store r.store cfg _ (Nat.le_refl _)
        (Nat.le_of_lt hc) (fun _ _ _ => rfl) hcfg⟩
    cases hx : Doc.get "extends" cfg with
    | none =>
      rw [resolve_leaf n f cfg r.env hx, Option.some.injEq] at h
      subst h
      have hsget : SMap.get "extends" (Store.read r.store c) = none := by
        rcases holdsE_get _ _ "extends" cfg _ hcfg with ⟨_, hn⟩ | ⟨v, sv, hg, _, _⟩
        · exact hn
        · rw [hx] at hg
          cases hg
      refine ⟨.ok c, r, by simp [resolveS, hsget], rfl, hself, ?_, hcfg⟩
      intro res hres
      cases hres
      exact hd
    | some raw =>
      obtain ⟨sraw, hsget, hraw⟩ : ∃ sraw, SMap.get "extends" (Store.read r.store c) = some sraw ∧
          HoldsV (fun i => lo ≤ i ∧ i < c) r.store raw sraw := by
        rcases holdsE_get _ _ "extends" cfg _ hcfg with ⟨hn, _⟩ | ⟨v, sv, hg, hsg, hh⟩
        · rw [hx] at hn
          cases hn
        · rw [hx] at hg
          cases hg
          exact ⟨sv, hsg, hh⟩
      have hslice := toStringSliceS_eq _ _ raw sraw hraw
      cases hl : toStringSlice raw with
      | mk l ok =>
        rw [hl] at hslice
        cases ok with
        | false =>
          rw [resolve_shape n f cfg r.env raw l hx hl, Option.some.injEq] at h
          subst h
          exact ⟨.error .extendsShape, r, by simp [resolveS, hsget, hslice], rfl, rfl,
            (fun res hres => by cases hres), hcfg⟩
        | true =>
          rw [resolve_extends n f cfg r.env raw l hx hl] at h
          have hunfold : resolveS (n + 1) mfuel f c r =
              match extendsLoopS (resolveS n mfuel f) mfuel f l r.store.length
                  ⟨r.store ++ [[]], r.env, r.fetched⟩ with
              | none => none
              | some (.error e, r1) => some (.error e, r1)
              | some (.ok merged, r1) =>
                match mergeMapsS mfuel
                    (Store.write r1.store c (SMap.delete "extends" (Store.read r1.store c)))
                    merged c with
                | none => none
                | some (s3, o) => some (.ok o, ⟨s3, r1.env, r1.fetched⟩) := by
            simp [resolveS, hsget, hslice]
          rw [hunfold]
          cases hloop : extendsLoop
              (fun sub e => (resolveWithFetcher n (some f) sub e).map (fun o => (o.ret, o.env)))
              f l .nil r.env with
          | none => simp [hloop] at h
          | some p =>
            obtain ⟨retL, envL⟩ := p
            simp only [hloop] at h
            have hmerged0 : HoldsV (fun i => r.store.length ≤ i ∧ i < (r.store ++ [[]]).length)
                (r.store ++ [[]]) (.obj .nil) (.ref r.store.length) := by
              simp only [HoldsV, HoldsE]
              refine ⟨r.store.length, rfl, ⟨Nat.le_refl _, by simp⟩, ?_⟩
              have := read_append_right r.store [[]] 0
              simpa using this
            have henvout : out.env = envL := by
              cases retL with
              | error e =>
                simp only [Option.some.injEq] at h
                subst h
                rfl
              | ok merged =>
                simp only [Option.some.injEq] at h
                subst h
                rfl
            obtain ⟨retS, rL, hLS, henvL, hretL, hdepL⟩ := extendsLoopS_simulates mfuel f K hf
              (fun sub e => (resolveWithFetcher n (some f) sub e).map (fun o => (o.ret, o.env)))
              (resolveS n mfuel f) r.store.length
              (fun sub e r2 hr2 => resolve_recur_calls f n sub e r2 hr2)
              (by
                intro sub env2 ret2 env3 hr hK3 r2 c2 henv2 hlo2 hc2 hsub hdsub
                simp only [Option.map_eq_some'] at hr
                obtain ⟨o2, ho2, hpair⟩ := hr
                simp only [Prod.mk.injEq] at hpair
                obtain ⟨hp1, hp2⟩ := hpair
                subst hp1 hp2
                obtain ⟨retS2, r3, hS, he3, hret3, hdep3, _⟩ := resolveS_simulates mfuel f K hf n
                  sub env2 o2 ho2 hK3 r2 c2 r.store.length henv2 hlo2 hc2 hsub hdsub
                obtain ⟨⟨hlenF, hkeepF, _⟩, _, _⟩ := resolveS_frame n mfuel f c2 r2 retS2 r3 hc2 hS
                exact ⟨retS2, r3, hS, he3, hret3, hdep3, hlenF,
                  fun i hi hne => hkeepF i hi (fun e => hne (Option.some.inj e))⟩)
              l .nil r.env retL envL hloop (fun x hx => hK x (by rw [henvout]; exact hx))
              ⟨r.store ++ [[]], r.env, r.fetched⟩ r.store.length rfl
              hmerged0 (by simp only [Doc.depth]; omega)
            obtain ⟨hlenL, hkeepL, _⟩ := extendsLoopS_frame (resolveS n mfuel f) mfuel f
              (fun c2 r2 ret2 r3 hc2 h2 => (resolveS_frame n mfuel f c2 r2 ret2 r3 hc2 h2).1)
              l r.store.length _ retS rL hLS
            simp only [List.length_append, List.length_singleton] at hlenL hkeepL
            have hkeep0L : ∀ i, i < r.store.length → Store.read rL.store i = Store.read r.store i := by
              intro i hi
              rw [hkeepL i (by omega) (by simp)]
              exact read_append_left _ _ i hi
            rw [hLS]
            cases retL with
            | error e =>
              simp only [Option.some.injEq] at h
              subst h
              cases retS with
              | ok o => exact absurd hretL (by simp [RetHolds])
              | error e1 =>
                have he : e = e1 := hretL
                subst he
                refine ⟨.error e, rL, rfl, henvL, rfl, (fun res hres => by cases hres), ?_⟩
                show HoldsE _ rL.store cfg (Store.read rL.store c)
                rw [hkeep0L c hc]
                exact holdsE_keep lo lo c c r.store rL.store cfg _ (Nat.le_refl _)
                  (Nat.le_refl _) (fun i _ hi => hkeep0L i (Nat.lt_trans hi hc)) hcfg
            | ok merged =>
              simp only [Option.some.injEq] at h
              subst h
              cases retS with
              | error e1 => exact absurd hretL (by simp [RetHolds])
              | ok o =>
                have hmL : HoldsV (fun i => r.store.length ≤ i ∧ i < rL.store.length) rL.store
                    (.obj merged) (.ref o) := hretL
                have hcL : c < rL.store.length := by omega
                have hw : ∀ i, i ≠ c →
                    Store.read (Store.write rL.store c
                      (SMap.delete "extends" (Store.read rL.store c))) i =
                      Store.read rL.store i :=
                  fun i hi => read_write_other _ c i _ hi
                have hm2 := holdsV_keep r.store.length lo rL.store.length
                  (Store.write rL.store c (SMap.delete "extends" (Store.read rL.store c))).length
                  rL.store _ _ _ (Nat.le_trans hlo (Nat.le_of_lt hc)) (by rw [length_write])
                  (fun i hi _ => hw i (by omega)) hmL
                have hdel : HoldsE (fun i => lo ≤ i ∧ i < c)
                    (Store.write rL.store c (SMap.delete "extends" (Store.read rL.store c)))
                    (Doc.delete "extends" cfg)
                    (Store.read (Store.write rL.store c
                      (SMap.delete "extends" (Store.read rL.store c))) c) := by
                  rw [read_write_same _ c _ hcL, hkeep0L c hc]
                  exact holdsE_keep lo lo c c r.store _ _ _ (Nat.le_refl _) (Nat.le_refl _)
                    (fun i _ hi => (read_write_other _ c i _ (by omega)).trans (hkeep0L i (by omega)))
                    (holdsE_delete _ _ "extends" cfg _ hcfg)
                have hcfg2 : HoldsV (fun i => lo ≤ i ∧ i <
                    (Store.write rL.store c
                      (SMap.delete "extends" (Store.read rL.store c))).length)
                    (Store.write rL.store c (SMap.delete "extends" (Store.read rL.store c)))
                    (.obj (Doc.delete "extends" cfg)) (.ref c) := by
                  simp only [HoldsV]
                  refine ⟨c, rfl, ⟨hlo, by rw [length_write]; exact hcL⟩, ?_⟩
                  exact holdsE_keep lo lo c _ _ _ _ _ (Nat.le_refl _)
                    (by rw [length_write]; exact Nat.le_of_lt hcL) (fun _ _ _ => rfl) hdel
                have hddel : Doc.depth (Doc.delete "extends" cfg) < mfuel := by
                  have := depth_delete "extends" cfg
                  omega
                obtain ⟨s3, hs3, hlt3, hkeep3, hres3⟩ := mergeMapsS_step mfuel lo _ o c merged
                  (Doc.delete "extends" cfg) hm2 hcfg2 hddel
                rw [length_write] at hlt3 hkeep3 hs3
                simp only [hs3]
                refine ⟨.ok rL.store.length, ⟨s3, rL.env, rL.fetched⟩, rfl, henvL, ?_, ?_, ?_⟩
                · have : HoldsV (fun i => lo ≤ i ∧ i < s3.length) s3
                      (.obj (mergeMaps merged (Doc.delete "extends" cfg)))
                      (.ref rL.store.length) := by
                    have h5 := hres3
                    rw [length_write] at h5
                    exact h5
                  exact this
                · intro res hres
                  cases hres
                  have := depth_mergeMaps merged (Doc.delete "extends" cfg)
                  have := hdepL merged rfl
                  omega
                · show HoldsE _ s3 (Doc.delete "extends" cfg) (Store.read s3 c)
                  rw [hkeep3 c hcL]
                  exact holdsE_keep lo lo c c _ s3 _ _ (Nat.le_refl _) (Nat.le_refl _)
                    (fun i _ hi => hkeep3 i (by omega)) hdel

theorem fetchedDepth_mem (f : Fetcher) (b p : String) (d : Doc) (hd : f b p = .ok d) :
    ∀ K : List (String × String), (b, p) ∈ K → Doc.depth d ≤ fetchedDepth f K
  | [], h => by simp at h
  | c :: rest, h => by
    simp only [fetchedDepth]
    rcases List.mem_cons.mp h with h1 | h1
    · subst h1
      simp only [hd]
      exact Nat.le_max_left _ _
    · exact Nat.le_trans (fetchedDepth_mem f b p d hd rest h1) (Nat.le_max_right _ _)

theorem loadDoc_holdsE (m : Doc) (s : Store) :
    s.length ≤ (loadDoc m s).1 ∧ (loadDoc m s).1 < (loadDoc m s).2.length ∧
    HoldsE (fun i => s.length ≤ i ∧ i < (loadDoc m s).1) (loadDoc m s).2 m
      (Store.read (loadDoc m s).2 (loadDoc m s).1) := by
  have h := loadEntries_holds m s
  obtain ⟨t, ht⟩ := loadEntries_extends m s
  have hlen : s.length ≤ (loadEntries m s).2.length := by rw [ht]; simp
  have hread : Store.read ((loadEntries m s).2 ++ [(loadEntries m s).1]) (loadEntries m s).2.length =
      (loadEntries m s).1 := by
    have := read_append_right (loadEntries m s).2 [(loadEntries m s).1] 0
    simpa using this
  simp only [loadDoc]
  refine ⟨hlen, by simp, ?_⟩
  rw [hread]
  exact holdsE_keep _ _ _ _ _ _ m _ (Nat.le_refl _) (Nat.le_refl _)
    (fun i _ hi => read_append_left _ _ i hi) h

theorem resolveS_follows (fuel : Nat) (f : Fetcher) (cfg : Doc) (env : Env) (out : Outcome)
    (h : resolveWithFetcher fuel (some f) cfg env = some out) (mfuel : Nat) (r : Run)
    (c lo : Nat) (hd : Doc.depth cfg < mfuel) (hfd : fetchedDepth f out.env.calls < mfuel)
    (henv : r.env = env) (hlo : lo ≤ c) (hc : c < r.store.length)
    (hcfg : HoldsE (fun i => lo ≤ i ∧ i < c) r.store cfg (Store.read r.store c)) :
    ∃ retS r1, resolveS fuel mfuel f c r = some (retS, r1) ∧ r1.env = out.env ∧
      RetHolds lo r1.store out.ret retS ∧
      HoldsE (fun i => lo ≤ i ∧ i < c) r1.store out.cfg (Store.read r1.store c) := by
  obtain ⟨retS, r1, h1, h2, h3, _, h5⟩ := resolveS_simulates mfuel f out.env.calls
    (fun b p d hmem hok => Nat.lt_of_le_of_lt (fetchedDepth_mem f b p d hok _ hmem) hfd)
    fuel cfg env out h (fun x hx => hx) r c lo henv hlo hc hcfg hd
  exact ⟨retS, r1, h1, h2, h3, h5⟩

/-! ## Normalisation -/

theorem toStringSliceLoop_strings (l : List String) :
    ∀ out : List String, toStringSliceLoop out (l.map Value.str) = (out ++ l, true) := by
  induction l with
  | nil => intro out; simp [toStringSliceLoop]
  | cons s l ih => intro out; simp [toStringSliceLoop, ih]

theorem toStringSliceLoop_other (xs : List Value) :
    ∀ out : List String, (∀ l : List String, xs ≠ l.map Value.str) →
      toStringSliceLoop out xs = ([], false) := by
  induction xs with
  | nil => intro out h; exact absurd rfl (h [])
  | cons x rest ih =>
    intro out h
    cases x with
    | str s =>
      rw [toStringSliceLoop]
      apply ih
      intro l hl
      exact h (s :: l) (by simp [hl])
    | null => simp [toStringSliceLoop]
    | bool b => simp [toStringSliceLoop]
    | num n => simp [toStringSliceLoop]
    | arr ys => simp [toStringSliceLoop]
    | obj m => simp [toStringSliceLoop]

/-! ## Ill-shaped `extends` and malformed references -/

theorem toStringSlice_ill_shaped (raw : Value) (hs : ∀ s : String, raw ≠ .str s)
    (hl : ∀ l : List String, raw ≠ .arr (l.map Value.str)) :
    toStringSlice raw = ([], false) := by
  cases raw with
  | str s => exact absurd rfl (hs s)
  | arr xs =>
    rw [toStringSlice]
    apply toStringSliceLoop_other
    intro l h
    exact hl l (by rw [h])
  | null => rfl
  | bool b => rfl
  | num n => rfl
  | obj m => rfl

theorem cutAt_absent (sep : Char) : ∀ s : List Char, sep ∉ s → cutAt sep s = none
  | [], _ => rfl
  | c :: cs, h => by
    have hc : ¬ c = sep := fun e => h (by simp [e])
    have hcs : sep ∉ cs := fun e => h (by simp [e])
    simp [cutAt, hc, cutAt_absent sep cs hcs]

theorem parseExtend_malformed (t : String) (ht : '>' ∉ t.data) :
    parseExtend ("gitlab@" ++ t) = .error (.extendsSyntaxErr ("gitlab@" ++ t)) := by
  have h1 : startsWith ("gitlab@" ++ t) "gitlab" = true :=
    (startsWith_iff _ _).2 ⟨"@" ++ t, by simp [← String.append_assoc]⟩
  have h2 : startsWith ("gitlab@" ++ t) "gitlab@" = true :=
    (startsWith_iff _ _).2 ⟨t, rfl⟩
  have h3 : trimLeading ("gitlab@" ++ t) "gitlab@" = t := by
    simp [trimLeading, h2]
  have h4 : splitN2 t '>' = [t] := by
    simp [splitN2, cutAt_absent '>' t.data ht]
  simp [parseExtend, h1, h2, h3, h4]

/-! ## Deep merge -/

/-- C1: for maps `a` and `b` (one entry per key), `mergeMaps a b` is the deep
merge: its keys are those of `a` together with those of `b`; a key absent from
`b` keeps the value of `a`; a key of `b` for which `a` has no value, or for which
one of the two values is not a mapping, holds the value of `b` as it is; a key
under which both hold mappings holds `mergeMaps` of the two mappings. -/
theorem mergeMaps_deep_merge (a b : Doc) (ha : (Doc.keys a).Nodup) (hb : (Doc.keys b).Nodup) :
    (∀ k, k ∈ Doc.keys (mergeMaps a b) ↔ k ∈ Doc.keys a ∨ k ∈ Doc.keys b) ∧
    (∀ k, k ∉ Doc.keys b → Doc.get k (mergeMaps a b) = Doc.get k a) ∧
    (∀ k vb, Doc.get k b = some vb →
      (Doc.get k a = none ∨ (∃ va, Doc.get k a = some va ∧ va.isMapping = false)
        ∨ vb.isMapping = false) →
      Doc.get k (mergeMaps a b) = some vb) ∧
    (∀ k mapA mapB, Doc.get k a = some (.obj mapA) → Doc.get k b = some (.obj mapB) →
      Doc.get k (mergeMaps a b) = some (.obj (mergeMaps mapA mapB))) := by
  refine ⟨?_, ?_, ?_, ?_⟩
  · intro k
    rw [mem_keys_iff, mem_keys_iff, mem_keys_iff, get_mergeMaps k a b ha hb]
    cases hkb : Doc.get k b with
    | none => simp
    | some vb => simp
  · intro k hk
    rw [get_mergeMaps k a b ha hb, (get_eq_none_iff k b).2 hk]
  · intro k vb hkb hcase
    rw [get_mergeMaps k a b ha hb, hkb]
    rcases hcase with h | ⟨va, h, hva⟩ | h
    · simp [h, mergeEntry]
    · cases va <;> simp_all [mergeEntry, Value.isMapping]
    · cases vb <;> simp_all [mergeEntry, Value.isMapping]
  · intro k mapA mapB hka hkb
    rw [get_mergeMaps k a b ha hb, hkb, hka]
    rfl

/-- C1 at the maps of `TestMergeMaps`: both have one entry per key, and
`rules` holds the merge of the two nested mappings. -/
theorem mergeMaps_deep_merge_witness :
    (Doc.keys testMergeA).Nodup ∧ (Doc.keys testMergeB).Nodup ∧
    Doc.get "rules" (mergeMaps testMergeA testMergeB) =
      some (.obj (mergeMaps
        (.cons "maxLen" (.num 80) (.cons "indent" (.num 2) .nil))
        (.cons "indent" (.num 4) (.cons "quotes" (.str "double") .nil)))) :=
  ⟨by decide, by decide,
    (mergeMaps_deep_merge testMergeA testMergeB (by decide) (by decide)).2.2.2
      "rules" _ _ rfl rfl⟩

/-! ## Resolution -/

/-- C2: when the `extends` of `cfg` normalises to pairwise distinct references
`rs`, none of them visited yet, each written in a supported form and fetched as
a document `d r` without `extends`, the resolution succeeds, whatever the bound
on nested calls, and returns the parents folded from the empty map in declared
order with `cfg` minus its `extends` key laid over them. -/
theorem resolve_leaf_parents (fuel : Nat) (f : Fetcher) (cfg : Doc) (env : Env) (raw : Value)
    (rs : List String) (d : String → Doc)
    (hcfg : Doc.get "extends" cfg = some raw) (hrs : toStringSlice raw = (rs, true))
    (hnd : rs.Nodup) (hvis : ∀ r ∈ rs, r ∉ env.visited)
    (hf : ∀ r ∈ rs, ∃ branch project, GitlabRef r branch project ∧ f branch project = .ok (d r))
    (hleaf : ∀ r ∈ rs, Doc.get "extends" (d r) = none) :
    ∃ out, resolveWithFetcher (fuel + 1) (some f) cfg env = some out ∧
      out.ret = .ok (mergeMaps (rs.foldl (fun acc r => mergeMaps acc (d r)) .nil)
        (Doc.delete "extends" cfg)) := by
  obtain ⟨env1, h1⟩ := extendsLoop_leaves
    (fun sub e => (resolveWithFetcher fuel (some f) sub e).map (fun o => (o.ret, o.env)))
    f d rs .nil env hnd hvis hf hleaf
  rw [resolve_extends fuel f cfg env raw rs hcfg hrs, h1]
  exact ⟨_, rfl, rfl⟩

/-- C2 at `TestResolveConfigStringWithFetcher_Basic`: the two parents are
folded in declared order under the document's own `rules`. -/
theorem resolve_leaf_parents_witness :
    ∃ out, resolveWithFetcher 1 (some testBasicFetcher) testBasicCfg ⟨[], []⟩ = some out ∧
      out.ret = .ok (mergeMaps
        (["gitlab>html-validate/renovate-config", "gitlab@dev>html-validate/base"].foldl
          (fun acc r => mergeMaps acc (testBasicParent r)) .nil)
        (Doc.delete "extends" testBasicCfg)) :=
  resolve_leaf_parents 0 testBasicFetcher testBasicCfg ⟨[], []⟩ _
    ["gitlab>html-validate/renovate-config", "gitlab@dev>html-validate/base"] testBasicParent
    rfl rfl (by decide) (by simp)
    (by
      intro r hr
      simp only [List.mem_cons, List.mem_singleton, List.not_mem_nil, or_false] at hr
      rcases hr with rfl | rfl
      · exact ⟨"main", "html-validate/renovate-config", GitlabRef.onMain _, rfl⟩
      · exact ⟨"dev", "html-validate/base", GitlabRef.onBranch "dev" _ (by decide), rfl⟩)
    (by
      intro r hr
      simp only [List.mem_cons, List.mem_singleton, List.not_mem_nil, or_false] at hr
      rcases hr with rfl | rfl <;> rfl)

/-- C3, behaviour of the code at a parent that declares `extends`: with
`nestedFetcher`, resolving the document that extends `gitlab>a` succeeds and the
returned document still holds the `extends` key of the fetched parent. -/
theorem resolve_keeps_parent_extends :
    ∃ out doc, resolveWithFetcher 2 (some nestedFetcher) nestedCfg ⟨[], []⟩ = some out ∧
      out.ret = .ok doc ∧ Doc.get "extends" doc = some (.str "gitlab>b") :=
  ⟨_, _, rfl, rfl, rfl⟩

/-- C4, behaviour of the code at the reference `gitlabfoo`, which is neither
`gitlab>` followed by a project nor `gitlab@` followed by a branch, `>` and a
project: the resolution calls `Fetch("main", "gitlabfoo")` and succeeds with
the fetched document. -/
theorem resolve_gitlabfoo_is_fetched :
    (∀ project : String, "gitlabfoo" ≠ "gitlab>" ++ project) ∧
    (∀ branch project : String, "gitlabfoo" ≠ "gitlab@" ++ branch ++ ">" ++ project) ∧
    resolveWithFetcher 1 (some constFetcher) gitlabfooCfg ⟨[], []⟩ =
      some ⟨.ok (.cons "x" (.num 1) .nil), .nil, ⟨["gitlabfoo"], [("main", "gitlabfoo")]⟩⟩ :=
  ⟨fun project h =>
      absurd ((startsWith_iff "gitlabfoo" "gitlab>").2 ⟨project, h⟩) (by decide),
    fun branch project h =>
      absurd ((startsWith_iff "gitlabfoo" "gitlab@").2
        ⟨branch ++ ">" ++ project, by rw [h]; simp [String.append_assoc]⟩) (by decide),
    rfl⟩

/-- C5: when the first reference of the `extends` of `cfg` does not begin with
`gitlab` and is not visited yet, the resolution fails with the error
`unsupported extend:` followed by that reference, and no `Fetch` call is added
to those made before. -/
theorem resolve_unsupported (fuel : Nat) (f : Fetcher) (cfg : Doc) (env : Env) (raw : Value)
    (ext : String) (rest : List String)
    (hcfg : Doc.get "extends" cfg = some raw) (hrs : toStringSlice raw = (ext :: rest, true))
    (hpre : ∀ t : String, ext ≠ "gitlab" ++ t) (hvis : ext ∉ env.visited) :
    ∃ out, resolveWithFetcher (fuel + 1) (some f) cfg env = some out ∧
      out.ret = .error (.unsupported ext) ∧
      (Error.unsupported ext).message = "unsupported extend: " ++ ext ∧
      out.env.calls = env.calls := by
  rw [resolve_extends fuel f cfg env raw _ hcfg hrs,
    extendsLoop_parse_error _ f ext rest .nil env _ hvis (parseExtend_unsupported ext hpre)]
  exact ⟨_, rfl, rfl, rfl, rfl⟩

/-- C5 at `TestResolveConfigStringWithFetcher_UnsupportedExtends`, the
reference `npm>package`. -/
theorem resolve_unsupported_witness :
    ∃ out, resolveWithFetcher 1 (some testEmptyFetcher) testUnsupportedCfg ⟨[], []⟩ = some out ∧
      out.ret = .error (.unsupported "npm>package") ∧
      (Error.unsupported "npm>package").message = "unsupported extend: " ++ "npm>package" ∧
      out.env.calls = [] :=
  resolve_unsupported 0 testEmptyFetcher testUnsupportedCfg ⟨[], []⟩ _ "npm>package" [] rfl rfl
    (fun t h => absurd ((startsWith_iff "npm>package" "gitlab").2 ⟨t, h⟩) (by decide))
    (by simp)

/-- C6: let `ext` be `gitlab>project` (then `branch` is `main`) or
`gitlab@branch>project` with no `>` in `branch` (the project may hold further
`>`). Whenever the loop over the references reaches `ext` not visited yet, at
any position and any depth, the first call it records is
`Fetch(branch, project)`. So a resolution of a document whose first reference
is `ext` has that call as its first new one; and when the call fails or gives a
document without `extends`, and `ext` is the only reference, the resolution
ends with that call as its only new one. -/
theorem fetch_arguments (ext branch project : String) (hg : GitlabRef ext branch project)
    (fuel : Nat) (f : Fetcher) :
    (∀ (rest : List String) (merged : Doc) (env : Env) (r : Except Error Doc × Env),
      ext ∉ env.visited →
      extendsLoop
        (fun sub e => (resolveWithFetcher fuel (some f) sub e).map (fun o => (o.ret, o.env)))
        f (ext :: rest) merged env = some r →
      ∃ cs, r.2.calls = env.calls ++ (branch, project) :: cs) ∧
    (∀ (cfg : Doc) (env : Env) (raw : Value) (rest : List String),
      Doc.get "extends" cfg = some raw → toStringSlice raw = (ext :: rest, true) →
      ext ∉ env.visited →
      (∀ out, resolveWithFetcher (fuel + 1) (some f) cfg env = some out →
        ∃ cs, out.env.calls = env.calls ++ (branch, project) :: cs) ∧
      (rest = [] → (∀ d, f branch project = .ok d → Doc.get "extends" d = none) →
        ∃ out, resolveWithFetcher (fuel + 1) (some f) cfg env = some out ∧
          out.env.calls = env.calls ++ [(branch, project)])) := by
  have hp := parseExtend_of_gitlabRef hg
  have hiter : ∀ (rest : List String) (merged : Doc) (env : Env) (r : Except Error Doc × Env),
      ext ∉ env.visited →
      extendsLoop
        (fun sub e => (resolveWithFetcher fuel (some f) sub e).map (fun o => (o.ret, o.env)))
        f (ext :: rest) merged env = some r →
      ∃ cs, r.2.calls = env.calls ++ (branch, project) :: cs := by
    intro rest merged env r hvis hloop
    exact extendsLoop_first_call _ f (resolve_recur_calls f fuel)
      ext rest merged env branch project r hvis hp hloop
  refine ⟨hiter, ?_⟩
  intro cfg env raw rest hcfg hrs hvis
  constructor
  · intro out h
    rw [resolve_extends fuel f cfg env raw _ hcfg hrs] at h
    cases hloop : extendsLoop
        (fun sub e => (resolveWithFetcher fuel (some f) sub e).map (fun o => (o.ret, o.env)))
        f (ext :: rest) .nil env with
    | none => simp [hloop] at h
    | some r =>
      obtain ⟨cs, hcs⟩ := hiter rest .nil env r hvis hloop
      obtain ⟨ret, env1⟩ := r
      cases ret with
      | error e =>
        simp only [hloop, Option.some.injEq] at h
        subst h
        exact ⟨cs, hcs⟩
      | ok merged =>
        simp only [hloop, Option.some.injEq] at h
        subst h
        exact ⟨cs, hcs⟩
  · intro hrest hleaf
    subst hrest
    rw [resolve_extends fuel f cfg env raw _ hcfg hrs]
    cases hf : f branch project with
    | error e =>
      rw [extendsLoop_fetch_error _ f ext [] .nil env branch project e hvis hp hf]
      exact ⟨_, rfl, rfl⟩
    | ok d =>
      rw [extendsLoop_leaf _ f ext [] .nil env branch project d hvis hp hf (hleaf d hf)]
      exact ⟨_, rfl, rfl⟩

/-- C6 at the reference `gitlab@a>b>c`: the branch is `a` and the project is
`b>c`, the split being at the first `>`. -/
theorem fetch_arguments_witness :
    (∃ cs, (Outcome.mk (.ok (.cons "x" (.num 1) .nil)) .nil
        ⟨["gitlab@a>b>c"], [("a", "b>c")]⟩).env.calls = [] ++ ("a", "b>c") :: cs) ∧
    (∃ out, resolveWithFetcher 1 (some constFetcher)
        (.cons "extends" (.str "gitlab@a>b>c") .nil) ⟨[], []⟩ = some out ∧
      out.env.calls = [] ++ [("a", "b>c")]) :=
  have h := (fetch_arguments "gitlab@a>b>c" "a" "b>c"
    (GitlabRef.onBranch "a" "b>c" (by decide)) 0 constFetcher).2
    (.cons "extends" (.str "gitlab@a>b>c") .nil) ⟨[], []⟩ _ [] rfl rfl (by simp)
  ⟨h.1 _ rfl, h.2 rfl (fun d hd => by cases hd; rfl)⟩

/-- C7: from an empty visited set, when the first reference `r` of `cfg` is
written in a supported form and the document fetched for it declares an
`extends` that begins with `r` again, the resolution ends with an error and no
document; the error wraps `ErrCircularReference` and carries `r`. -/
theorem resolve_self_reference (fuel : Nat) (f : Fetcher) (cfg : Doc)
    (calls : List (String × String)) (raw : Value) (r : String) (rest : List String)
    (branch project : String) (parent : Doc) (rawParent : Value) (restParent : List String)
    (hcfg : Doc.get "extends" cfg = some raw) (hrs : toStringSlice raw = (r :: rest, true))
    (hg : GitlabRef r branch project) (hf : f branch project = .ok parent)
    (hp : Doc.get "extends" parent = some rawParent)
    (hps : toStringSlice rawParent = (r :: restParent, true)) :
    ∃ out e, resolveWithFetcher (fuel + 2) (some f) cfg ⟨[], calls⟩ = some out ∧
      out.ret = .error e ∧ e.isCircular = true ∧
      e.message = "circular reference detected: " ++ r := by
  have hsub : resolveWithFetcher (fuel + 1) (some f) (.cons "extends" rawParent .nil)
      ⟨[r], calls ++ [(branch, project)]⟩ =
      some ⟨.error (.circular r), .cons "extends" rawParent .nil,
        ⟨[r], calls ++ [(branch, project)]⟩⟩ := by
    rw [resolve_extends fuel f _ _ rawParent _ (by simp [Doc.get]) hps,
      extendsLoop_visited _ f r restParent .nil _ (by simp)]
  rw [resolve_extends (fuel + 1) f cfg _ raw _ hcfg hrs,
    extendsLoop_nested _ f r rest .nil _ branch project parent rawParent (by simp)
      (parseExtend_of_gitlabRef hg) hf hp]
  simp only [hsub, Option.map_some']
  exact ⟨_, _, rfl, rfl, rfl, rfl⟩

/-- C7 at `TestResolveConfigStringWithFetcher_Circular`: `gitlab>foo/bar`
fetches a document that extends `gitlab>foo/bar`. -/
theorem resolve_self_reference_witness :
    ∃ out e, resolveWithFetcher 2 (some testCircularFetcher) testCircularCfg ⟨[], []⟩ = some out ∧
      out.ret = .error e ∧ e.isCircular = true ∧
      e.message = "circular reference detected: " ++ "gitlab>foo/bar" :=
  resolve_self_reference 0 testCircularFetcher testCircularCfg [] _ "gitlab>foo/bar" []
    "main" "foo/bar" _ _ [] rfl rfl (GitlabRef.onMain "foo/bar") rfl rfl rfl

/-- C8: when the documents a fetcher returns declare references from a finite
list `U` only, the resolution of any document from any surroundings ends: from
some bound on the nesting of calls onwards it gives one and the same outcome. -/
theorem resolve_terminates (f : Fetcher) (U : List String)
    (hU : ∀ branch project d, f branch project = .ok d → ∀ r ∈ extendsRefs d, r ∈ U)
    (cfg : Doc) (env : Env) :
    ∃ n out, ∀ fuel, n ≤ fuel → resolveWithFetcher fuel (some f) cfg env = some out := by
  obtain ⟨out, hout, _⟩ := resolve_bounded f (U ++ extendsRefs cfg)
    (fun b p d hd r hr => List.mem_append_left _ (hU b p d hd r hr))
    (((U ++ extendsRefs cfg).toFinset \ env.visited.toFinset).card + 1) cfg env
    (fun r hr => List.mem_append_right _ hr) (Nat.lt_succ_self _)
  exact ⟨_, out, resolve_mono_le f cfg env out _ hout⟩

/-- C8 at `TestResolveConfigStringWithFetcher_Circular`, whose fetched document
extends its own reference: the resolution ends. -/
theorem resolve_terminates_witness :
    ∃ n out, ∀ fuel, n ≤ fuel →
      resolveWithFetcher fuel (some testCircularFetcher) testCircularCfg ⟨[], []⟩ = some out :=
  resolve_terminates testCircularFetcher ["gitlab>foo/bar"]
    (by
      intro b p d hd r hr
      unfold testCircularFetcher at hd
      split at hd
      · cases hd
        simpa [extendsRefs, Doc.get, toStringSlice, toStringSliceLoop] using hr
      · cases hd)
    testCircularCfg ⟨[], []⟩

/-- C9: a `Fetch` call that the fetcher answers with an error `e` makes the
resolution return `e` itself, unwrapped, and no document. The call is taken at
any depth of the recursion: it is one of the calls recorded by a run, ended or
cut short, under some bound `fuel` on nested calls. Then from that bound on
the resolution returns one outcome `out` with `e` as its error, no run returns
anything else, and the calls of `out` are the ones recorded. -/
theorem fetch_error_propagated (fuel : Nat) (f : Fetcher) (cfg : Doc) (env : Env)
    (cs : List (String × String)) (branch project : String) (e : Error)
    (hcs : (resolveTrace fuel f cfg env).2.calls = env.calls ++ cs)
    (hc : (branch, project) ∈ cs) (he : f branch project = .error e) :
    ∃ out, (∀ n, fuel ≤ n → resolveWithFetcher n (some f) cfg env = some out) ∧
      out.ret = .error e ∧ out.env.calls = env.calls ++ cs ∧
      (∀ n out2, resolveWithFetcher n (some f) cfg env = some out2 → out2 = out) := by
  obtain ⟨cs1, hcs1, hans⟩ := resolveTrace_answered f fuel cfg env
  have hEq : cs1 = cs := List.append_cancel_left (hcs1.symm.trans hcs)
  subst hEq
  have hends : ∃ err, (resolveTrace fuel f cfg env).1 = some (.error err) := by
    by_contra hno
    obtain ⟨d, hd⟩ := hans (fun err herr => hno ⟨err, herr⟩) (branch, project) hc
    rw [he] at hd
    cases hd
  obtain ⟨err, herr⟩ := hends
  have hfin := resolve_finished f fuel cfg env
  cases hr : resolveTrace fuel f cfg env with
  | mk r env1 =>
    rw [hr] at herr hcs hfin
    dsimp only at herr hcs
    subst herr
    simp only [finished, Option.map_eq_some'] at hfin
    obtain ⟨out, hout, hpair⟩ := hfin
    simp only [Prod.mk.injEq] at hpair
    have hcalls : out.env.calls = env.calls ++ cs1 := by rw [hpair.2, hcs]
    obtain ⟨cs2, hcs2, herr2⟩ := resolve_calls f fuel cfg env out hout
    have hEq2 : cs2 = cs1 := List.append_cancel_left (hcs2.symm.trans hcalls)
    subst hEq2
    refine ⟨out, resolve_mono_le f cfg env out fuel hout, herr2 (branch, project) hc e he,
      hcalls, ?_⟩
    intro n out2 h2
    rcases Nat.le_total n fuel with hle | hle
    · have := resolve_mono_le f cfg env out2 n h2 fuel hle
      rw [hout] at this
      exact (Option.some.inj this).symm
    · have := resolve_mono_le f cfg env out fuel hout n hle
      rw [h2] at this
      exact Option.some.inj this

/-- C9 at `brokenParentFetcher`: the parent `a` is fetched, the project it
extends is not, and the error of that second call, one level down, comes back
as it is. -/
theorem fetch_error_propagated_witness :
    ∃ out, (∀ n, 2 ≤ n → resolveWithFetcher n (some brokenParentFetcher) nestedCfg ⟨[], []⟩ =
        some out) ∧
      out.ret = .error .unknownReference ∧
      out.env.calls = [] ++ [("main", "a"), ("main", "missing")] ∧
      (∀ n out2, resolveWithFetcher n (some brokenParentFetcher) nestedCfg ⟨[], []⟩ = some out2 →
        out2 = out) :=
  fetch_error_propagated 2 brokenParentFetcher nestedCfg ⟨[], []⟩
    [("main", "a"), ("main", "missing")] "main" "missing" .unknownReference rfl (by simp) rfl

/-- C11: the empty map is a two-sided identity of `mergeMaps`: for every map `x`
(one entry per key), `mergeMaps x {}` is `x` and `mergeMaps {} x` is `x`. -/
theorem mergeMaps_empty_identity (x : Doc) (h : (Doc.keys x).Nodup) :
    mergeMaps x .nil = x ∧ mergeMaps .nil x = x :=
  ⟨mergeMaps_nil_right x h, mergeMaps_nil_left x h⟩

/-- C11 at the map `a` of `TestMergeMaps`. -/
theorem mergeMaps_empty_identity_witness :
    (Doc.keys testMergeA).Nodup ∧
    mergeMaps testMergeA .nil = testMergeA ∧ mergeMaps .nil testMergeA = testMergeA :=
  ⟨by decide, mergeMaps_empty_identity testMergeA (by decide)⟩

/-- C15: a document without `extends` is returned as it is: for every such
document, visited set and fetcher, the resolution succeeds with that very
document, the caller's document, the visited set and the recorded `Fetch` calls
all unchanged. -/
theorem resolve_leaf_unchanged (fuel : Nat) (f : Fetcher) (cfg : Doc) (env : Env)
    (h : Doc.get "extends" cfg = none) :
    resolveWithFetcher (fuel + 1) (some f) cfg env = some ⟨.ok cfg, cfg, env⟩ :=
  resolve_leaf fuel f cfg env h

/-- C15 at the map `a` of `TestMergeMaps`, with some references visited and
some calls made before. -/
theorem resolve_leaf_unchanged_witness :
    Doc.get "extends" testMergeA = none ∧
    resolveWithFetcher 1 (some testEmptyFetcher) testMergeA ⟨["gitlab>z"], [("main", "z")]⟩ =
      some ⟨.ok testMergeA, testMergeA, ⟨["gitlab>z"], [("main", "z")]⟩⟩ :=
  ⟨rfl, resolve_leaf_unchanged 0 testEmptyFetcher testMergeA ⟨["gitlab>z"], [("main", "z")]⟩ rfl⟩

/-- C16: when the `extends` value is neither a string nor a sequence of strings
only, the resolution fails with the error `extends must be a string or array of
strings`, and the caller's document, the visited set and the recorded `Fetch`
calls are unchanged. -/
theorem resolve_ill_shaped (fuel : Nat) (f : Fetcher) (cfg : Doc) (env : Env) (raw : Value)
    (hcfg : Doc.get "extends" cfg = some raw) (hs : ∀ s : String, raw ≠ .str s)
    (hl : ∀ l : List String, raw ≠ .arr (l.map Value.str)) :
    resolveWithFetcher (fuel + 1) (some f) cfg env = some ⟨.error .extendsShape, cfg, env⟩ ∧
    Error.extendsShape.message = "extends must be a string or array of strings" :=
  ⟨resolve_shape fuel f cfg env raw [] hcfg (toStringSlice_ill_shaped raw hs hl), rfl⟩

/-- C16 at a sequence with a number after a valid reference: no call is made
for the valid reference either. -/
theorem resolve_ill_shaped_witness :
    resolveWithFetcher 1 (some constFetcher) mixedExtendsCfg ⟨[], []⟩ =
      some ⟨.error .extendsShape, mixedExtendsCfg, ⟨[], []⟩⟩ ∧
    Error.extendsShape.message = "extends must be a string or array of strings" :=
  resolve_ill_shaped 0 constFetcher mixedExtendsCfg ⟨[], []⟩ _ rfl
    (fun s h => by cases h)
    (fun l h => by
      match l, h with
      | [], h => simp at h
      | [_], h => simp at h
      | _ :: _ :: _, h => simp at h)

/-- C17: when the first reference of `cfg`, not visited yet, is `gitlab@`
followed by a text without `>`, the resolution fails with the error `invalid
extends syntax:` followed by that reference, and no `Fetch` call is added to
those made before. -/
theorem resolve_malformed_branch (fuel : Nat) (f : Fetcher) (cfg : Doc) (env : Env)
    (raw : Value) (t : String) (rest : List String)
    (hcfg : Doc.get "extends" cfg = some raw)
    (hrs : toStringSlice raw = (("gitlab@" ++ t) :: rest, true))
    (ht : '>' ∉ t.data) (hvis : ("gitlab@" ++ t) ∉ env.visited) :
    ∃ out, resolveWithFetcher (fuel + 1) (some f) cfg env = some out ∧
      out.ret = .error (.extendsSyntaxErr ("gitlab@" ++ t)) ∧
      (Error.extendsSyntaxErr ("gitlab@" ++ t)).message =
        "invalid extends syntax: " ++ ("gitlab@" ++ t) ∧
      out.env.calls = env.calls := by
  rw [resolve_extends fuel f cfg env raw _ hcfg hrs,
    extendsLoop_parse_error _ f _ rest .nil env _ hvis (parseExtend_malformed t ht)]
  exact ⟨_, rfl, rfl, rfl, rfl⟩

/-- C17 at the reference `gitlab@dev`. -/
theorem resolve_malformed_branch_witness :
    ∃ out, resolveWithFetcher 1 (some constFetcher) malformedBranchCfg ⟨[], []⟩ = some out ∧
      out.ret = .error (.extendsSyntaxErr ("gitlab@" ++ "dev")) ∧
      (Error.extendsSyntaxErr ("gitlab@" ++ "dev")).message =
        "invalid extends syntax: " ++ ("gitlab@" ++ "dev") ∧
      out.env.calls = [] :=
  resolve_malformed_branch 0 constFetcher malformedBranchCfg ⟨[], []⟩ _ "dev" [] rfl rfl
    (by decide) (by simp)

/-- C19: `mergeMaps` is not associative. With `a` holding the mapping with `x`
under `k`, `b` the number 5 and `c` the mapping with `y`, merging `a` with `b`
first and `c` last leaves only `y` under `k`, merging `b` with `c` first keeps
`x` and `y`; the two results differ. The resolver, given the parents `a` and `b`
and the own entries `c`, returns the first of the two. -/
theorem mergeMaps_not_associative :
    mergeMaps (mergeMaps assocA assocB) assocC =
      .cons "k" (.obj (.cons "y" (.num 2) .nil)) .nil ∧
    mergeMaps assocA (mergeMaps assocB assocC) =
      .cons "k" (.obj (.cons "x" (.num 1) (.cons "y" (.num 2) .nil))) .nil ∧
    mergeMaps (mergeMaps assocA assocB) assocC ≠ mergeMaps assocA (mergeMaps assocB assocC) ∧
    (∃ out, resolveWithFetcher 1 (some assocFetcher) assocCfg ⟨[], []⟩ = some out ∧
      out.ret = .ok (mergeMaps (mergeMaps assocA assocB) assocC)) := by
  refine ⟨rfl, rfl, ?_, ⟨_, rfl, rfl⟩⟩
  intro h
  have hx := congrArg (Doc.getPath ["k", "x"]) h
  have h1 : Doc.getPath ["k", "x"] (mergeMaps (mergeMaps assocA assocB) assocC) = none := rfl
  have h2 : Doc.getPath ["k", "x"] (mergeMaps assocA (mergeMaps assocB assocC)) =
      some (.num 1) := rfl
  rw [h1, h2] at hx
  cases hx

/-- C20: every resolution that ends has reached a list `rs` of pairwise distinct
references, none of them in the visited set when the call began, and has called
`Fetch` for the references `fs` among them, once each, with the arguments they
parse to. So no call is made for a reference visited at the start, no reference
is fetched twice, and the visited set only grows: it ends as the initial
references together with those of `rs`. -/
theorem fetched_at_most_once (fuel : Nat) (f : Fetcher) (cfg : Doc) (env : Env) (out : Outcome)
    (h : resolveWithFetcher fuel (some f) cfg env = some out) :
    ∃ (rs fs : List String) (cs : List (String × String)),
      out.env.calls = env.calls ++ cs ∧
      List.Forall₂ (fun r c => parseExtend r = .ok c) fs cs ∧
      (∀ r ∈ fs, r ∉ env.visited) ∧ fs.Nodup ∧ fs.Sublist rs ∧
      rs.Nodup ∧ (∀ r ∈ rs, r ∉ env.visited) ∧
      env.visited ⊆ out.env.visited ∧
      (∀ x, x ∈ out.env.visited ↔ x ∈ env.visited ∨ x ∈ rs) := by
  obtain ⟨rs, fs, cs, hnd, hnew, hv, hsub, hc, hf⟩ := resolve_walk f fuel cfg env out h
  refine ⟨rs, fs, cs, hc, hf, fun r hr => hnew r (hsub.subset hr), hsub.nodup hnd, hsub, hnd,
    hnew, ?_, ?_⟩
  · rw [hv]
    exact List.subset_append_right _ _
  · intro x
    rw [hv]
    simp [or_comm]

/-- C20 at `nestedFetcher`: the resolution of `nestedCfg` ends with
`nestedOutcome`, whose visited references and calls are accounted for. -/
theorem fetched_at_most_once_witness :
    resolveWithFetcher 2 (some nestedFetcher) nestedCfg ⟨[], []⟩ = some nestedOutcome ∧
    ∃ (rs fs : List String) (cs : List (String × String)),
      nestedOutcome.env.calls = (Env.mk [] []).calls ++ cs ∧
      List.Forall₂ (fun r c => parseExtend r = .ok c) fs cs ∧
      (∀ r ∈ fs, r ∉ (Env.mk [] []).visited) ∧ fs.Nodup ∧ fs.Sublist rs ∧
      rs.Nodup ∧ (∀ r ∈ rs, r ∉ (Env.mk [] []).visited) ∧
      (Env.mk [] []).visited ⊆ nestedOutcome.env.visited ∧
      (∀ x, x ∈ nestedOutcome.env.visited ↔ x ∈ (Env.mk [] []).visited ∨ x ∈ rs) :=
  ⟨rfl, fetched_at_most_once 2 nestedFetcher nestedCfg ⟨[], []⟩ nestedOutcome rfl⟩

/-- C14: the visited set is shared by the whole walk. For pairwise distinct
references `r1`, `r2`, `r3` in a supported form, when the documents fetched for
`r1` and `r2` both extend `r3` and the one fetched for `r3` has no `extends`,
resolving from an empty visited set a document that extends `r1` then `r2` ends
with an error that wraps `ErrCircularReference` and carries `r3`. And, for
every fetcher, a resolution of a document whose references are not pairwise
distinct never ends with a document. -/
theorem resolve_diamond_is_cycle (fuel : Nat) (f : Fetcher) (cfg : Doc)
    (calls : List (String × String)) (raw raw1 raw2 : Value) (r1 r2 r3 : String)
    (b1 p1 b2 p2 b3 p3 : String) (d1 d2 d3 : Doc)
    (h12 : r1 ≠ r2) (h13 : r1 ≠ r3) (h23 : r2 ≠ r3)
    (hg1 : GitlabRef r1 b1 p1) (hg2 : GitlabRef r2 b2 p2) (hg3 : GitlabRef r3 b3 p3)
    (hf1 : f b1 p1 = .ok d1) (hf2 : f b2 p2 = .ok d2) (hf3 : f b3 p3 = .ok d3)
    (hd1 : Doc.get "extends" d1 = some raw1) (hs1 : toStringSlice raw1 = ([r3], true))
    (hd2 : Doc.get "extends" d2 = some raw2) (hs2 : toStringSlice raw2 = ([r3], true))
    (hd3 : Doc.get "extends" d3 = none)
    (hcfg : Doc.get "extends" cfg = some raw) (hrs : toStringSlice raw = ([r1, r2], true)) :
    (∃ out e, resolveWithFetcher (fuel + 2) (some f) cfg ⟨[], calls⟩ = some out ∧
      out.ret = .error e ∧ e.isCircular = true ∧
      e.message = "circular reference detected: " ++ r3) ∧
    (∀ (g : Fetcher) (n : Nat) (cfg2 : Doc) (env2 : Env) (rawDup : Value) (l : List String)
        (out : Outcome),
      Doc.get "extends" cfg2 = some rawDup → toStringSlice rawDup = (l, true) → ¬ l.Nodup →
      resolveWithFetcher n (some g) cfg2 env2 = some out → ∃ e, out.ret = .error e) := by
  constructor
  · have hin1 : resolveWithFetcher (fuel + 1) (some f) (.cons "extends" raw1 .nil)
        ⟨[r1], calls ++ [(b1, p1)]⟩ =
        some ⟨.ok (mergeMaps (mergeMaps .nil d3)
            (Doc.delete "extends" (.cons "extends" raw1 .nil))),
          Doc.delete "extends" (.cons "extends" raw1 .nil),
          ⟨[r3, r1], calls ++ [(b1, p1)] ++ [(b3, p3)]⟩⟩ := by
      rw [resolve_extends fuel f _ _ raw1 _ (by simp [Doc.get]) hs1,
        extendsLoop_leaf _ f r3 [] .nil _ b3 p3 d3 (by simpa using fun e => h13 e.symm)
          (parseExtend_of_gitlabRef hg3) hf3 hd3]
      rfl
    have hin2 : ∀ cs, resolveWithFetcher (fuel + 1) (some f) (.cons "extends" raw2 .nil)
        ⟨[r2, r3, r1], cs⟩ =
        some ⟨.error (.circular r3), .cons "extends" raw2 .nil, ⟨[r2, r3, r1], cs⟩⟩ := by
      intro cs
      rw [resolve_extends fuel f _ _ raw2 _ (by simp [Doc.get]) hs2,
        extendsLoop_visited _ f r3 [] .nil _ (by simp)]
    rw [resolve_extends (fuel + 1) f cfg _ raw _ hcfg hrs,
      extendsLoop_nested _ f r1 [r2] .nil _ b1 p1 d1 raw1 (by simp)
        (parseExtend_of_gitlabRef hg1) hf1 hd1]
    simp only [hin1, Option.map_some']
    rw [extendsLoop_nested _ f r2 [] _ _ b2 p2 d2 raw2
      (by simp [h23, Ne.symm h12]) (parseExtend_of_gitlabRef hg2) hf2 hd2]
    simp only [hin2, Option.map_some']
    exact ⟨_, _, rfl, rfl, rfl, rfl⟩
  · intro g n cfg2 env2 rawDup l out hc hl hdup hres
    cases n with
    | zero => simp [resolveWithFetcher] at hres
    | succ n =>
      rw [resolve_extends n g cfg2 env2 rawDup l hc hl] at hres
      cases hloop : extendsLoop
          (fun sub e => (resolveWithFetcher n (some g) sub e).map (fun o => (o.ret, o.env)))
          g l .nil env2 with
      | none => simp [hloop] at hres
      | some r =>
        obtain ⟨ret, env1⟩ := r
        cases ret with
        | error e =>
          simp only [hloop, Option.some.injEq] at hres
          subst hres
          exact ⟨e, rfl⟩
        | ok merged =>
          exact absurd (extendsLoop_ok_nodup _ g (resolve_recur_walk g n) l .nil env2 merged env1
            hloop).1 hdup

/-- C14 at `diamondFetcher`: `gitlab>a` and `gitlab>b` both extend
`gitlab>c`. -/
theorem resolve_diamond_is_cycle_witness :
    (∃ out e, resolveWithFetcher 2 (some diamondFetcher) diamondCfg ⟨[], []⟩ = some out ∧
      out.ret = .error e ∧ e.isCircular = true ∧
      e.message = "circular reference detected: " ++ "gitlab>c") ∧
    (∃ e, (Outcome.mk (.error (.circular "gitlab>a"))
        (.cons "extends" (.arr [.str "gitlab>a", .str "gitlab>a"]) .nil)
        ⟨["gitlab>c", "gitlab>a"], [("main", "a"), ("main", "c")]⟩).ret = .error e) :=
  have h := resolve_diamond_is_cycle 0 diamondFetcher diamondCfg [] _ _ _
    "gitlab>a" "gitlab>b" "gitlab>c" "main" "a" "main" "b" "main" "c" _ _ _
    (by decide) (by decide) (by decide)
    (GitlabRef.onMain "a") (GitlabRef.onMain "b") (GitlabRef.onMain "c")
    rfl rfl rfl rfl rfl rfl rfl rfl rfl rfl
  ⟨h.1, h.2 diamondFetcher 2
    (.cons "extends" (.arr [.str "gitlab>a", .str "gitlab>a"]) .nil) ⟨[], []⟩ _
    ["gitlab>a", "gitlab>a"] _ rfl rfl (by decide) rfl⟩

/-- C12: the own fields of a document win over everything inherited. When a
well-formed document `cfg` that declares `extends` resolves to `res`, every path
of keys of `cfg`, not starting at the top-level `extends`, that leads through
nested mappings to a value `v` that is not a mapping leads to the same `v` in
`res`, whatever the fetcher returns. -/
theorem local_fields_override (fuel : Nat) (f : Fetcher) (cfg : Doc) (env : Env)
    (out : Outcome) (res : Doc) (raw : Value) (path : List String) (v : Value)
    (hwf : Doc.WellFormed cfg)
    (h : resolveWithFetcher fuel (some f) cfg env = some out) (hok : out.ret = .ok res)
    (hx : Doc.get "extends" cfg = some raw) (hhead : path.head? ≠ some "extends")
    (hpath : Doc.getPath path cfg = some v) (hv : v.isMapping = false) :
    Doc.getPath path res = some v := by
  obtain ⟨⟨merged, hres⟩, _⟩ := resolve_ok_overlay f fuel cfg env out res raw h hok hx
  rw [hres]
  apply getPath_mergeMaps v hv path merged _ (wellFormed_delete "extends" cfg hwf)
  rw [getPath_delete "extends" path cfg hhead]
  exact hpath

/-- C12 at `TestResolveConfigStringWithFetcher_Basic`: `rules.maxLen` of the
document is found in the result. -/
theorem local_fields_override_witness :
    resolveWithFetcher 1 (some testBasicFetcher) testBasicCfg ⟨[], []⟩ = some testBasicOutcome ∧
    Doc.getPath ["rules", "maxLen"] testBasicCfg = some (.num 100) ∧
    Doc.getPath ["rules", "maxLen"]
      (.cons "rules" (.obj (.cons "indent" (.num 2) (.cons "quotes" (.str "single")
        (.cons "maxLen" (.num 100) .nil)))) .nil) = some (.num 100) :=
  ⟨rfl, rfl,
    local_fields_override 1 testBasicFetcher testBasicCfg ⟨[], []⟩ testBasicOutcome _ _
      ["rules", "maxLen"] (.num 100)
      (by simp [testBasicCfg, Doc.WellFormed, Value.WellFormed, Value.WellFormedList, Doc.keys])
      rfl rfl rfl (by decide) rfl rfl⟩

/-- C13: a fetched document lies above its own ancestors. When `cfg` extends
the single reference `r1`, the document `parent` fetched for `r1` extends the
single reference `r2`, different from `r1`, and the document `grand` fetched for
`r2` has no `extends`, resolving `cfg` from an empty visited set succeeds and
returns `mergeMaps (mergeMaps grand parent) (cfg minus extends)`, with `parent`
as the fetcher returned it. So a value of `cfg` that is not a mapping wins over
`parent` and `grand`, and such a value of `parent`, under a key that `cfg` lacks,
wins over `grand`. All maps are taken with one entry per key. -/
theorem resolve_nested_ancestors (fuel : Nat) (f : Fetcher) (cfg : Doc)
    (calls : List (String × String)) (raw rawParent : Value) (r1 r2 : String)
    (b1 p1 b2 p2 : String) (parent grand : Doc)
    (hcfg : Doc.get "extends" cfg = some raw) (hrs : toStringSlice raw = ([r1], true))
    (hg1 : GitlabRef r1 b1 p1) (hf1 : f b1 p1 = .ok parent)
    (hp : Doc.get "extends" parent = some rawParent)
    (hps : toStringSlice rawParent = ([r2], true)) (hne : r2 ≠ r1)
    (hg2 : GitlabRef r2 b2 p2) (hf2 : f b2 p2 = .ok grand)
    (hgl : Doc.get "extends" grand = none)
    (hcfgKeys : (Doc.keys cfg).Nodup) (hparentKeys : (Doc.keys parent).Nodup)
    (hgrandKeys : (Doc.keys grand).Nodup) :
    ∃ out res, resolveWithFetcher (fuel + 2) (some f) cfg ⟨[], calls⟩ = some out ∧
      out.ret = .ok res ∧
      res = mergeMaps (mergeMaps grand parent) (Doc.delete "extends" cfg) ∧
      (∀ k v, k ≠ "extends" → Doc.get k cfg = some v → v.isMapping = false →
        Doc.get k res = some v) ∧
      (∀ k v, Doc.get k (Doc.delete "extends" cfg) = none → Doc.get k parent = some v →
        v.isMapping = false → Doc.get k res = some v) := by
  have hsub : resolveWithFetcher (fuel + 1) (some f) (.cons "extends" rawParent .nil)
      ⟨[r1], calls ++ [(b1, p1)]⟩ =
      some ⟨.ok grand, .nil, ⟨[r2, r1], calls ++ [(b1, p1)] ++ [(b2, p2)]⟩⟩ := by
    rw [resolve_extends fuel f _ _ rawParent _ (by simp [Doc.get]) hps,
      extendsLoop_leaf _ f r2 [] .nil _ b2 p2 grand (by simpa using hne)
        (parseExtend_of_gitlabRef hg2) hf2 hgl]
    have hdel : Doc.delete "extends" (.cons "extends" rawParent .nil) = .nil := by
      simp [Doc.delete]
    simp only [extendsLoop, hdel, mergeMaps_nil_left grand hgrandKeys,
      mergeMaps_nil_right grand hgrandKeys]
  have hres : resolveWithFetcher (fuel + 2) (some f) cfg ⟨[], calls⟩ =
      some ⟨.ok (mergeMaps (mergeMaps grand parent) (Doc.delete "extends" cfg)),
        Doc.delete "extends" cfg, ⟨[r2, r1], calls ++ [(b1, p1)] ++ [(b2, p2)]⟩⟩ := by
    rw [resolve_extends (fuel + 1) f cfg _ raw _ hcfg hrs,
      extendsLoop_nested _ f r1 [] .nil _ b1 p1 parent rawParent (by simp)
        (parseExtend_of_gitlabRef hg1) hf1 hp]
    simp only [hsub, Option.map_some', extendsLoop,
      mergeMaps_nil_left _ (nodup_keys_mergeMaps grand parent)]
  have hdelKeys := nodup_keys_delete "extends" cfg hcfgKeys
  have hmid := nodup_keys_mergeMaps grand parent
  refine ⟨_, _, hres, rfl, rfl, ?_, ?_⟩
  · intro k v hk hkv hv
    rw [get_mergeMaps k _ _ hmid hdelKeys, get_delete_other "extends" k hk, hkv]
    cases v <;> simp_all [mergeEntry, Value.isMapping]
  · intro k v hk hkv hv
    rw [get_mergeMaps k _ _ hmid hdelKeys, hk,
      get_mergeMaps k _ _ hgrandKeys hparentKeys, hkv]
    cases v <;> simp_all [mergeEntry, Value.isMapping]

/-- C13 at `nestedFetcher`: the document sets `x`, the parent `a` sets `x` and
extends `gitlab>b`, which sets `y`. -/
theorem resolve_nested_ancestors_witness :
    ∃ out res, resolveWithFetcher 2 (some nestedFetcher) nestedOwnCfg ⟨[], []⟩ = some out ∧
      out.ret = .ok res ∧
      res = mergeMaps
        (mergeMaps (.cons "y" (.num 2) .nil)
          (.cons "extends" (.str "gitlab>b") (.cons "x" (.num 1) .nil)))
        (Doc.delete "extends" nestedOwnCfg) ∧
      (∀ k v, k ≠ "extends" → Doc.get k nestedOwnCfg = some v → v.isMapping = false →
        Doc.get k res = some v) ∧
      (∀ k v, Doc.get k (Doc.delete "extends" nestedOwnCfg) = none →
        Doc.get k (.cons "extends" (.str "gitlab>b") (.cons "x" (.num 1) .nil)) = some v →
        v.isMapping = false → Doc.get k res = some v) :=
  resolve_nested_ancestors 0 nestedFetcher nestedOwnCfg [] _ _ "gitlab>a" "gitlab>b"
    "main" "a" "main" "b" _ _ rfl rfl (GitlabRef.onMain "a") rfl rfl rfl (by decide)
    (GitlabRef.onMain "b") rfl rfl (by decide) (by decide) (by decide)

/-- C18: the only change a resolution makes to the caller's document is the
removal of the top-level `extends` key. When a document that declares `extends`
resolves to a document, the caller's map afterwards is the original without
that key: `extends` is absent, every other key is present exactly when it was
and reads the same value. In every other case, a document without `extends` or
a resolution that ends with an error, the caller's map is left as it was.
On the store, where maps are held by reference: a call of `mergeMaps` returns a
fresh map object and leaves every map object that existed, its two arguments
among them, with the entries it had. A resolution leaves every map object that
existed with the entries it had, the caller's document `c` excepted, which
loses `extends` when the resolution returns a document and is untouched
otherwise; and every map object of a document returned by the fetcher has at
the end the entries it had when the fetcher returned it.
The run on the store is the run on values: `mergeMaps` on the store, given two
map objects that stand for `docA` and `docB` and fuel above the nesting of
`docB`, returns, and its fresh object stands for `mergeMaps docA docB`;
`loadDoc` puts `cfg` into any store as an object that stands for it; and from
any store in which `c` stands for `cfg`, with merge fuel above the nesting of
`cfg` and of the documents fetched, the resolution on the store returns with the
same surroundings, the same error or an object that stands for the returned
document, and `c` standing for the caller's map `out.cfg`. -/
theorem caller_document_frame (fuel : Nat) (f : Fetcher) (cfg : Doc) (env : Env)
    (out : Outcome) (h : resolveWithFetcher fuel (some f) cfg env = some out) :
    (∀ res raw, out.ret = .ok res → Doc.get "extends" cfg = some raw →
      out.cfg = Doc.delete "extends" cfg ∧ Doc.get "extends" out.cfg = none ∧
      (∀ k, k ≠ "extends" → Doc.get k out.cfg = Doc.get k cfg) ∧
      (∀ k, k ∈ Doc.keys out.cfg ↔ k ∈ Doc.keys cfg ∧ k ≠ "extends")) ∧
    (Doc.get "extends" cfg = none → out.cfg = cfg) ∧
    (∀ e, out.ret = .error e → out.cfg = cfg) ∧
    (∀ (mfuel : Nat) (s : Store) (a b : Nat) (s2 : Store) (o : Nat),
      mergeMapsS mfuel s a b = some (s2, o) →
      o = s.length ∧ ∀ i, i < s.length → Store.read s2 i = Store.read s i) ∧
    (∀ (n mfuel : Nat) (g : Fetcher) (c : Nat) (r : Run) (ret : Except Error Nat) (r1 : Run),
      c < r.store.length → resolveS n mfuel g c r = some (ret, r1) →
      (∀ i, i < r.store.length → i ≠ c → Store.read r1.store i = Store.read r.store i) ∧
      ((∃ o raw, ret = .ok o ∧ SMap.get "extends" (Store.read r.store c) = some raw) →
        Store.read r1.store c = SMap.delete "extends" (Store.read r.store c)) ∧
      ((¬ ∃ o raw, ret = .ok o ∧ SMap.get "extends" (Store.read r.store c) = some raw) →
        Store.read r1.store c = Store.read r.store c) ∧
      ∃ new, r1.fetched = r.fetched ++ new ∧
        ∀ e ∈ new, ∀ i, i < e.2.length → Store.read r1.store (e.1 + i) = e.2.getD i []) ∧
    (∀ (mfuel lo : Nat) (s : Store) (a b : Nat) (docA docB : Doc),
      HoldsV (fun i => lo ≤ i ∧ i < s.length) s (.obj docA) (.ref a) →
      HoldsV (fun i => lo ≤ i ∧ i < s.length) s (.obj docB) (.ref b) →
      Doc.depth docB < mfuel →
      ∃ s2, mergeMapsS mfuel s a b = some (s2, s.length) ∧
        HoldsV (fun i => lo ≤ i ∧ i < s2.length) s2 (.obj (mergeMaps docA docB))
          (.ref s.length)) ∧
    (∀ s : Store, s.length ≤ (loadDoc cfg s).1 ∧ (loadDoc cfg s).1 < (loadDoc cfg s).2.length ∧
      HoldsE (fun i => s.length ≤ i ∧ i < (loadDoc cfg s).1) (loadDoc cfg s).2 cfg
        (Store.read (loadDoc cfg s).2 (loadDoc cfg s).1)) ∧
    (∀ (mfuel : Nat) (r : Run) (c lo : Nat),
      Doc.depth cfg < mfuel → fetchedDepth f out.env.calls < mfuel →
      r.env = env → lo ≤ c → c < r.store.length →
      HoldsE (fun i => lo ≤ i ∧ i < c) r.store cfg (Store.read r.store c) →
      ∃ retS r1, resolveS fuel mfuel f c r = some (retS, r1) ∧ r1.env = out.env ∧
        RetHolds lo r1.store out.ret retS ∧
        HoldsE (fun i => lo ≤ i ∧ i < c) r1.store out.cfg (Store.read r1.store c)) := by
  refine ⟨?_, ?_, ?_, ?_, ?_, ?_, ?_, ?_⟩
  · intro res raw hok hx
    have hc := (resolve_ok_overlay f fuel cfg env out res raw h hok hx).2
    rw [hc]
    exact ⟨rfl, get_delete_same "extends" cfg,
      fun k hk => get_delete_other "extends" k hk cfg,
      fun k => mem_keys_delete "extends" k cfg⟩
  · intro hx
    cases fuel with
    | zero => simp [resolveWithFetcher] at h
    | succ fuel =>
      rw [resolve_leaf fuel f cfg env hx, Option.some.injEq] at h
      subst h
      rfl
  · intro e he
    cases fuel with
    | zero => simp [resolveWithFetcher] at h
    | succ fuel =>
      cases hx : Doc.get "extends" cfg with
      | none =>
        rw [resolve_leaf fuel f cfg env hx, Option.some.injEq] at h
        subst h
        rfl
      | some raw =>
        cases hl : toStringSlice raw with
        | mk l ok =>
          cases ok with
          | false =>
            rw [resolve_shape fuel f cfg env raw l hx hl, Option.some.injEq] at h
            subst h
            rfl
          | true =>
            rw [resolve_extends fuel f cfg env raw l hx hl] at h
            cases hloop : extendsLoop
                (fun sub e => (resolveWithFetcher fuel (some f) sub e).map
                  (fun o => (o.ret, o.env))) f l .nil env with
            | none => simp [hloop] at h
            | some r =>
              obtain ⟨ret, env1⟩ := r
              cases ret with
              | error e1 =>
                simp only [hloop, Option.some.injEq] at h
                subst h
                rfl
              | ok merged =>
                simp only [hloop, Option.some.injEq] at h
                subst h
                cases he
  · intro mfuel s a b s2 o hm
    obtain ⟨ho, _, hkeep⟩ := mergeMapsS_frame mfuel s a b s2 o hm
    exact ⟨ho, hkeep⟩
  · intro n mfuel g c r ret r1 hc hres
    obtain ⟨⟨_, hkeep, new, hlog, hnew⟩, hdel, hsame⟩ :=
      resolveS_frame n mfuel g c r ret r1 hc hres
    exact ⟨fun i hi hne => hkeep i hi (fun e => hne (Option.some.inj e)), hdel, hsame, new, hlog,
      fun e he => (hnew e he).2.2⟩
  · intro mfuel lo s a b docA docB hA hB hd
    obtain ⟨s2, hs2, _, _, hres⟩ := mergeMapsS_step mfuel lo s a b docA docB hA hB hd
    exact ⟨s2, hs2, hres⟩
  · exact fun s => loadDoc_holdsE cfg s
  · intro mfuel r c lo hd hfd henv hlo hc hcfg
    exact resolveS_follows fuel f cfg env out h mfuel r c lo hd hfd henv hlo hc hcfg

/-- C18 at `TestResolveConfigStringWithFetcher_Basic`, where the caller's
document holds `rules` alone after the resolution, and on the store at
`nestedStoreStart`, where the resolution ends in `nestedStoreEnd`: the caller's
map at address 0 has lost `extends`, and the two fetched documents, at the
addresses 2 and 5, are as the fetcher returned them. From the store that
`loadDoc` builds for the caller's document of the test, the run on the store
returns and agrees with the outcome of the test. -/
theorem caller_document_frame_witness :
    resolveWithFetcher 1 (some testBasicFetcher) testBasicCfg ⟨[], []⟩ = some testBasicOutcome ∧
    (testBasicOutcome.cfg = Doc.delete "extends" testBasicCfg ∧
      Doc.get "extends" testBasicOutcome.cfg = none ∧
      (∀ k, k ≠ "extends" → Doc.get k testBasicOutcome.cfg = Doc.get k testBasicCfg) ∧
      (∀ k, k ∈ Doc.keys testBasicOutcome.cfg ↔ k ∈ Doc.keys testBasicCfg ∧ k ≠ "extends")) ∧
    resolveS 2 3 nestedFetcher 0 nestedStoreStart = some (.ok 10, nestedStoreEnd) ∧
    ((∀ i, i < nestedStoreStart.store.length → i ≠ 0 →
        Store.read nestedStoreEnd.store i = Store.read nestedStoreStart.store i) ∧
      ((∃ o raw, Except.ok 10 = (Except.ok o : Except Error Nat) ∧
          SMap.get "extends" (Store.read nestedStoreStart.store 0) = some raw) →
        Store.read nestedStoreEnd.store 0 =
          SMap.delete "extends" (Store.read nestedStoreStart.store 0)) ∧
      ((¬ ∃ o raw, Except.ok 10 = (Except.ok o : Except Error Nat) ∧
          SMap.get "extends" (Store.read nestedStoreStart.store 0) = some raw) →
        Store.read nestedStoreEnd.store 0 = Store.read nestedStoreStart.store 0) ∧
      ∃ new, nestedStoreEnd.fetched = nestedStoreStart.fetched ++ new ∧
        ∀ e ∈ new, ∀ i, i < e.2.length →
          Store.read nestedStoreEnd.store (e.1 + i) = e.2.getD i []) ∧
    (∃ retS r1, resolveS 1 3 testBasicFetcher (loadDoc testBasicCfg []).1
        ⟨(loadDoc testBasicCfg []).2, ⟨[], []⟩, []⟩ = some (retS, r1) ∧
      r1.env = testBasicOutcome.env ∧ RetHolds 0 r1.store testBasicOutcome.ret retS ∧
      HoldsE (fun i => 0 ≤ i ∧ i < (loadDoc testBasicCfg []).1) r1.store testBasicOutcome.cfg
        (Store.read r1.store (loadDoc testBasicCfg []).1)) :=
  have h := caller_document_frame 1 testBasicFetcher testBasicCfg ⟨[], []⟩ testBasicOutcome rfl
  ⟨rfl, h.1 _ _ rfl rfl, rfl,
    h.2.2.2.2.1 2 3 nestedFetcher 0 nestedStoreStart (.ok 10) nestedStoreEnd (by decide) rfl,
    h.2.2.2.2.2.2.2 3 ⟨(loadDoc testBasicCfg []).2, ⟨[], []⟩, []⟩ (loadDoc testBasicCfg []).1 0
      (by decide) (by decide) rfl (Nat.zero_le _) (by decide) (h.2.2.2.2.2.2.1 []).2.2⟩

/-! ## Normalisation of the `extends` value -/

/-- C10: `toStringSlice` is all-or-nothing: a string `s` gives `([s], true)`; a
sequence of strings (the empty one included) gives the same strings in the same
order with `true`; every other value, a sequence with a non-string element at
any position included, gives `(nil, false)`. -/
theorem toStringSlice_all_or_nothing :
    (∀ s : String, toStringSlice (.str s) = ([s], true)) ∧
    (∀ l : List String, toStringSlice (.arr (l.map Value.str)) = (l, true)) ∧
    (∀ raw : Value, (∀ s : String, raw ≠ .str s) →
      (∀ l : List String, raw ≠ .arr (l.map Value.str)) →
      toStringSlice raw = ([], false)) := by
  refine ⟨fun s => rfl, fun l => ?_, fun raw hs hl => ?_⟩
  · simp [toStringSlice, toStringSliceLoop_strings]
  · cases raw with
    | str s => exact absurd rfl (hs s)
    | arr xs =>
      rw [toStringSlice]
      apply toStringSliceLoop_other
      intro l h
      exact hl l (by rw [h])
    | null => rfl
    | bool b => rfl
    | num n => rfl
    | obj m => rfl

/-- C10 at the last case of `TestToStringSlice`, a sequence whose second
element is a number. -/
theorem toStringSlice_all_or_nothing_witness :
    toStringSlice (.arr [.str "a", .num 123]) = ([], false) :=
  toStringSlice_all_or_nothing.2.2 (.arr [.str "a", .num 123])
    (fun s h => by cases h)
    (fun l h => by
      match l, h with
      | [], h => simp at h
      | [_], h => simp at h
      | _ :: _ :: _, h => simp at h)

end configresolver
